import Mathlib

/-!
Verification of three programs: DFS edge labelling (`src/DFS_Labeling.cpp`),
sequence alignment (`src/Alignment.cpp`) and village counties
(`src/Villages.cpp`).

The definitions of the three embeddings come first (namespaces `DFSLabeling`,
`Villages`, `Alignment`), the theorems about them after.

Conventions of the embeddings:
* C++ `int` values (vertex ids, timestamps, counters, table cells) are `Int`;
  the sizes that occur are far below `2^31`, so no wrap-around is modelled.
* `vector::operator[]` outside the vector is undefined behaviour in the source;
  the embeddings report it as `Err.outOfRange`.
* Recursion and `while` loops are unbounded in the source; the embeddings take a
  fuel argument and report exhaustion as `Err.outOfFuel`.
* `Run.trace` is ghost state: the code never reads it.  It records, in
  chronological order, the calls the traversal makes together with the graph
  they were made in, so that statements about "the moment an edge is scanned"
  can be written down.

Structure of the development on the DFS labelling:
* `Inv` is the invariant of the graph, `RInv` adds the ghost trace (`EvOK` says
  what holds of each recorded event), `Ext` relates a graph to a later one.
* `visit_inv`, `leave_inv`, `scan_inv` carry `Inv` across the three primitive
  steps; `childLoop_spec`, `DFS_recOK` and `restartLoop_spec` carry `RInv`
  across the loops and the recursion, and show that they return when the fuel
  is at least the number of unvisited vertices.
* `traverse_spec` states the outcome of a whole run (`Final`); the theorems
  named after the claims are read off from it.

* `DFS_inv` and `path_descent` follow the events of a run; `maxDepth` measures
  the nesting of the calls of `DFS` along the trace.

Structure of the development on the villages:
* `Conn` is connectivity by roads, `Components` counts the components;
  `RegInv` is the invariant of the region, kept by `addRoad` (`addRoad_spec`).

Structure of the development on the alignment:
* `ed` is the recurrence `OPT(i, j)`; `ed_attained` and `ed_le_cost` show that
  it is the minimum cost of an alignment of the two prefixes.
* `Good` is the invariant of the memo table; `opt_spec` shows that `opt`
  returns `ed` and keeps `Good`; `traceLoop_spec` follows the traceback.
-/

namespace DFSLabeling

/-! ## Data model -/

/-- Edge classification, `enum EdgeType`. -/
inductive EdgeType where
  | Undefined
  | Tree
  | Forward
  | Back
  | Cross
  deriving DecidableEq, Repr

/-- Failure modes of the embedding. -/
inductive Err where
  | outOfRange
  | outOfFuel
  deriving DecidableEq, Repr

/-- The class `Node`: adjacency list, recorded edge types, timestamps. -/
structure Node where
  children : List Int := []
  edgeTypes : List EdgeType := []
  pre : Int := -1
  post : Int := -1
  deriving DecidableEq, Repr

/-- The class `Graph`. -/
structure Graph where
  nodes : List Node := []
  size : Int := 0
  DFSpath : List Int := []
  smallestUnvisited : Int := 0
  currentRoot : Int := 0
  preorder : Int := 0
  postorder : Int := 0
  deriving DecidableEq, Repr

/-! ## `Node` members -/

/-- Member `Node::isVisited`: `pre >= 0`. -/
def Node.isVisited (nd : Node) : Bool := decide (0 ≤ nd.pre)

/-- Member `Node::addChild`: `children.push_back(n)`. -/
def Node.addChild (nd : Node) (n : Int) : Node :=
  { nd with children := nd.children ++ [n] }

/-- Member `Node::setEdgeType`: the target argument is ignored, the type is pushed
at the back of `edgeTypes`. -/
def Node.setEdgeType (nd : Node) (_v : Int) (e : EdgeType) : Node :=
  { nd with edgeTypes := nd.edgeTypes ++ [e] }

/-- Member `Node::getEdgeType`: `edgeTypes[find(children, v) - children.begin()]`. -/
def Node.getEdgeType (nd : Node) (v : Int) : Except Err EdgeType :=
  match nd.edgeTypes[nd.children.indexOf v]? with
  | some e => .ok e
  | none => .error .outOfRange

/-! ## `Graph` members -/

/-- The access `nodes[n]`. -/
def Graph.getNode (g : Graph) (n : Int) : Except Err Node :=
  if 0 ≤ n then
    match g.nodes[n.toNat]? with
    | some nd => .ok nd
    | none => .error .outOfRange
  else .error .outOfRange

/-- Write back `nodes[n]` (only used after a successful `getNode`). -/
def Graph.setNode (g : Graph) (n : Int) (nd : Node) : Graph :=
  { g with nodes := g.nodes.set n.toNat nd }

/-- Member `Graph::countChildren`: `nodes[n].countChildren()`. -/
def Graph.countChildren (g : Graph) (n : Int) : Except Err Nat := do
  let nd ← g.getNode n
  pure nd.children.length

/-- Member `Graph::getChild`: `nodes[n].children[c]`. -/
def Graph.getChild (g : Graph) (n : Int) (c : Nat) : Except Err Int := do
  let nd ← g.getNode n
  match nd.children[c]? with
  | some v => pure v
  | none => throw .outOfRange

/-- Member `Graph::isVisited`: `n >= size || nodes[n].isVisited()`. -/
def Graph.isVisited (g : Graph) (n : Int) : Except Err Bool :=
  if g.size ≤ n then pure true
  else do
    let nd ← g.getNode n
    pure nd.isVisited

/-- Member `Graph::isCurrentRoot`: `n == currentRoot`. -/
def Graph.isCurrentRoot (g : Graph) (n : Int) : Bool := decide (n = g.currentRoot)

/-- Member `Graph::getEdgeType`: `nodes[u].getEdgeType(v)`. -/
def Graph.getEdgeType (g : Graph) (u v : Int) : Except Err EdgeType := do
  let nd ← g.getNode u
  nd.getEdgeType v

/-- The `for` loop of `Graph::updateSmallestUnvisited`; the first argument is
the number of iterations left. -/
def Graph.suLoop : Nat → Graph → Except Err Graph
  | 0, g => pure g
  | k + 1, g => do
    let vis ← g.isVisited g.smallestUnvisited
    if vis then Graph.suLoop k { g with smallestUnvisited := g.smallestUnvisited + 1 }
    else pure g

/-- Member `Graph::updateSmallestUnvisited`: advance the cursor once, then run
the loop `nodes.size()` times at most. -/
def Graph.updateSmallestUnvisited (g : Graph) : Except Err Graph :=
  Graph.suLoop g.nodes.length { g with smallestUnvisited := g.smallestUnvisited + 1 }

/-- Member `Graph::visit`: assign the preorder number, advance the counter,
append to `DFSpath`, and advance the cursor when `n` is the cursor. -/
def Graph.visit (g : Graph) (n : Int) : Except Err Graph := do
  let nd ← g.getNode n
  let g1 := g.setNode n { nd with pre := g.preorder }
  let g2 := { g1 with preorder := g1.preorder + 1 }
  let g3 := { g2 with DFSpath := g2.DFSpath ++ [n] }
  if n = g3.smallestUnvisited then g3.updateSmallestUnvisited else pure g3

/-- Member `Graph::leave`: assign the postorder number, advance the counter. -/
def Graph.leave (g : Graph) (n : Int) : Except Err Graph := do
  let nd ← g.getNode n
  let g1 := g.setNode n { nd with post := g.postorder }
  pure { g1 with postorder := g1.postorder + 1 }

/-- The classification rule inside `Graph::updateEdge`, as a function of the
three values the code reads. -/
def classify (uPre vPre vPost : Int) : EdgeType :=
  if vPre < 0 then .Tree
  else if vPre > uPre then .Forward
  else if 0 ≤ vPost then .Cross
  else .Back

/-- Member `Graph::updateEdge`: classify the edge from the timestamps, push the
type at the back of the `edgeTypes` of `u`. -/
def Graph.updateEdge (g : Graph) (u v : Int) : Except Err Graph := do
  let nu ← g.getNode u
  let nv ← g.getNode v
  let uPre := nu.pre
  let vPre := nv.pre
  let eType :=
    if vPre < 0 then EdgeType.Tree
    else if vPre > uPre then EdgeType.Forward
    else if 0 ≤ nv.post then EdgeType.Cross
    else EdgeType.Back
  pure (g.setNode u (nu.setEdgeType v eType))

/-- Member `Graph::printPath`: prints `0`, then the entries of `DFSpath` after the
first.  Advancing `begin()` of an empty vector is undefined behaviour. -/
def Graph.printPath (g : Graph) : Except Err (List Int) :=
  match g.DFSpath with
  | [] => throw .outOfRange
  | _ :: rest => pure (0 :: rest)

/-! ## Helper functions -/

/-- The edge loop of `buildGraph`. -/
def addEdges : List (Int × Int) → Graph → Except Err Graph
  | [], g => pure g
  | (u, v) :: es, g => do
    let nd ← g.getNode u
    addEdges es (g.setNode u (nd.addChild v))

/-- Function `buildGraph` on the parsed input: `n` nodes, then the edges in input
order.  Returns the graph and the stored edge list.  With a negative `n` the
call `assign(n, Node())` does not produce a vector; the embedding reports
`Err.outOfRange`. -/
def buildGraph (n : Int) (edges : List (Int × Int)) :
    Except Err (Graph × List (Int × Int)) :=
  if n < 0 then throw .outOfRange
  else do
    let g ← addEdges edges { nodes := List.replicate n.toNat {} }
    pure ({ g with size := n }, edges)

/-- Ghost events of a traversal. -/
inductive Event where
  /-- The call `DFS(n)` is entered in graph `g`. -/
  | call (n : Int) (g : Graph)
  /-- The call `updateEdge(u, v)` is about to run in `g` for the `c`-th child of `u`. -/
  | scan (u : Int) (c : Nat) (v : Int) (g : Graph)
  /-- The call `leave(n)` is about to run in `g`. -/
  | leave (n : Int) (g : Graph)
  /-- The restart loop is about to call `DFS(r)` in `g`. -/
  | restart (r : Int) (g : Graph)
  /-- The call `DFS(n)` returns. -/
  | ret (n : Int)
  deriving DecidableEq, Repr

/-- The graph together with the ghost trace. -/
structure Run where
  g : Graph
  trace : List Event := []
  deriving DecidableEq, Repr

/-- Append a ghost event. -/
def Run.log (s : Run) (e : Event) : Run := { s with trace := s.trace ++ [e] }

/-- The `for` loop over the children of `n` in `DFS`; `rec` is the recursive
call, the first number is the count of iterations left, the second is `c`. -/
def childLoop (rec : Run → Int → Except Err Run) (n : Int) :
    Nat → Nat → Run → Except Err Run
  | 0, _, s => pure s
  | k + 1, c, s => do
    let child ← s.g.getChild n c
    let g1 ← s.g.updateEdge n child
    let s1 : Run := { g := g1, trace := s.trace ++ [Event.scan n c child s.g] }
    let vis ← s1.g.isVisited child
    let s2 ← if vis then pure s1 else rec s1 child
    childLoop rec n k (c + 1) s2

/-- The `while` loop that restarts the search from `smallestUnvisited`; the
number bounds the iterations. -/
def restartLoop (rec : Run → Int → Except Err Run) : Nat → Run → Except Err Run
  | 0, s => do
    let vis ← s.g.isVisited s.g.smallestUnvisited
    if vis then pure s else throw .outOfFuel
  | k + 1, s => do
    let su := s.g.smallestUnvisited
    let vis ← s.g.isVisited su
    if vis then pure s
    else do
      let s1 ← rec (s.log (Event.restart su s.g)) su
      restartLoop rec k s1

/-- The function `DFS`, with fuel bounding the recursion depth and the number
of restarts. -/
def DFS : Nat → Run → Int → Except Err Run
  | 0, _, _ => throw .outOfFuel
  | fuel + 1, s, n => do
    let g1 ← s.g.visit n
    let cnt ← g1.countChildren n
    let s2 ← childLoop (DFS fuel) n cnt 0
      { g := g1, trace := s.trace ++ [Event.call n s.g] }
    let g3 ← s2.g.leave n
    let s3 : Run := { g := g3, trace := s2.trace ++ [Event.leave n s2.g] }
    let s4 ← if g3.isCurrentRoot n then restartLoop (DFS fuel) fuel s3 else pure s3
    pure (s4.log (Event.ret n))

/-- The letter `output` prints for an edge type. -/
def letter : EdgeType → Char
  | .Undefined => '?'
  | .Tree => 't'
  | .Forward => 'f'
  | .Back => 'b'
  | .Cross => 'c'

/-- The edge loop of `output`: one line `u v c` per stored edge. -/
def outputEdges (g : Graph) : List (Int × Int) → Except Err (List (Int × Int × Char))
  | [] => pure []
  | (u, v) :: es => do
    let e ← g.getEdgeType u v
    let rest ← outputEdges g es
    pure ((u, v, letter e) :: rest)

/-- Function `output`: the printed path line and the printed edge lines. -/
def output (g : Graph) (edges : List (Int × Int)) :
    Except Err (List Int × List (Int × Int × Char)) := do
  let path ← g.printPath
  let lines ← outputEdges g edges
  pure (path, lines)

/-- The body of `main` up to the end of the traversal. -/
def traverse (fuel : Nat) (n : Int) (edges : List (Int × Int)) : Except Err Run := do
  let (g, _) ← buildGraph n edges
  DFS fuel { g := g } 0

/-- The function `main`: build, traverse, print. -/
def main (fuel : Nat) (n : Int) (edges : List (Int × Int)) :
    Except Err (List Int × List (Int × Int × Char)) := do
  let (g, e) ← buildGraph n edges
  let s ← DFS fuel { g := g } 0
  output s.g e

/-! ## Specification vocabulary -/

/-- Total read of `nodes[x]`, used in statements. -/
def Graph.nd (g : Graph) (x : Int) : Node := g.nodes.getD x.toNat {}

/-- The vertex id lies in `[0, size)`. -/
def Graph.InR (g : Graph) (x : Int) : Prop := 0 ≤ x ∧ x < g.size

/-- Slot `c` of the adjacency list of `u` holds the target `v`, and the type
recorded at the same position of `edgeTypes` is `t`. -/
def Slot (g : Graph) (u : Int) (c : Nat) (v : Int) (t : EdgeType) : Prop :=
  g.InR u ∧ (g.nd u).children[c]? = some v ∧ (g.nd u).edgeTypes[c]? = some t

/-- Some edge from `u` to `v` is recorded as `Tree`. -/
def TreeEdge (g : Graph) (u v : Int) : Prop := ∃ c, Slot g u c v EdgeType.Tree

/-- A possibly empty path of edges recorded as `Tree`. -/
def TreePath (g : Graph) : Int → Int → Prop := Relation.ReflTransGen (TreeEdge g)

/-- A path of exactly `k` edges recorded as `Tree`. -/
def TreeWalk (g : Graph) : Nat → Int → Int → Prop
  | 0, u, v => u = v
  | k + 1, u, v => ∃ w, TreeEdge g u w ∧ TreeWalk g k w v

/-- The state invariant of the traversal. -/
structure Inv (g : Graph) : Prop where
  len : (g.nodes.length : Int) = g.size
  root0 : g.currentRoot = 0
  child_inR : ∀ x, g.InR x → ∀ v ∈ (g.nd x).children, g.InR v
  pre_cnt : g.preorder = g.DFSpath.length
  pre_rng : ∀ x, g.InR x → (g.nd x).pre = -1 ∨ (0 ≤ (g.nd x).pre ∧ (g.nd x).pre < g.preorder)
  path_pre : ∀ x, g.InR x → 0 ≤ (g.nd x).pre → g.DFSpath[(g.nd x).pre.toNat]? = some x
  pre_path : ∀ (k : Nat) x, g.DFSpath[k]? = some x → g.InR x ∧ (g.nd x).pre = k
  post_cnt : 0 ≤ g.postorder
  post_rng : ∀ x, g.InR x →
    (g.nd x).post = -1 ∨ (0 ≤ (g.nd x).post ∧ (g.nd x).post < g.postorder)
  fin_vis : ∀ x, g.InR x → 0 ≤ (g.nd x).post → 0 ≤ (g.nd x).pre
  post_inj : ∀ x y, g.InR x → g.InR y → 0 ≤ (g.nd x).post →
    (g.nd x).post = (g.nd y).post → x = y
  su_nonneg : 0 ≤ g.smallestUnvisited
  su_below : ∀ x, 0 ≤ x → x < g.smallestUnvisited → x < g.size → 0 ≤ (g.nd x).pre
  su_unvis : g.smallestUnvisited < g.size → (g.nd g.smallestUnvisited).pre < 0
  et_unvis : ∀ x, g.InR x → (g.nd x).pre < 0 → (g.nd x).edgeTypes = []
  et_fin : ∀ x, g.InR x → 0 ≤ (g.nd x).post →
    (g.nd x).edgeTypes.length = (g.nd x).children.length
  et_len : ∀ x, g.InR x → (g.nd x).edgeTypes.length ≤ (g.nd x).children.length
  et_def : ∀ x, g.InR x → EdgeType.Undefined ∉ (g.nd x).edgeTypes
  tree_pre : ∀ u c v, Slot g u c v EdgeType.Tree → 0 ≤ (g.nd v).pre →
    (g.nd u).pre < (g.nd v).pre
  tree_post : ∀ u c v, Slot g u c v EdgeType.Tree → 0 ≤ (g.nd u).post →
    0 ≤ (g.nd v).post ∧ (g.nd v).post < (g.nd u).post
  back_anc : ∀ u c v, Slot g u c v EdgeType.Back → TreePath g v u
  cross_fin : ∀ u c v, Slot g u c v EdgeType.Cross →
    0 ≤ (g.nd v).post ∧ (g.nd v).pre < (g.nd u).pre ∧
      (0 ≤ (g.nd u).post → (g.nd v).post < (g.nd u).post)
  fwd_desc : ∀ u c v, Slot g u c v EdgeType.Forward →
    0 ≤ (g.nd v).post ∧ (g.nd u).pre < (g.nd v).pre ∧ TreePath g u v
  tree_unique : ∀ u c v u' c', Slot g u c v EdgeType.Tree → Slot g u' c' v EdgeType.Tree →
    u = u' ∧ c = c'

/-- The graph `h` is a later state of the traversal of `g`: the adjacency
lists are the same, timestamps already assigned are kept, recorded edge types
and the visitation order only grow at the back. -/
structure Ext (g h : Graph) : Prop where
  size : h.size = g.size
  len : h.nodes.length = g.nodes.length
  root : h.currentRoot = g.currentRoot
  children : ∀ x, g.InR x → (h.nd x).children = (g.nd x).children
  etypes : ∀ x, g.InR x → (g.nd x).edgeTypes <+: (h.nd x).edgeTypes
  pre : ∀ x, g.InR x → 0 ≤ (g.nd x).pre → (h.nd x).pre = (g.nd x).pre
  post : ∀ x, g.InR x → 0 ≤ (g.nd x).post → (h.nd x).post = (g.nd x).post
  path : g.DFSpath <+: h.DFSpath
  su : g.smallestUnvisited ≤ h.smallestUnvisited
  preorder : g.preorder ≤ h.preorder
  postorder : g.postorder ≤ h.postorder

/-- What `visit` does to the graph. -/
structure VisitRel (g : Graph) (n : Int) (h : Graph) : Prop where
  size : h.size = g.size
  len : h.nodes.length = g.nodes.length
  root : h.currentRoot = g.currentRoot
  postorder : h.postorder = g.postorder
  preorder : h.preorder = g.preorder + 1
  path : h.DFSpath = g.DFSpath ++ [n]
  nd_self : h.nd n = { g.nd n with pre := g.preorder }
  nd_other : ∀ y, 0 ≤ y → y ≠ n → h.nd y = g.nd y
  su_le : g.smallestUnvisited ≤ h.smallestUnvisited
  su_same : n ≠ g.smallestUnvisited → h.smallestUnvisited = g.smallestUnvisited
  su_lt : n = g.smallestUnvisited → g.smallestUnvisited < h.smallestUnvisited
  su_below : ∀ y, g.smallestUnvisited < y → y < h.smallestUnvisited → y < g.size →
    0 ≤ (g.nd y).pre
  su_unvis : n = g.smallestUnvisited → h.smallestUnvisited < g.size →
    (g.nd h.smallestUnvisited).pre < 0

/-- What `leave` does to the graph. -/
structure LeaveRel (g : Graph) (n : Int) (h : Graph) : Prop where
  size : h.size = g.size
  len : h.nodes.length = g.nodes.length
  root : h.currentRoot = g.currentRoot
  postorder : h.postorder = g.postorder + 1
  preorder : h.preorder = g.preorder
  path : h.DFSpath = g.DFSpath
  su : h.smallestUnvisited = g.smallestUnvisited
  nd_self : h.nd n = { g.nd n with post := g.postorder }
  nd_other : ∀ y, 0 ≤ y → y ≠ n → h.nd y = g.nd y

/-- What `updateEdge` does to the graph. -/
structure ScanRel (g : Graph) (u v : Int) (h : Graph) : Prop where
  size : h.size = g.size
  len : h.nodes.length = g.nodes.length
  root : h.currentRoot = g.currentRoot
  postorder : h.postorder = g.postorder
  preorder : h.preorder = g.preorder
  path : h.DFSpath = g.DFSpath
  su : h.smallestUnvisited = g.smallestUnvisited
  nd_self : h.nd u = { g.nd u with
    edgeTypes := (g.nd u).edgeTypes ++ [classify (g.nd u).pre (g.nd v).pre (g.nd v).post] }
  nd_other : ∀ y, 0 ≤ y → y ≠ u → h.nd y = g.nd y

/-! ## Vocabulary for the ghost trace -/

/-- The vertex of a `call` event. -/
def Event.callTarget : Event → Option Int
  | .call n _ => some n
  | _ => none

/-- The vertex of a `leave` event. -/
def Event.leaveTarget : Event → Option Int
  | .leave n _ => some n
  | _ => none

/-- The vertex of a `restart` event. -/
def Event.restartTarget : Event → Option Int
  | .restart r _ => some r
  | _ => none

/-- The graph recorded with an event. -/
def Event.snap : Event → Option Graph
  | .call _ g => some g
  | .scan _ _ _ g => some g
  | .leave _ g => some g
  | .restart _ g => some g
  | .ret _ => none

/-- The roots of the forest: vertex `0`, on which `main` starts the search,
then the vertices on which the restart loop starts it, in order. -/
def Run.roots (s : Run) : List Int := 0 :: s.trace.filterMap Event.restartTarget

/-- An event is consistent with the (later) graph `gf`. -/
def EvOK (gf : Graph) : Event → Prop
  | .call n g => Inv g ∧ Ext g gf ∧ g.InR n ∧ (g.nd n).pre < 0
  | .scan u c v g =>
      Inv g ∧ Ext g gf ∧ g.InR u ∧ g.InR v ∧ 0 ≤ (g.nd u).pre ∧ (g.nd u).post < 0 ∧
        c = (g.nd u).edgeTypes.length ∧ (g.nd u).children[c]? = some v ∧
        (gf.nd u).edgeTypes[c]? = some (classify (g.nd u).pre (g.nd v).pre (g.nd v).post) ∧
        (∀ x, g.InR x → 0 ≤ (g.nd x).pre → (g.nd x).post < 0 → TreePath g x u) ∧
        (∀ x, g.InR x → (g.nd u).pre < (g.nd x).pre → 0 ≤ (g.nd x).post ∧ TreePath g u x) ∧
        (∀ u' c' v', Slot g u' c' v' EdgeType.Tree → 0 ≤ (g.nd v').pre)
  | .leave n g => Inv g ∧ Ext g gf ∧ g.InR n ∧ 0 ≤ (g.nd n).pre ∧ (g.nd n).post < 0
  | .restart r g =>
      Inv g ∧ Ext g gf ∧ g.InR r ∧ (g.nd r).pre < 0 ∧
        (∀ x, 0 ≤ x → x < r → 0 ≤ (g.nd x).pre) ∧
        (∀ x, g.InR x → 0 ≤ (g.nd x).pre → 0 ≤ (g.nd x).post)
  | .ret _ => True

/-- The invariant of the traversal together with its ghost trace. -/
structure RInv (s : Run) : Prop where
  inv : Inv s.g
  ev : ∀ e ∈ s.trace, EvOK s.g e
  chain : s.trace.Pairwise fun e1 e2 =>
    ∀ g1 g2, e1.snap = some g1 → e2.snap = some g2 → Ext g1 g2
  calls : s.trace.filterMap Event.callTarget = s.g.DFSpath
  scans : ∀ u, s.g.InR u → ∀ c, c < (s.g.nd u).edgeTypes.length →
    ∃ v g, Event.scan u c v g ∈ s.trace
  leave_cnt : s.g.postorder = (s.trace.filterMap Event.leaveTarget).length
  leave_post : ∀ (k : Nat) x, (s.trace.filterMap Event.leaveTarget)[k]? = some x →
    s.g.InR x ∧ (s.g.nd x).post = k
  snap_path : ∀ (i : Nat) e g, s.trace[i]? = some e → e.snap = some g →
    g.DFSpath = (s.trace.take i).filterMap Event.callTarget
  after_call : ∀ (i : Nat) w g h, s.trace[i]? = some (Event.call w g) → g.visit w = .ok h →
    Ext h s.g ∧ ∀ (j : Nat) e g', i < j → s.trace[j]? = some e → e.snap = some g' → Ext h g'

/-- The loop invariant of the child loop of `DFS(u)` before iteration `c`. -/
structure LI (s : Run) (u : Int) (c : Nat) : Prop where
  rinv : RInv s
  inR : s.g.InR u
  pre : 0 ≤ (s.g.nd u).pre
  post : (s.g.nd u).post < 0
  cnt : (s.g.nd u).edgeTypes.length = c
  root_vis : 0 ≤ (s.g.nd 0).pre
  top : ∀ x, s.g.InR x → 0 ≤ (s.g.nd x).pre → (s.g.nd x).post < 0 → TreePath s.g x u
  kids : ∀ c' v, Slot s.g u c' v EdgeType.Tree → 0 ≤ (s.g.nd v).post
  desc : ∀ x, s.g.InR x → (s.g.nd u).pre < (s.g.nd x).pre →
    0 ≤ (s.g.nd x).post ∧ TreePath s.g u x
  tree_vis : ∀ u' c' v', Slot s.g u' c' v' EdgeType.Tree → 0 ≤ (s.g.nd v').pre

/-- The effect of the child loop of `DFS(u)`. -/
structure LoopRel (s t : Run) (u : Int) : Prop where
  ext : Ext s.g t.g
  frame : ∀ x, s.g.InR x → x ≠ u → 0 ≤ (s.g.nd x).pre → t.g.nd x = s.g.nd x
  restarts : t.trace.filterMap Event.restartTarget = s.trace.filterMap Event.restartTarget

/-- The effect of a call `DFS(w)` on a vertex other than the root `0`. -/
structure PostDFS (s t : Run) (w : Int) : Prop where
  rinv : RInv t
  ext : Ext s.g t.g
  frame : ∀ x, s.g.InR x → 0 ≤ (s.g.nd x).pre → t.g.nd x = s.g.nd x
  path : ∃ rest, t.g.DFSpath = s.g.DFSpath ++ w :: rest
  fresh : ∀ x, s.g.InR x → (s.g.nd x).pre < 0 → 0 ≤ (t.g.nd x).pre →
    0 ≤ (t.g.nd x).post ∧ TreePath t.g w x
  done : 0 ≤ (t.g.nd w).post
  tree_vis : ∀ u' c' v', Slot t.g u' c' v' EdgeType.Tree → 0 ≤ (t.g.nd v').pre
  restarts : t.trace.filterMap Event.restartTarget = s.trace.filterMap Event.restartTarget

/-- The recursive call `rec` behaves like `DFS` on every unvisited vertex once
vertex `0` is visited, as long as at most `f` vertices are unvisited. -/
def RecOK (rec : Run → Int → Except Err Run) (f : Nat) : Prop :=
  ∀ s w, RInv s → s.g.InR w → (s.g.nd w).pre < 0 → 0 ≤ (s.g.nd 0).pre →
    (∀ x, s.g.InR x → 0 ≤ (s.g.nd x).pre → (s.g.nd x).post < 0 → TreePath s.g x w) →
    (∀ u' c' v', Slot s.g u' c' v' EdgeType.Tree → v' = w ∨ 0 ≤ (s.g.nd v').pre) →
    s.g.size ≤ s.g.preorder + f →
    ∃ t, rec s w = .ok t ∧ PostDFS s t w

/-- The visitation order `path` splits into consecutive segments, one per
root and in the order of `roots`; each segment starts with its root and holds
only vertices reachable from that root by edges recorded as `Tree`. -/
def Segs (g : Graph) (roots : List Int) (path : List Int) : Prop :=
  ∃ segs : List (List Int), segs.flatten = path ∧
    List.Forall₂ (fun r seg => seg.head? = some r ∧ ∀ x ∈ seg, TreePath g r x) roots segs

/-- The invariant of the restart loop. -/
structure RL (s : Run) : Prop where
  rinv : RInv s
  allfin : ∀ x, s.g.InR x → 0 ≤ (s.g.nd x).pre → 0 ≤ (s.g.nd x).post
  root_vis : 0 ≤ (s.g.nd 0).pre
  tree_vis : ∀ u' c' v', Slot s.g u' c' v' EdgeType.Tree → 0 ≤ (s.g.nd v').pre
  pos : 0 < s.g.size
  roots_lt : ∀ r ∈ s.roots, r < s.g.smallestUnvisited
  roots_sorted : s.roots.Pairwise (· < ·)
  segs : Segs s.g s.roots s.g.DFSpath

/-! ## Vocabulary for the input -/

/-- The targets of the input edges with source `x`, in input order. -/
def adj (edges : List (Int × Int)) (x : Int) : List Int :=
  (edges.filter fun e => e.1 = x).map Prod.snd

/-- The graph `g` is what `buildGraph` returns for `n` and `edges`. -/
structure Init (n : Int) (edges : List (Int × Int)) (g : Graph) : Prop where
  size : g.size = n
  len : (g.nodes.length : Int) = n
  nd : ∀ x, 0 ≤ x → x < n → g.nd x = { children := adj edges x }
  path : g.DFSpath = []
  su : g.smallestUnvisited = 0
  root : g.currentRoot = 0
  preorder : g.preorder = 0
  postorder : g.postorder = 0

/-- What holds when the traversal of the graph built from `n` and `edges` has
returned in the run `t`. -/
structure Final (n : Int) (edges : List (Int × Int)) (t : Run) : Prop where
  rinv : RInv t
  size : t.g.size = n
  children : ∀ x, t.g.InR x → (t.g.nd x).children = adj edges x
  allvis : ∀ x, t.g.InR x → 0 ≤ (t.g.nd x).pre
  allfin : ∀ x, t.g.InR x → 0 ≤ (t.g.nd x).post
  roots_sorted : t.roots.Pairwise (· < ·)
  segs : Segs t.g t.roots t.g.DFSpath
  head : t.g.DFSpath.head? = some 0

/-- The type `Node::getEdgeType` finds for the target `v` in the node of `u`:
the one recorded at the first position of `v` in the adjacency list. -/
def firstType (g : Graph) (u v : Int) : EdgeType :=
  (g.nd u).edgeTypes.getD ((g.nd u).children.indexOf v) EdgeType.Undefined

/-- Position of the `j`-th input edge in the adjacency list of its source: the
number of earlier input edges with the same source. -/
def slotOf (edges : List (Int × Int)) (j : Nat) : Nat :=
  match edges[j]? with
  | some e => (adj (edges.take j) e.1).length
  | none => 0

/-- Number of vertices of `[0, size)` that have no preorder number. -/
def unvisitedCount (g : Graph) : Nat :=
  ((List.range g.size.toNat).filter fun (x : Nat) => decide ((g.nd (x : Int)).pre < 0)).length

/-! ## Vocabulary for the nesting of the calls -/

/-- The event is the return of a call of `DFS`. -/
def Event.isRet : Event → Bool
  | .ret _ => true
  | _ => false

/-- Number of activations of `DFS` that are entered and have not returned
after the events `tr`. -/
def depth (tr : List Event) : Int :=
  ((tr.filterMap Event.callTarget).length : Int) - ((tr.filter Event.isRet).length : Int)

/-- Largest nesting depth of the activations of `DFS` along the trace. -/
def maxDepth (tr : List Event) : Nat :=
  ((List.range (tr.length + 1)).map fun (i : Nat) => (depth (tr.take i)).toNat).foldr max 0

/-- The edges of the path graph `0 → 1 → ... → n - 1`. -/
def pathEdges (n : Int) : List (Int × Int) :=
  (List.range (n.toNat - 1)).map fun (k : Nat) => ((k : Int), (k : Int) + 1)

end DFSLabeling

namespace Villages

/-! ## Villages: data model

Model of `src/Villages.cpp`.  A `County*` is an index into a store of
counties; `NULL` is `none`; a deleted county leaves an empty store cell.
Indexing the directory outside its bounds and using a deleted county are
undefined behaviour in the source and give `Err.outOfRange` here. -/

open DFSLabeling (Err)

/-- The class `County`: the list of its villages. -/
structure County where
  villages : List Int
  deriving DecidableEq, Repr

/-- Constructor `County::County(u, v)`: two calls of `push_back`. -/
def County.new (u v : Int) : County :=
  { villages := [u, v] }

/-- Member `County::addVillage`. -/
def County.addVillage (c : County) (v : Int) : County :=
  { villages := c.villages ++ [v] }

/-- Inner loop of `std::list::merge`: the elements of the second list that are
smaller than `x` go before `x`. -/
def mergeRun (x : Int) (rest : List Int → List Int) : List Int → List Int
  | [] => x :: rest []
  | y :: ys => if y < x then y :: mergeRun x rest ys else x :: rest (y :: ys)

/-- The algorithm of `std::list::merge` with `operator<`: repeatedly move the
head of the second list before the current element of the first when it is
smaller.  (The library documents the operation for sorted lists; the loop runs
unchanged on any two lists.) -/
def mergeLists : List Int → List Int → List Int
  | [], ys => ys
  | x :: xs, ys => mergeRun x (mergeLists xs) ys

/-- Member `County::mergeCounties`. -/
def County.mergeCounties (c : County) (vs : List Int) : County :=
  { villages := mergeLists c.villages vs }

/-- The class `Region` together with the store of the counties it allocated. -/
structure Region where
  directory : List (Option Nat)
  numCounties : Int := 0
  villagesRemaining : Int
  store : List (Option County) := []
  deriving DecidableEq, Repr

/-- Constructor `Region::Region(n)`; a negative `n` cannot size the directory. -/
def Region.new (n : Int) : Except Err Region :=
  if 0 ≤ n then
    .ok { directory := List.replicate n.toNat none, villagesRemaining := n }
  else .error .outOfRange

/-- Member `Region::getNumCounties`. -/
def Region.getNumCounties (r : Region) : Int :=
  r.numCounties + r.villagesRemaining

/-- Read of `directory[u]`. -/
def Region.dirGet (r : Region) (u : Int) : Except Err (Option Nat) :=
  if 0 ≤ u then
    match r.directory[u.toNat]? with
    | some c => .ok c
    | none => .error .outOfRange
  else .error .outOfRange

/-- Write of `directory[u]`. -/
def Region.dirSet (r : Region) (u : Int) (c : Nat) : Except Err Region :=
  if 0 ≤ u ∧ u.toNat < r.directory.length then
    .ok { r with directory := r.directory.set u.toNat (some c) }
  else .error .outOfRange

/-- Dereference of a county pointer. -/
def Region.county (r : Region) (c : Nat) : Except Err County :=
  match r.store[c]? with
  | some (some k) => .ok k
  | _ => .error .outOfRange

/-- The loop `for (auto v : *vVillages) directory[v] = uCounty`. -/
def redirect (c : Nat) : List Int → Region → Except Err Region
  | [], r => .ok r
  | w :: ws, r => do
    let r1 ← r.dirSet w c
    redirect c ws r1

/-- Member `Region::addRoad`. -/
def Region.addRoad (r : Region) (u v : Int) : Except Err Region := do
  let uCounty ← r.dirGet u
  let vCounty ← r.dirGet v
  match uCounty, vCounty with
  | none, none =>
    let newCounty := r.store.length
    let r1 : Region := { r with store := r.store ++ [some (County.new u v)] }
    let r2 ← r1.dirSet u newCounty
    let r3 ← r2.dirSet v newCounty
    .ok { r3 with numCounties := r3.numCounties + 1,
                  villagesRemaining := r3.villagesRemaining - 2 }
  | none, some vc =>
    let k ← r.county vc
    let r1 : Region := { r with store := r.store.set vc (some (k.addVillage u)) }
    let r2 ← r1.dirSet u vc
    .ok { r2 with villagesRemaining := r2.villagesRemaining - 1 }
  | some uc, none =>
    let k ← r.county uc
    let r1 : Region := { r with store := r.store.set uc (some (k.addVillage v)) }
    let r2 ← r1.dirSet v uc
    .ok { r2 with villagesRemaining := r2.villagesRemaining - 1 }
  | some uc, some vc =>
    if uc ≠ vc then do
      let kv ← r.county vc
      let r1 ← redirect uc kv.villages r
      let ku ← r1.county uc
      let r2 : Region :=
        { r1 with store := (r1.store.set uc (some (ku.mergeCounties kv.villages))).set vc none }
      .ok { r2 with numCounties := r2.numCounties - 1 }
    else .ok r

/-- The loop of `main` over the roads read from the input. -/
def addRoads : List (Int × Int) → Region → Except Err Region
  | [], r => .ok r
  | (u, v) :: rest, r => do
    let r1 ← r.addRoad u v
    addRoads rest r1

/-- The region `main` has built when it prints. -/
def build (n : Int) (roads : List (Int × Int)) : Except Err Region := do
  let reg ← Region.new n
  addRoads roads reg

/-- Function `main` on the input `n`, `m = roads.length` and the `m` roads: the
printed integer. -/
def main (n : Int) (roads : List (Int × Int)) : Except Err Int := do
  let reg ← build n roads
  .ok (reg.getNumCounties - 1)

/-! ## Villages: specification vocabulary -/

/-- Some road of the list joins `x` and `y`, in either direction. -/
def Road (roads : List (Int × Int)) (x y : Int) : Prop :=
  (x, y) ∈ roads ∨ (y, x) ∈ roads

/-- The villages `x` and `y` are the same or joined by a sequence of roads. -/
def Conn (roads : List (Int × Int)) : Int → Int → Prop :=
  Relation.ReflTransGen (Road roads)

/-- The villages `x` and `y` are joined by a sequence of one or more roads. -/
def Linked (roads : List (Int × Int)) : Int → Int → Prop :=
  Relation.TransGen (Road roads)

/-- The road graph on the villages `0, ..., n - 1` has `k` connected
components: some list of `k` villages holds exactly one village of each
component. -/
def Components (n : Int) (roads : List (Int × Int)) (k : Nat) : Prop :=
  ∃ reps : List Int, reps.length = k ∧ reps.Nodup ∧ (∀ a ∈ reps, 0 ≤ a ∧ a < n) ∧
    (∀ a ∈ reps, ∀ b ∈ reps, Conn roads a b → a = b) ∧
    ∀ x, 0 ≤ x → x < n → ∃ a ∈ reps, Conn roads x a

/-- Total read of the directory, used in statements: `none` outside the
directory. -/
def Region.dir (r : Region) (x : Int) : Option Nat :=
  if 0 ≤ x then r.directory.getD x.toNat none else none

/-- Invariant of the region after the roads `rs` were added to a region of `n`
villages. -/
structure RegInv (n : Int) (rs : List (Int × Int)) (r : Region) : Prop where
  len : (r.directory.length : Int) = n
  live : ∀ x c, r.dir x = some c → ∃ k, r.store[c]? = some (some k) ∧ x ∈ k.villages
  members : ∀ c k w, r.store[c]? = some (some k) → w ∈ k.villages → r.dir w = some c
  conn : ∀ x y, Conn rs x y ↔ x = y ∨ ∃ c, r.dir x = some c ∧ r.dir y = some c
  assigned : ∀ x, (∃ c, r.dir x = some c) ↔ ∃ y, Road rs x y
  count : ∃ k : Nat, r.getNumCounties = k ∧ Components n rs k

end Villages

namespace Alignment

/-! ## Alignment: model of `src/Alignment.cpp`

Strings are lists of characters, `int` values are integers, and the table
`vector<vector<int>>` is a list of rows.  Indexing the table outside its
bounds, or a string beyond its terminator, is undefined behaviour in the
source and gives `Err.outOfRange` here. -/

open DFSLabeling (Err)

/-- Helper `min3`. -/
def min3 (n1 n2 n3 : Int) : Int :=
  min (min n1 n2) n3

/-- The table `A` of optimal values. -/
abbrev Table := List (List Int)

/-- Read of `(*A)[i][j]`. -/
def Table.get (A : Table) (i j : Int) : Except Err Int :=
  if 0 ≤ i ∧ 0 ≤ j then
    match A[i.toNat]? with
    | some row =>
      match row[j.toNat]? with
      | some v => .ok v
      | none => .error .outOfRange
    | none => .error .outOfRange
  else .error .outOfRange

/-- Write of `(*A)[i][j]`. -/
def Table.set (A : Table) (i j : Int) (v : Int) : Except Err Table :=
  if 0 ≤ i ∧ 0 ≤ j then
    match A[i.toNat]? with
    | some row =>
      if j.toNat < row.length then .ok (List.set A i.toNat (row.set j.toNat v))
      else .error .outOfRange
    | none => .error .outOfRange
  else .error .outOfRange

/-- Read of `s[k]` on a `std::string`: the characters, then the terminator at
`k = size`. -/
def charAt (s : List Char) (k : Int) : Except Err Char :=
  if 0 ≤ k then
    match s[k.toNat]? with
    | some c => .ok c
    | none => if k.toNat = s.length then .ok (Char.ofNat 0) else .error .outOfRange
  else .error .outOfRange

/-- The order in which the three arguments of the call of `min3` in `opt` are
evaluated.  The language leaves it to the compiler; the three evaluations are
not interleaved. -/
inductive ArgOrder where
  | abc | acb | bac | bca | cab | cba
  deriving DecidableEq, Repr

/-- A recursive call of `opt` as a function of the table it finds. -/
abbrev Call := Table → Except Err (Int × Table)

/-- Evaluation of three calls in the order `ord`, threading the table. -/
def evalArgs (ord : ArgOrder) (f1 f2 f3 : Call) (A : Table) :
    Except Err (Int × Int × Int × Table) :=
  match ord with
  | .abc => do
    let (r1, A) ← f1 A
    let (r2, A) ← f2 A
    let (r3, A) ← f3 A
    .ok (r1, r2, r3, A)
  | .acb => do
    let (r1, A) ← f1 A
    let (r3, A) ← f3 A
    let (r2, A) ← f2 A
    .ok (r1, r2, r3, A)
  | .bac => do
    let (r2, A) ← f2 A
    let (r1, A) ← f1 A
    let (r3, A) ← f3 A
    .ok (r1, r2, r3, A)
  | .bca => do
    let (r2, A) ← f2 A
    let (r3, A) ← f3 A
    let (r1, A) ← f1 A
    .ok (r1, r2, r3, A)
  | .cab => do
    let (r3, A) ← f3 A
    let (r1, A) ← f1 A
    let (r2, A) ← f2 A
    .ok (r1, r2, r3, A)
  | .cba => do
    let (r3, A) ← f3 A
    let (r2, A) ← f2 A
    let (r1, A) ← f1 A
    .ok (r1, r2, r3, A)

/-- Function `opt`: the memoised recurrence.  The result is the returned value
and the table after the call; `fuel` bounds the recursion depth. -/
def opt (ord : ArgOrder) :
    Nat → Table → List Char → List Char → Int → Int → Except Err (Int × Table)
  | 0, _, _, _, _, _ => .error .outOfFuel
  | fuel + 1, A, x, y, i, j => do
    let a ← A.get i j
    if a ≥ 0 then .ok (a, A)
    else do
      let xi ← charAt x (i - 1)
      let yj ← charAt y (j - 1)
      let mismatch : Int := if xi = yj then 0 else 1
      let (r1, r2, r3, A3) ← evalArgs ord
        (fun T => opt ord fuel T x y (i - 1) (j - 1))
        (fun T => opt ord fuel T x y (i - 1) j)
        (fun T => opt ord fuel T x y i (j - 1)) A
      let recv := min3 (mismatch + r1) (1 + r2) (1 + r3)
      let A4 ← A3.set i j recv
      .ok (recv, A4)

/-- The `while` loop of `getOptAlignment`: the state is `i`, `j`, `ogStr`,
`optStr`; `fuel` bounds the number of iterations. -/
def traceLoop : Nat → Table → List Char → List Char → Int → Int → List Char → List Char →
    Except Err (Int × Int × List Char × List Char)
  | 0, _, _, _, _, _, _, _ => .error .outOfFuel
  | fuel + 1, A, x, y, i, j, ogStr, optStr =>
    if i > 0 ∧ j > 0 then do
      let valTop ← A.get (i - 1) j
      let valLeft ← A.get i (j - 1)
      let valTopLeft ← A.get (i - 1) (j - 1)
      let minVal := min3 valTop valLeft valTopLeft
      if minVal = valTopLeft then do
        let xi ← charAt x (i - 1)
        let yj ← charAt y (j - 1)
        traceLoop fuel A x y (i - 1) (j - 1) (xi :: ogStr) (yj :: optStr)
      else if minVal = valLeft then do
        let yj ← charAt y (j - 1)
        traceLoop fuel A x y i (j - 1) (' ' :: ogStr) (yj :: optStr)
      else do
        let xi ← charAt x (i - 1)
        traceLoop fuel A x y (i - 1) j (xi :: ogStr) (' ' :: optStr)
    else .ok (i, j, ogStr, optStr)

/-- Function `getOptAlignment`: the traceback and the two leftover blocks. -/
def getOptAlignment (fuel : Nat) (A : Table) (x y : List Char) (m n : Int) :
    Except Err (List Char × List Char) := do
  let (i, j, ogStr, optStr) ← traceLoop fuel A x y m n [] []
  let (ogStr, optStr) :=
    if i > 0 then (x.take i.toNat ++ ogStr, List.replicate i.toNat ' ' ++ optStr)
    else (ogStr, optStr)
  let (ogStr, optStr) :=
    if j > 0 then (List.replicate j.toNat ' ' ++ ogStr, y.take j.toNat ++ optStr)
    else (ogStr, optStr)
  .ok (ogStr, optStr)

/-- The table `main` builds: `m + 1` rows `[i, -1, ..., -1]` of length `n + 1`,
then row `0` replaced by `[0, 1, ..., n]`. -/
def initTable (m n : Nat) : Table :=
  let xvec : List Int := List.replicate (n + 1) (-1)
  let A : Table := (List.range (m + 1)).map fun (i : Nat) => xvec.set 0 (i : Int)
  let yvec : List Int := (List.range (n + 1)).map fun (j : Nat) => (j : Int)
  List.set A 0 yvec

/-- Function `main` on the two words read: the printed value and the two
printed lines. -/
def main (ord : ArgOrder) (fuel : Nat) (x y : List Char) :
    Except Err (Int × List Char × List Char) := do
  let m := x.length
  let n := y.length
  let A := initTable m n
  let (optAlignVal, A1) ← opt ord fuel A x y m n
  let (ogStr, optStr) ← getOptAlignment fuel A1 x y m n
  .ok (optAlignVal, ogStr, optStr)

/-! ## Alignment: specification vocabulary -/

/-- A column of an alignment: a letter of each word or a gap. -/
abbrev Column := Option Char × Option Char

/-- Cost of a column: gap penalty 1, mismatch penalty 1, equal letters 0. -/
def colCost : Column → Nat
  | (some a, some b) => if a = b then 0 else 1
  | (some _, none) => 1
  | (none, some _) => 1
  | (none, none) => 0

/-- Cost of an alignment: the sum of the costs of its columns. -/
def cost (a : List Column) : Nat :=
  (a.map colCost).sum

/-- The columns `a` are an alignment of `x` and `y`: the letters of the first
row spell `x`, those of the second spell `y`, and no column is a pair of gaps. -/
def IsAlignment (a : List Column) (x y : List Char) : Prop :=
  a.filterMap Prod.fst = x ∧ a.filterMap Prod.snd = y ∧ ∀ c ∈ a, c ≠ (none, none)

/-- Mismatch penalty of `x[i]` against `y[j]`. -/
def mm (x y : List Char) (i j : Nat) : Nat :=
  if x[i]? = y[j]? then 0 else 1

/-- One row of the recurrence from the row before it. -/
def edNext (prev : Nat → Nat) (pen : Nat → Nat) (i : Nat) : Nat → Nat
  | 0 => i + 1
  | j + 1 => min (min (pen j + prev j) (1 + prev (j + 1))) (1 + edNext prev pen i j)

/-- The recurrence `OPT(i, j)` on the first `i` letters of `x` and the first
`j` letters of `y`. -/
def ed (x y : List Char) : Nat → Nat → Nat
  | 0 => fun j => j
  | i + 1 => edNext (ed x y i) (mm x y i) i

/-- The cell `(i, j)` of a table. -/
def cell (A : Table) (i j : Nat) : Option Int :=
  (A[i]?).bind fun row => row[j]?

/-- Table invariant of `opt`: every cell of the rectangle holds its value of
the recurrence or, off the borders, `-1`; the cells that hold their value are
closed under going up and left. -/
structure Good (x y : List Char) (A : Table) : Prop where
  cells : ∀ i j, i ≤ x.length → j ≤ y.length →
    cell A i j = some (ed x y i j : Int) ∨ (cell A i j = some (-1) ∧ 1 ≤ i ∧ 1 ≤ j)
  closed : ∀ i j, i ≤ x.length → j ≤ y.length → cell A i j = some (ed x y i j : Int) →
    ∀ i1 j1, i1 ≤ i → j1 ≤ j → cell A i1 j1 = some (ed x y i1 j1 : Int)

/-- The cells that hold their value in `A` hold it in `B`. -/
def Mono (x y : List Char) (A B : Table) : Prop :=
  ∀ i j, i ≤ x.length → j ≤ y.length → cell A i j = some (ed x y i j : Int) →
    cell B i j = some (ed x y i j : Int)

/-- Number of positions at which two lines differ. -/
def differ (og op : List Char) : Nat :=
  ((og.zip op).filter fun p => decide (p.1 ≠ p.2)).length

/-- The two lines `og`, `op` show an alignment of `u` and `v` with `d`
differing positions: equal length, the letters spell the words, and no
position holds a space in both. -/
structure Shows (og op u v : List Char) (d : Nat) : Prop where
  len : og.length = op.length
  fst : og.filter (fun c => decide (c ≠ ' ')) = u
  snd : op.filter (fun c => decide (c ≠ ' ')) = v
  gaps : ∀ p ∈ og.zip op, ¬ (p.1 = ' ' ∧ p.2 = ' ')
  diff : differ og op = d

end Alignment

/-! ## Theorems on the DFS labelling -/

namespace DFSLabeling

/-! ### Reading and writing the node vector -/

theorem bind_ok {α β : Type} (x : Except Err α) (f : α → Except Err β) (a : α)
    (h : x = .ok a) : (x >>= f) = f a := by
  subst h; rfl

theorem toNat_lt_of_inR {g : Graph} (hlen : (g.nodes.length : Int) = g.size) {x : Int}
    (hx : g.InR x) : x.toNat < g.nodes.length := by
  have := hx.1; have := hx.2
  omega

theorem getNode_ok {g : Graph} (hlen : (g.nodes.length : Int) = g.size) {x : Int}
    (hx : g.InR x) : g.getNode x = .ok (g.nd x) := by
  have hlt := toNat_lt_of_inR hlen hx
  unfold Graph.getNode Graph.nd
  rw [if_pos hx.1, List.getElem?_eq_getElem hlt, List.getD_eq_getElem _ _ hlt]

theorem nd_setNode_same {g : Graph} (hlen : (g.nodes.length : Int) = g.size) {x : Int}
    (hx : g.InR x) (m : Node) : (g.setNode x m).nd x = m := by
  have hlt := toNat_lt_of_inR hlen hx
  simp [Graph.setNode, Graph.nd, List.getD_eq_getElem?_getD, List.getElem?_set, hlt]

theorem nd_setNode_ne {g : Graph} {x y : Int} (hx : 0 ≤ x) (hy : 0 ≤ y) (hne : x ≠ y)
    (m : Node) : (g.setNode x m).nd y = g.nd y := by
  have : x.toNat ≠ y.toNat := by omega
  simp [Graph.setNode, Graph.nd, List.getD_eq_getElem?_getD, List.getElem?_set, this]

theorem nd_setNode {g : Graph} (hlen : (g.nodes.length : Int) = g.size) {x : Int}
    (hx : g.InR x) (m : Node) (y : Int) (hy : 0 ≤ y) :
    (g.setNode x m).nd y = if y = x then m else g.nd y := by
  by_cases h : y = x
  · subst h; simp [nd_setNode_same hlen hx]
  · simp [h, nd_setNode_ne hx.1 hy (Ne.symm h)]

@[simp] theorem setNode_size (g : Graph) (x : Int) (m : Node) :
    (g.setNode x m).size = g.size := rfl

@[simp] theorem setNode_length (g : Graph) (x : Int) (m : Node) :
    (g.setNode x m).nodes.length = g.nodes.length := by simp [Graph.setNode]

@[simp] theorem setNode_DFSpath (g : Graph) (x : Int) (m : Node) :
    (g.setNode x m).DFSpath = g.DFSpath := rfl

@[simp] theorem setNode_su (g : Graph) (x : Int) (m : Node) :
    (g.setNode x m).smallestUnvisited = g.smallestUnvisited := rfl

@[simp] theorem setNode_root (g : Graph) (x : Int) (m : Node) :
    (g.setNode x m).currentRoot = g.currentRoot := rfl

@[simp] theorem setNode_preorder (g : Graph) (x : Int) (m : Node) :
    (g.setNode x m).preorder = g.preorder := rfl

@[simp] theorem setNode_postorder (g : Graph) (x : Int) (m : Node) :
    (g.setNode x m).postorder = g.postorder := rfl

/-! ### The primitive operations succeed and what they change -/

theorem isVisited_ok {g : Graph} (hlen : (g.nodes.length : Int) = g.size) {x : Int}
    (hx : 0 ≤ x) : g.isVisited x = .ok (decide (g.size ≤ x ∨ 0 ≤ (g.nd x).pre)) := by
  unfold Graph.isVisited
  by_cases h : g.size ≤ x
  · simp [h]; rfl
  · have hin : g.InR x := ⟨hx, by omega⟩
    rw [if_neg h, bind_ok _ _ _ (getNode_ok hlen hin)]
    simp [h, Node.isVisited]; rfl

theorem suLoop_ok {g : Graph} (hlen : (g.nodes.length : Int) = g.size) :
    ∀ (k : Nat) (s : Int), 0 ≤ s →
      ∃ s', Graph.suLoop k { g with smallestUnvisited := s }
          = .ok { g with smallestUnvisited := s' } ∧ s ≤ s' ∧
        (∀ y, s ≤ y → y < s' → y < g.size → 0 ≤ (g.nd y).pre) ∧
        (s' = s + k ∨ (s' < g.size ∧ (g.nd s').pre < 0)) := by
  intro k
  induction k with
  | zero =>
    intro s _
    exact ⟨s, rfl, le_refl _, fun y h1 h2 _ => absurd h2 (by omega), Or.inl (by simp)⟩
  | succ k ih =>
    intro s hs
    have hv := isVisited_ok (g := { g with smallestUnvisited := s }) hlen hs
    unfold Graph.suLoop
    rw [bind_ok _ _ _ hv]
    by_cases hc : g.size ≤ s ∨ 0 ≤ (g.nd s).pre
    · have hc' : (decide (g.size ≤ s ∨ 0 ≤ (Graph.nd { g with smallestUnvisited := s } s).pre))
          = true := by simpa using hc
      simp only [hc', if_true]
      obtain ⟨s', h1, h2, h3, h4⟩ := ih (s + 1) (by omega)
      refine ⟨s', h1, by omega, ?_, ?_⟩
      · intro y hy1 hy2 hy3
        by_cases hy : y = s
        · subst hy
          rcases hc with hc | hc
          · omega
          · exact hc
        · exact h3 y (by omega) hy2 hy3
      · rcases h4 with h4 | h4
        · left; push_cast; omega
        · right; exact h4
    · have hc' : (decide (g.size ≤ s ∨ 0 ≤ (Graph.nd { g with smallestUnvisited := s } s).pre))
          = false := by simpa using hc
      simp only [hc']
      refine ⟨s, rfl, le_refl _, fun y h1 h2 _ => absurd h2 (by omega), Or.inr ?_⟩
      push_neg at hc
      exact ⟨hc.1, hc.2⟩

theorem visit_ok {g : Graph} (hlen : (g.nodes.length : Int) = g.size) {n : Int}
    (hn : g.InR n) : ∃ h, g.visit n = .ok h ∧ VisitRel g n h := by
  unfold Graph.visit
  rw [bind_ok _ _ _ (getNode_ok hlen hn)]
  by_cases hsu : n = g.smallestUnvisited
  · -- the cursor is advanced
    subst hsu
    set g3 : Graph :=
      { nodes := (g.setNode g.smallestUnvisited
          { g.nd g.smallestUnvisited with pre := g.preorder }).nodes, size := g.size,
        DFSpath := g.DFSpath ++ [g.smallestUnvisited], smallestUnvisited := g.smallestUnvisited,
        currentRoot := g.currentRoot, preorder := g.preorder + 1,
        postorder := g.postorder } with hg3
    have hlen3 : (g3.nodes.length : Int) = g3.size := by simp [hg3, hlen]
    obtain ⟨s', h1, h2, h3, h4⟩ :=
      suLoop_ok hlen3 g3.nodes.length (g.smallestUnvisited + 1) (by have := hn.1; omega)
    refine ⟨{ g3 with smallestUnvisited := s' }, ?_, ?_⟩
    · simp only [Graph.updateSmallestUnvisited]
      simp only [setNode_size, setNode_DFSpath, setNode_su, setNode_root, setNode_preorder,
        setNode_postorder, if_true]
      exact h1
    · have hnd3 : ∀ y, g3.nd y = (g.setNode g.smallestUnvisited
          { g.nd g.smallestUnvisited with pre := g.preorder }).nd y := fun y => rfl
      have hself : g3.nd g.smallestUnvisited =
          { g.nd g.smallestUnvisited with pre := g.preorder } := by
        rw [hnd3, nd_setNode_same hlen hn]
      have hoth : ∀ y, 0 ≤ y → y ≠ g.smallestUnvisited → g3.nd y = g.nd y := by
        intro y hy hne
        rw [hnd3, nd_setNode_ne hn.1 hy (Ne.symm hne)]
      refine ⟨rfl, by simp [hg3], rfl, rfl, rfl, rfl, hself, hoth, ?_, ?_, ?_, ?_, ?_⟩
      · show g.smallestUnvisited ≤ s'; omega
      · intro hne; exact absurd rfl hne
      · intro _; show g.smallestUnvisited < s'; omega
      · intro y hy1 hy2 hy3
        have := h3 y (by omega) hy2 hy3
        rwa [hoth y (by have := hn.1; omega) (by omega)] at this
      · intro _ hlt
        change s' < g.size at hlt
        rcases h4 with h4 | h4
        · exfalso
          have h5 : (g3.nodes.length : Int) = g3.size := hlen3
          have h6 : g3.size = g.size := rfl
          have h7 := hn.1
          omega
        · have := h4.2
          rwa [hoth s' (by have := hn.1; omega) (by omega)] at this
  · refine ⟨_, by simp only [setNode_su, hsu, if_false]; rfl, ?_⟩
    refine ⟨rfl, by simp, rfl, rfl, rfl, rfl, ?_, ?_, le_refl _, fun _ => rfl,
      fun h => absurd h hsu, ?_, fun h => absurd h hsu⟩
    · exact nd_setNode_same hlen hn _
    · intro y hy hne
      exact nd_setNode_ne hn.1 hy (Ne.symm hne) _
    · intro y h1 h2 _
      exfalso
      change y < g.smallestUnvisited at h2
      omega

theorem leave_ok {g : Graph} (hlen : (g.nodes.length : Int) = g.size) {n : Int}
    (hn : g.InR n) : ∃ h, g.leave n = .ok h ∧ LeaveRel g n h := by
  unfold Graph.leave
  rw [bind_ok _ _ _ (getNode_ok hlen hn)]
  refine ⟨_, rfl, rfl, by simp, rfl, rfl, rfl, rfl, rfl, ?_, ?_⟩
  · exact nd_setNode_same hlen hn _
  · intro y hy hne
    exact nd_setNode_ne hn.1 hy (Ne.symm hne) _

theorem updateEdge_ok {g : Graph} (hlen : (g.nodes.length : Int) = g.size) {u v : Int}
    (hu : g.InR u) (hv : g.InR v) : ∃ h, g.updateEdge u v = .ok h ∧ ScanRel g u v h := by
  unfold Graph.updateEdge
  rw [bind_ok _ _ _ (getNode_ok hlen hu), bind_ok _ _ _ (getNode_ok hlen hv)]
  refine ⟨_, rfl, rfl, by simp, rfl, rfl, rfl, rfl, rfl, ?_, ?_⟩
  · rw [nd_setNode_same hlen hu]; rfl
  · intro y hy hne
    exact nd_setNode_ne hu.1 hy (Ne.symm hne) _

/-! ### Field-wise form of the step relations -/

theorem VisitRel.visit_children_eq {g h : Graph} {n : Int} (r : VisitRel g n h) (y : Int)
    (hy : 0 ≤ y) : (h.nd y).children = (g.nd y).children := by
  by_cases e : y = n
  · subst e; rw [r.nd_self]
  · rw [r.nd_other y hy e]

theorem VisitRel.visit_edgeTypes_eq {g h : Graph} {n : Int} (r : VisitRel g n h) (y : Int)
    (hy : 0 ≤ y) : (h.nd y).edgeTypes = (g.nd y).edgeTypes := by
  by_cases e : y = n
  · subst e; rw [r.nd_self]
  · rw [r.nd_other y hy e]

theorem VisitRel.visit_post_eq {g h : Graph} {n : Int} (r : VisitRel g n h) (y : Int)
    (hy : 0 ≤ y) : (h.nd y).post = (g.nd y).post := by
  by_cases e : y = n
  · subst e; rw [r.nd_self]
  · rw [r.nd_other y hy e]

theorem VisitRel.pre_self {g h : Graph} {n : Int} (r : VisitRel g n h) :
    (h.nd n).pre = g.preorder := by
  rw [r.nd_self]

theorem VisitRel.pre_other {g h : Graph} {n : Int} (r : VisitRel g n h) (y : Int)
    (hy : 0 ≤ y) (e : y ≠ n) : (h.nd y).pre = (g.nd y).pre := by
  rw [r.nd_other y hy e]

theorem LeaveRel.leave_children_eq {g h : Graph} {n : Int} (r : LeaveRel g n h) (y : Int)
    (hy : 0 ≤ y) : (h.nd y).children = (g.nd y).children := by
  by_cases e : y = n
  · subst e; rw [r.nd_self]
  · rw [r.nd_other y hy e]

theorem LeaveRel.leave_edgeTypes_eq {g h : Graph} {n : Int} (r : LeaveRel g n h) (y : Int)
    (hy : 0 ≤ y) : (h.nd y).edgeTypes = (g.nd y).edgeTypes := by
  by_cases e : y = n
  · subst e; rw [r.nd_self]
  · rw [r.nd_other y hy e]

theorem LeaveRel.leave_pre_eq {g h : Graph} {n : Int} (r : LeaveRel g n h) (y : Int)
    (hy : 0 ≤ y) : (h.nd y).pre = (g.nd y).pre := by
  by_cases e : y = n
  · subst e; rw [r.nd_self]
  · rw [r.nd_other y hy e]

theorem LeaveRel.post_self {g h : Graph} {n : Int} (r : LeaveRel g n h) :
    (h.nd n).post = g.postorder := by
  rw [r.nd_self]

theorem LeaveRel.post_other {g h : Graph} {n : Int} (r : LeaveRel g n h) (y : Int)
    (hy : 0 ≤ y) (e : y ≠ n) : (h.nd y).post = (g.nd y).post := by
  rw [r.nd_other y hy e]

theorem ScanRel.scan_children_eq {g h : Graph} {u v : Int} (r : ScanRel g u v h) (y : Int)
    (hy : 0 ≤ y) : (h.nd y).children = (g.nd y).children := by
  by_cases e : y = u
  · subst e; rw [r.nd_self]
  · rw [r.nd_other y hy e]

theorem ScanRel.scan_pre_eq {g h : Graph} {u v : Int} (r : ScanRel g u v h) (y : Int)
    (hy : 0 ≤ y) : (h.nd y).pre = (g.nd y).pre := by
  by_cases e : y = u
  · subst e; rw [r.nd_self]
  · rw [r.nd_other y hy e]

theorem ScanRel.scan_post_eq {g h : Graph} {u v : Int} (r : ScanRel g u v h) (y : Int)
    (hy : 0 ≤ y) : (h.nd y).post = (g.nd y).post := by
  by_cases e : y = u
  · subst e; rw [r.nd_self]
  · rw [r.nd_other y hy e]

theorem ScanRel.et_self {g h : Graph} {u v : Int} (r : ScanRel g u v h) :
    (h.nd u).edgeTypes =
      (g.nd u).edgeTypes ++ [classify (g.nd u).pre (g.nd v).pre (g.nd v).post] := by
  rw [r.nd_self]

theorem ScanRel.et_other {g h : Graph} {u v : Int} (r : ScanRel g u v h) (y : Int)
    (hy : 0 ≤ y) (e : y ≠ u) : (h.nd y).edgeTypes = (g.nd y).edgeTypes := by
  rw [r.nd_other y hy e]

/-! ### Later states -/

theorem inR_of_size {g h : Graph} (hs : h.size = g.size) {x : Int} :
    h.InR x ↔ g.InR x := by
  unfold Graph.InR; rw [hs]

theorem Ext.refl (g : Graph) : Ext g g :=
  ⟨rfl, rfl, rfl, fun _ _ => rfl, fun _ _ => List.prefix_refl _, fun _ _ _ => rfl,
    fun _ _ _ => rfl, List.prefix_refl _, le_refl _, le_refl _, le_refl _⟩

theorem Ext.trans {a b c : Graph} (h1 : Ext a b) (h2 : Ext b c) : Ext a c := by
  have hin : ∀ x, a.InR x → b.InR x := fun x hx => (inR_of_size h1.size).2 hx
  refine ⟨h2.size.trans h1.size, h2.len.trans h1.len, h2.root.trans h1.root, ?_, ?_, ?_, ?_,
    h1.path.trans h2.path, le_trans h1.su h2.su, le_trans h1.preorder h2.preorder,
    le_trans h1.postorder h2.postorder⟩
  · intro x hx; rw [h2.children x (hin x hx), h1.children x hx]
  · intro x hx; exact (h1.etypes x hx).trans (h2.etypes x (hin x hx))
  · intro x hx hp
    have e1 := h1.pre x hx hp
    rw [h2.pre x (hin x hx) (by rw [e1]; exact hp), e1]
  · intro x hx hp
    have e1 := h1.post x hx hp
    rw [h2.post x (hin x hx) (by rw [e1]; exact hp), e1]

theorem Ext.inR {g h : Graph} (e : Ext g h) {x : Int} : h.InR x ↔ g.InR x :=
  inR_of_size e.size

theorem prefix_getElem? {α : Type} {l1 l2 : List α} (h : l1 <+: l2) {c : Nat} {a : α}
    (hc : l1[c]? = some a) : l2[c]? = some a := by
  obtain ⟨t, rfl⟩ := h
  have hlt : c < l1.length := by
    by_contra hge
    rw [List.getElem?_eq_none (by omega)] at hc
    exact absurd hc (by simp)
  rw [List.getElem?_append_left hlt]
  exact hc

theorem Slot.mono_ext {g h : Graph} (e : Ext g h) {u : Int} {c : Nat} {v : Int} {t : EdgeType}
    (s : Slot g u c v t) : Slot h u c v t := by
  obtain ⟨hu, hc, ht⟩ := s
  refine ⟨e.inR.2 hu, ?_, prefix_getElem? (e.etypes u hu) ht⟩
  rw [e.children u hu]; exact hc

theorem TreeEdge.edge_mono {g h : Graph} (e : Ext g h) {u v : Int} (s : TreeEdge g u v) :
    TreeEdge h u v := by
  obtain ⟨c, hc⟩ := s
  exact ⟨c, hc.mono_ext e⟩

theorem TreePath.path_mono {g h : Graph} (e : Ext g h) {u v : Int} (p : TreePath g u v) :
    TreePath h u v :=
  Relation.ReflTransGen.mono (fun _ _ s => TreeEdge.edge_mono e s) p

theorem VisitRel.visit_ext {g h : Graph} {n : Int} (r : VisitRel g n h) (hn : (g.nd n).pre < 0) :
    Ext g h := by
  refine ⟨r.size, r.len, r.root, fun x hx => r.visit_children_eq x hx.1, ?_, ?_, ?_, ?_, r.su_le,
    ?_, ?_⟩
  · intro x hx; rw [r.visit_edgeTypes_eq x hx.1]
  · intro x hx hp
    have : x ≠ n := by rintro rfl; omega
    exact r.pre_other x hx.1 this
  · intro x hx _; exact r.visit_post_eq x hx.1
  · rw [r.path]; exact List.prefix_append _ _
  · rw [r.preorder]; omega
  · rw [r.postorder]

theorem LeaveRel.leave_ext {g h : Graph} {n : Int} (r : LeaveRel g n h) (hn : (g.nd n).post < 0) :
    Ext g h := by
  refine ⟨r.size, r.len, r.root, fun x hx => r.leave_children_eq x hx.1, ?_, ?_, ?_, ?_, ?_, ?_, ?_⟩
  · intro x hx; rw [r.leave_edgeTypes_eq x hx.1]
  · intro x hx _; exact r.leave_pre_eq x hx.1
  · intro x hx hp
    have : x ≠ n := by rintro rfl; omega
    exact r.post_other x hx.1 this
  · rw [r.path]
  · rw [r.su]
  · rw [r.preorder]
  · rw [r.postorder]; omega

theorem ScanRel.scan_ext {g h : Graph} {u v : Int} (r : ScanRel g u v h) : Ext g h := by
  refine ⟨r.size, r.len, r.root, fun x hx => r.scan_children_eq x hx.1, ?_,
    fun x hx _ => r.scan_pre_eq x hx.1, fun x hx _ => r.scan_post_eq x hx.1, ?_, ?_, ?_, ?_⟩
  · intro x hx
    by_cases e : x = u
    · subst e; rw [r.et_self]; exact List.prefix_append _ _
    · rw [r.et_other x hx.1 e]
  · rw [r.path]
  · rw [r.su]
  · rw [r.preorder]
  · rw [r.postorder]

/-! ### Slots across a step -/

theorem slot_congr {g h : Graph} (hs : h.size = g.size)
    (hc : ∀ y, 0 ≤ y → (h.nd y).children = (g.nd y).children)
    (he : ∀ y, 0 ≤ y → (h.nd y).edgeTypes = (g.nd y).edgeTypes)
    {u : Int} {c : Nat} {v : Int} {t : EdgeType} : Slot h u c v t ↔ Slot g u c v t := by
  unfold Slot
  constructor
  · rintro ⟨hu, h1, h2⟩
    have hu' := (inR_of_size hs).1 hu
    rw [hc u hu'.1] at h1; rw [he u hu'.1] at h2
    exact ⟨hu', h1, h2⟩
  · rintro ⟨hu, h1, h2⟩
    rw [← hc u hu.1] at h1; rw [← he u hu.1] at h2
    exact ⟨(inR_of_size hs).2 hu, h1, h2⟩

theorem treePath_congr {g h : Graph} (hs : h.size = g.size)
    (hc : ∀ y, 0 ≤ y → (h.nd y).children = (g.nd y).children)
    (he : ∀ y, 0 ≤ y → (h.nd y).edgeTypes = (g.nd y).edgeTypes)
    {u v : Int} : TreePath h u v ↔ TreePath g u v := by
  constructor
  · exact Relation.ReflTransGen.mono fun a b ⟨c, s⟩ => ⟨c, (slot_congr hs hc he).1 s⟩
  · exact Relation.ReflTransGen.mono fun a b ⟨c, s⟩ => ⟨c, (slot_congr hs hc he).2 s⟩

theorem VisitRel.visit_slot {g h : Graph} {n : Int} (r : VisitRel g n h)
    {u : Int} {c : Nat} {v : Int} {t : EdgeType} : Slot h u c v t ↔ Slot g u c v t :=
  slot_congr r.size r.visit_children_eq r.visit_edgeTypes_eq

theorem LeaveRel.leave_slot {g h : Graph} {n : Int} (r : LeaveRel g n h)
    {u : Int} {c : Nat} {v : Int} {t : EdgeType} : Slot h u c v t ↔ Slot g u c v t :=
  slot_congr r.size r.leave_children_eq r.leave_edgeTypes_eq

theorem ScanRel.scan_slot {g h : Graph} {u v : Int} (r : ScanRel g u v h)
    (hv : (g.nd u).children[(g.nd u).edgeTypes.length]? = some v)
    {u' : Int} {c : Nat} {v' : Int} {t : EdgeType} (s : Slot h u' c v' t) :
    Slot g u' c v' t ∨ (u' = u ∧ c = (g.nd u).edgeTypes.length ∧ v' = v ∧
      t = classify (g.nd u).pre (g.nd v).pre (g.nd v).post) := by
  obtain ⟨hu, h1, h2⟩ := s
  have hu' := (inR_of_size r.size).1 hu
  rw [r.scan_children_eq u' hu'.1] at h1
  by_cases e : u' = u
  · subst e
    rw [r.et_self] at h2
    by_cases hc : c < (g.nd u').edgeTypes.length
    · rw [List.getElem?_append_left hc] at h2
      exact Or.inl ⟨hu', h1, h2⟩
    · right
      have hlt : c < ((g.nd u').edgeTypes ++
          [classify (g.nd u').pre (g.nd v).pre (g.nd v).post]).length := by
        by_contra hge
        rw [List.getElem?_eq_none (by omega)] at h2
        exact absurd h2 (by simp)
      have hceq : c = (g.nd u').edgeTypes.length := by
        simp at hlt; omega
      subst hceq
      rw [hv] at h1
      simp at h2
      exact ⟨rfl, rfl, (Option.some.inj h1).symm, h2.symm⟩
  · rw [r.et_other u' hu'.1 e] at h2
    exact Or.inl ⟨hu', h1, h2⟩

theorem slot_visited {g : Graph} (i : Inv g) {u : Int} {c : Nat} {v : Int} {t : EdgeType}
    (s : Slot g u c v t) : 0 ≤ (g.nd u).pre := by
  by_contra hneg
  have := i.et_unvis u s.1 (by omega)
  have h2 := s.2.2
  rw [this] at h2
  simp at h2

theorem slot_target_inR {g : Graph} (i : Inv g) {u : Int} {c : Nat} {v : Int} {t : EdgeType}
    (s : Slot g u c v t) : g.InR v :=
  i.child_inR u s.1 v (List.getElem?_mem s.2.1)

theorem pre_inj {g : Graph} (i : Inv g) {x y : Int} (hx : g.InR x) (hy : g.InR y)
    (hp : 0 ≤ (g.nd x).pre) (e : (g.nd x).pre = (g.nd y).pre) : x = y := by
  have h1 := i.path_pre x hx hp
  have h2 := i.path_pre y hy (by omega)
  rw [e] at h1
  rw [h1] at h2
  exact Option.some.inj h2

/-! ### The invariant across `visit` -/

theorem getElem?_append_single {α : Type} (l : List α) (a : α) (k : Nat) (x : α)
    (h : (l ++ [a])[k]? = some x) : l[k]? = some x ∨ (k = l.length ∧ x = a) := by
  by_cases hk : k < l.length
  · rw [List.getElem?_append_left hk] at h; exact Or.inl h
  · right
    have hlt : k < (l ++ [a]).length := by
      by_contra hge
      rw [List.getElem?_eq_none (by omega)] at h
      exact absurd h (by simp)
    have hk' : k = l.length := by simp at hlt; omega
    subst hk'
    simp at h
    exact ⟨rfl, h.symm⟩

theorem visit_inv {g h : Graph} {n : Int} (i : Inv g) (hn : g.InR n)
    (hp : (g.nd n).pre < 0) (r : VisitRel g n h) : Inv h := by
  have hpre0 : 0 ≤ g.preorder := by rw [i.pre_cnt]; exact Int.natCast_nonneg _
  have hin : ∀ {x}, h.InR x → g.InR x := fun hx => (inR_of_size r.size).1 hx
  have hin' : ∀ {x}, g.InR x → h.InR x := fun hx => (inR_of_size r.size).2 hx
  have hsrc : ∀ {u c v t}, Slot g u c v t → u ≠ n := by
    intro u c v t s e
    have := slot_visited i s
    rw [e] at this
    omega
  have hfin : ∀ {v}, g.InR v → 0 ≤ (g.nd v).post → v ≠ n := by
    intro v hv hpv e
    have := i.fin_vis v hv hpv
    rw [e] at this
    omega
  have hpath : ∀ {u v}, TreePath h u v ↔ TreePath g u v :=
    treePath_congr r.size r.visit_children_eq r.visit_edgeTypes_eq
  constructor
  · rw [r.len, r.size]; exact i.len
  · rw [r.root]; exact i.root0
  · intro x hx v hv
    rw [r.visit_children_eq x hx.1] at hv
    exact hin' (i.child_inR x (hin hx) v hv)
  · rw [r.preorder, r.path, i.pre_cnt]; simp
  · intro x hx
    by_cases e : x = n
    · subst e; right; rw [r.pre_self, r.preorder]; omega
    · rw [r.pre_other x hx.1 e, r.preorder]
      rcases i.pre_rng x (hin hx) with h1 | h1
      · left; exact h1
      · right; omega
  · intro x hx hxp
    rw [r.path]
    by_cases e : x = n
    · subst e
      rw [r.pre_self, i.pre_cnt]
      simp
    · rw [r.pre_other x hx.1 e] at hxp ⊢
      have h1 := i.path_pre x (hin hx) hxp
      exact prefix_getElem? (List.prefix_append _ _) h1
  · intro k x hk
    rw [r.path] at hk
    rcases getElem?_append_single _ _ _ _ hk with h1 | ⟨h1, h2⟩
    · obtain ⟨hx, hxp⟩ := i.pre_path k x h1
      have e : x ≠ n := by rintro rfl; omega
      exact ⟨hin' hx, by rw [r.pre_other x hx.1 e]; exact hxp⟩
    · subst h2
      refine ⟨hin' hn, ?_⟩
      rw [r.pre_self, i.pre_cnt, h1]
  · rw [r.postorder]; exact i.post_cnt
  · intro x hx
    rw [r.visit_post_eq x hx.1, r.postorder]
    exact i.post_rng x (hin hx)
  · intro x hx hxp
    rw [r.visit_post_eq x hx.1] at hxp
    have e := hfin (hin hx) hxp
    rw [r.pre_other x hx.1 e]
    exact i.fin_vis x (hin hx) hxp
  · intro x y hx hy hxp e
    rw [r.visit_post_eq x hx.1] at hxp e
    rw [r.visit_post_eq y hy.1] at e
    exact i.post_inj x y (hin hx) (hin hy) hxp e
  · have := i.su_nonneg; have := r.su_le; omega
  · intro x hx0 hxs hxn
    rw [r.size] at hxn
    by_cases e : x = n
    · subst e; rw [r.pre_self]; exact hpre0
    · rw [r.pre_other x hx0 e]
      by_cases h1 : x < g.smallestUnvisited
      · exact i.su_below x hx0 h1 hxn
      · by_cases h2 : x = g.smallestUnvisited
        · exfalso
          have := r.su_same (by rw [← h2]; exact fun h => e h.symm)
          omega
        · exact r.su_below x (by omega) hxs hxn
  · intro hlt
    rw [r.size] at hlt
    have hsu0 := i.su_nonneg
    have hsule := r.su_le
    by_cases e : n = g.smallestUnvisited
    · have h1 := r.su_lt e
      rw [r.pre_other _ (by omega) (by omega)]
      exact r.su_unvis e hlt
    · have h1 := r.su_same e
      rw [h1] at hlt ⊢
      rw [r.pre_other _ hsu0 (fun h => e h.symm)]
      exact i.su_unvis hlt
  · intro x hx hxp
    have e : x ≠ n := by
      rintro rfl
      rw [r.pre_self] at hxp; omega
    rw [r.pre_other x hx.1 e] at hxp
    rw [r.visit_edgeTypes_eq x hx.1]
    exact i.et_unvis x (hin hx) hxp
  · intro x hx hxp
    rw [r.visit_post_eq x hx.1] at hxp
    rw [r.visit_edgeTypes_eq x hx.1, r.visit_children_eq x hx.1]
    exact i.et_fin x (hin hx) hxp
  · intro x hx
    rw [r.visit_edgeTypes_eq x hx.1, r.visit_children_eq x hx.1]
    exact i.et_len x (hin hx)
  · intro x hx
    rw [r.visit_edgeTypes_eq x hx.1]
    exact i.et_def x (hin hx)
  · intro u c v s hv
    have s' := r.visit_slot.1 s
    have hu := hsrc s'
    have huv := slot_visited i s'
    have hvin := slot_target_inR i s'
    rw [r.pre_other u s'.1.1 hu]
    by_cases e : v = n
    · subst e
      rw [r.pre_self]
      rcases i.pre_rng u s'.1 with h1 | h1 <;> omega
    · rw [r.pre_other v hvin.1 e] at hv ⊢
      exact i.tree_pre u c v s' hv
  · intro u c v s hu
    have s' := r.visit_slot.1 s
    have hvin := slot_target_inR i s'
    rw [r.visit_post_eq u s'.1.1] at hu ⊢
    rw [r.visit_post_eq v hvin.1]
    exact i.tree_post u c v s' hu
  · intro u c v s
    exact hpath.2 (i.back_anc u c v (r.visit_slot.1 s))
  · intro u c v s
    have s' := r.visit_slot.1 s
    have hvin := slot_target_inR i s'
    obtain ⟨h1, h2, h3⟩ := i.cross_fin u c v s'
    rw [r.visit_post_eq u s'.1.1, r.visit_post_eq v hvin.1, r.pre_other u s'.1.1 (hsrc s'),
      r.pre_other v hvin.1 (hfin hvin h1)]
    exact ⟨h1, h2, h3⟩
  · intro u c v s
    have s' := r.visit_slot.1 s
    have hvin := slot_target_inR i s'
    obtain ⟨h1, h2, h3⟩ := i.fwd_desc u c v s'
    rw [r.visit_post_eq v hvin.1, r.pre_other u s'.1.1 (hsrc s'),
      r.pre_other v hvin.1 (hfin hvin h1)]
    exact ⟨h1, h2, hpath.2 h3⟩
  · intro u c v u' c' s1 s2
    exact i.tree_unique u c v u' c' (r.visit_slot.1 s1) (r.visit_slot.1 s2)

/-! ### The invariant across `leave` -/

theorem leave_inv {g h : Graph} {n : Int} (i : Inv g) (hn : g.InR n)
    (hpre : 0 ≤ (g.nd n).pre) (hp : (g.nd n).post < 0)
    (hall : (g.nd n).edgeTypes.length = (g.nd n).children.length)
    (hkids : ∀ c v, Slot g n c v EdgeType.Tree → 0 ≤ (g.nd v).post)
    (r : LeaveRel g n h) : Inv h := by
  have hin : ∀ {x}, h.InR x → g.InR x := fun hx => (inR_of_size r.size).1 hx
  have hin' : ∀ {x}, g.InR x → h.InR x := fun hx => (inR_of_size r.size).2 hx
  have hfin : ∀ {v}, 0 ≤ (g.nd v).post → v ≠ n := by
    intro v hpv e
    rw [e] at hpv
    omega
  have hpath : ∀ {u v}, TreePath h u v ↔ TreePath g u v :=
    treePath_congr r.size r.leave_children_eq r.leave_edgeTypes_eq
  have hlt : ∀ {v}, g.InR v → (g.nd v).post < g.postorder := by
    intro v hv
    have := i.post_cnt
    rcases i.post_rng v hv with h1 | h1 <;> omega
  constructor
  · rw [r.len, r.size]; exact i.len
  · rw [r.root]; exact i.root0
  · intro x hx v hv
    rw [r.leave_children_eq x hx.1] at hv
    exact hin' (i.child_inR x (hin hx) v hv)
  · rw [r.preorder, r.path]; exact i.pre_cnt
  · intro x hx
    rw [r.leave_pre_eq x hx.1, r.preorder]
    exact i.pre_rng x (hin hx)
  · intro x hx hxp
    rw [r.leave_pre_eq x hx.1] at hxp ⊢
    rw [r.path]
    exact i.path_pre x (hin hx) hxp
  · intro k x hk
    rw [r.path] at hk
    obtain ⟨hx, hxp⟩ := i.pre_path k x hk
    exact ⟨hin' hx, by rw [r.leave_pre_eq x hx.1]; exact hxp⟩
  · rw [r.postorder]; have := i.post_cnt; omega
  · intro x hx
    have := i.post_cnt
    by_cases e : x = n
    · subst e; right; rw [r.post_self, r.postorder]; omega
    · rw [r.post_other x hx.1 e, r.postorder]
      rcases i.post_rng x (hin hx) with h1 | h1
      · left; exact h1
      · right; omega
  · intro x hx hxp
    rw [r.leave_pre_eq x hx.1]
    by_cases e : x = n
    · subst e; exact hpre
    · rw [r.post_other x hx.1 e] at hxp
      exact i.fin_vis x (hin hx) hxp
  · intro x y hx hy hxp e
    by_cases ex : x = n
    · by_cases ey : y = n
      · rw [ex, ey]
      · exfalso
        subst ex
        rw [r.post_self, r.post_other y hy.1 ey] at e
        have := hlt (hin hy)
        omega
    · by_cases ey : y = n
      · exfalso
        subst ey
        rw [r.post_self, r.post_other x hx.1 ex] at e
        have := hlt (hin hx)
        omega
      · rw [r.post_other x hx.1 ex] at hxp e
        rw [r.post_other y hy.1 ey] at e
        exact i.post_inj x y (hin hx) (hin hy) hxp e
  · rw [r.su]; exact i.su_nonneg
  · intro x hx0 hxs hxn
    rw [r.su] at hxs; rw [r.size] at hxn
    rw [r.leave_pre_eq x hx0]
    exact i.su_below x hx0 hxs hxn
  · intro hlt'
    rw [r.su, r.size] at hlt'
    rw [r.su, r.leave_pre_eq _ i.su_nonneg]
    exact i.su_unvis hlt'
  · intro x hx hxp
    rw [r.leave_pre_eq x hx.1] at hxp
    rw [r.leave_edgeTypes_eq x hx.1]
    exact i.et_unvis x (hin hx) hxp
  · intro x hx hxp
    rw [r.leave_edgeTypes_eq x hx.1, r.leave_children_eq x hx.1]
    by_cases e : x = n
    · subst e; exact hall
    · rw [r.post_other x hx.1 e] at hxp
      exact i.et_fin x (hin hx) hxp
  · intro x hx
    rw [r.leave_edgeTypes_eq x hx.1, r.leave_children_eq x hx.1]
    exact i.et_len x (hin hx)
  · intro x hx
    rw [r.leave_edgeTypes_eq x hx.1]
    exact i.et_def x (hin hx)
  · intro u c v s hv
    have s' := r.leave_slot.1 s
    have hvin := slot_target_inR i s'
    rw [r.leave_pre_eq u s'.1.1]
    rw [r.leave_pre_eq v hvin.1] at hv ⊢
    exact i.tree_pre u c v s' hv
  · intro u c v s hu
    have s' := r.leave_slot.1 s
    have hvin := slot_target_inR i s'
    by_cases e : u = n
    · subst e
      have hvf := hkids c v s'
      rw [r.post_self, r.post_other v hvin.1 (hfin hvf)]
      exact ⟨hvf, hlt hvin⟩
    · rw [r.post_other u s'.1.1 e] at hu ⊢
      obtain ⟨h1, h2⟩ := i.tree_post u c v s' hu
      rw [r.post_other v hvin.1 (hfin h1)]
      exact ⟨h1, h2⟩
  · intro u c v s
    exact hpath.2 (i.back_anc u c v (r.leave_slot.1 s))
  · intro u c v s
    have s' := r.leave_slot.1 s
    have hvin := slot_target_inR i s'
    obtain ⟨h1, h2, h3⟩ := i.cross_fin u c v s'
    rw [r.post_other v hvin.1 (hfin h1), r.leave_pre_eq u s'.1.1, r.leave_pre_eq v hvin.1]
    refine ⟨h1, h2, ?_⟩
    by_cases e : u = n
    · subst e
      intro _
      rw [r.post_self]
      exact hlt hvin
    · rw [r.post_other u s'.1.1 e]
      exact h3
  · intro u c v s
    have s' := r.leave_slot.1 s
    have hvin := slot_target_inR i s'
    obtain ⟨h1, h2, h3⟩ := i.fwd_desc u c v s'
    rw [r.post_other v hvin.1 (hfin h1), r.leave_pre_eq u s'.1.1, r.leave_pre_eq v hvin.1]
    exact ⟨h1, h2, hpath.2 h3⟩
  · intro u c v u' c' s1 s2
    exact i.tree_unique u c v u' c' (r.leave_slot.1 s1) (r.leave_slot.1 s2)

/-! ### The classification rule -/

theorem classify_tree {a b c : Int} : classify a b c = EdgeType.Tree ↔ b < 0 := by
  unfold classify; split_ifs <;> simp <;> omega

theorem classify_forward {a b c : Int} :
    classify a b c = EdgeType.Forward ↔ 0 ≤ b ∧ a < b := by
  unfold classify; split_ifs <;> simp <;> omega

theorem classify_cross {a b c : Int} :
    classify a b c = EdgeType.Cross ↔ 0 ≤ b ∧ b ≤ a ∧ 0 ≤ c := by
  unfold classify; split_ifs <;> simp <;> omega

theorem classify_back {a b c : Int} :
    classify a b c = EdgeType.Back ↔ 0 ≤ b ∧ b ≤ a ∧ c < 0 := by
  unfold classify; split_ifs <;> simp <;> omega

theorem classify_ne_undefined (a b c : Int) : classify a b c ≠ EdgeType.Undefined := by
  unfold classify; split_ifs <;> simp

/-! ### The invariant across `updateEdge` -/

theorem scan_inv {g h : Graph} {u v : Int} (i : Inv g) (hu : g.InR u) (hv : g.InR v)
    (hpre : 0 ≤ (g.nd u).pre) (hpost : (g.nd u).post < 0)
    (hc : (g.nd u).children[(g.nd u).edgeTypes.length]? = some v)
    (htop : ∀ x, g.InR x → 0 ≤ (g.nd x).pre → (g.nd x).post < 0 → TreePath g x u)
    (hdesc : ∀ x, g.InR x → (g.nd u).pre < (g.nd x).pre →
      0 ≤ (g.nd x).post ∧ TreePath g u x)
    (htv : ∀ u' c' v', Slot g u' c' v' EdgeType.Tree → 0 ≤ (g.nd v').pre)
    (r : ScanRel g u v h) : Inv h := by
  have hin : ∀ {x}, h.InR x → g.InR x := fun hx => (inR_of_size r.size).1 hx
  have hin' : ∀ {x}, g.InR x → h.InR x := fun hx => (inR_of_size r.size).2 hx
  have hext := r.scan_ext
  have hlen : (g.nd u).edgeTypes.length < (g.nd u).children.length := by
    by_contra hge
    rw [List.getElem?_eq_none (by omega)] at hc
    exact absurd hc (by simp)
  constructor
  · rw [r.len, r.size]; exact i.len
  · rw [r.root]; exact i.root0
  · intro x hx w hw
    rw [r.scan_children_eq x hx.1] at hw
    exact hin' (i.child_inR x (hin hx) w hw)
  · rw [r.preorder, r.path]; exact i.pre_cnt
  · intro x hx
    rw [r.scan_pre_eq x hx.1, r.preorder]
    exact i.pre_rng x (hin hx)
  · intro x hx hxp
    rw [r.scan_pre_eq x hx.1] at hxp ⊢
    rw [r.path]
    exact i.path_pre x (hin hx) hxp
  · intro k x hk
    rw [r.path] at hk
    obtain ⟨hx, hxp⟩ := i.pre_path k x hk
    exact ⟨hin' hx, by rw [r.scan_pre_eq x hx.1]; exact hxp⟩
  · rw [r.postorder]; exact i.post_cnt
  · intro x hx
    rw [r.scan_post_eq x hx.1, r.postorder]
    exact i.post_rng x (hin hx)
  · intro x hx hxp
    rw [r.scan_post_eq x hx.1] at hxp
    rw [r.scan_pre_eq x hx.1]
    exact i.fin_vis x (hin hx) hxp
  · intro x y hx hy hxp e
    rw [r.scan_post_eq x hx.1] at hxp e
    rw [r.scan_post_eq y hy.1] at e
    exact i.post_inj x y (hin hx) (hin hy) hxp e
  · rw [r.su]; exact i.su_nonneg
  · intro x hx0 hxs hxn
    rw [r.su] at hxs; rw [r.size] at hxn
    rw [r.scan_pre_eq x hx0]
    exact i.su_below x hx0 hxs hxn
  · intro hlt'
    rw [r.su, r.size] at hlt'
    rw [r.su, r.scan_pre_eq _ i.su_nonneg]
    exact i.su_unvis hlt'
  · intro x hx hxp
    rw [r.scan_pre_eq x hx.1] at hxp
    have e : x ≠ u := by rintro rfl; omega
    rw [r.et_other x hx.1 e]
    exact i.et_unvis x (hin hx) hxp
  · intro x hx hxp
    rw [r.scan_post_eq x hx.1] at hxp
    have e : x ≠ u := by rintro rfl; omega
    rw [r.et_other x hx.1 e, r.scan_children_eq x hx.1]
    exact i.et_fin x (hin hx) hxp
  · intro x hx
    rw [r.scan_children_eq x hx.1]
    by_cases e : x = u
    · subst e; rw [r.et_self]; simp; omega
    · rw [r.et_other x hx.1 e]
      exact i.et_len x (hin hx)
  · intro x hx
    by_cases e : x = u
    · subst e
      rw [r.et_self]
      intro hm
      rcases List.mem_append.1 hm with h1 | h1
      · exact i.et_def x (hin hx) h1
      · exact classify_ne_undefined _ _ _ (List.mem_singleton.1 h1).symm
    · rw [r.et_other x hx.1 e]
      exact i.et_def x (hin hx)
  · intro u' c v' s hv'
    rcases r.scan_slot hc s with s' | ⟨e1, _, e3, e4⟩
    · have hvin := slot_target_inR i s'
      rw [r.scan_pre_eq u' s'.1.1]
      rw [r.scan_pre_eq v' hvin.1] at hv' ⊢
      exact i.tree_pre u' c v' s' hv'
    · exfalso
      subst e3
      rw [r.scan_pre_eq v' hv.1] at hv'
      have := classify_tree.1 e4.symm
      omega
  · intro u' c v' s hu'
    rcases r.scan_slot hc s with s' | ⟨e1, _, e3, e4⟩
    · have hvin := slot_target_inR i s'
      rw [r.scan_post_eq u' s'.1.1] at hu' ⊢
      rw [r.scan_post_eq v' hvin.1]
      exact i.tree_post u' c v' s' hu'
    · exfalso
      subst e1
      rw [r.scan_post_eq u' hu.1] at hu'
      omega
  · intro u' c v' s
    rcases r.scan_slot hc s with s' | ⟨e1, _, e3, e4⟩
    · exact (i.back_anc u' c v' s').path_mono hext
    · subst e1 e3
      obtain ⟨h1, h2, h3⟩ := classify_back.1 e4.symm
      exact (htop v' hv h1 h3).path_mono hext
  · intro u' c v' s
    rcases r.scan_slot hc s with s' | ⟨e1, _, e3, e4⟩
    · have hvin := slot_target_inR i s'
      rw [r.scan_post_eq u' s'.1.1, r.scan_post_eq v' hvin.1, r.scan_pre_eq u' s'.1.1, r.scan_pre_eq v' hvin.1]
      exact i.cross_fin u' c v' s'
    · subst e1 e3
      obtain ⟨h1, h2, h3⟩ := classify_cross.1 e4.symm
      rw [r.scan_post_eq u' hu.1, r.scan_post_eq v' hv.1, r.scan_pre_eq u' hu.1, r.scan_pre_eq v' hv.1]
      refine ⟨h3, ?_, fun h => absurd h (by omega)⟩
      have hne : (g.nd v').pre ≠ (g.nd u').pre := by
        intro e
        have := pre_inj i hv hu h1 e
        subst this
        omega
      omega
  · intro u' c v' s
    rcases r.scan_slot hc s with s' | ⟨e1, _, e3, e4⟩
    · have hvin := slot_target_inR i s'
      obtain ⟨h1, h2, h3⟩ := i.fwd_desc u' c v' s'
      rw [r.scan_post_eq v' hvin.1, r.scan_pre_eq u' s'.1.1, r.scan_pre_eq v' hvin.1]
      exact ⟨h1, h2, h3.path_mono hext⟩
    · subst e1 e3
      obtain ⟨h1, h2⟩ := classify_forward.1 e4.symm
      obtain ⟨h3, h4⟩ := hdesc v' hv h2
      rw [r.scan_post_eq v' hv.1, r.scan_pre_eq u' hu.1, r.scan_pre_eq v' hv.1]
      exact ⟨h3, h2, h4.path_mono hext⟩
  · intro u1 c1 w u2 c2 s1 s2
    rcases r.scan_slot hc s1 with s1' | ⟨e1, e2, e3, e4⟩
    · rcases r.scan_slot hc s2 with s2' | ⟨f1, f2, f3, f4⟩
      · exact i.tree_unique u1 c1 w u2 c2 s1' s2'
      · exfalso
        have h1 := htv u1 c1 w s1'
        have h2 := classify_tree.1 f4.symm
        rw [f3] at h1
        omega
    · rcases r.scan_slot hc s2 with s2' | ⟨f1, f2, f3, f4⟩
      · exfalso
        have h1 := htv u2 c2 w s2'
        have h2 := classify_tree.1 e4.symm
        rw [e3] at h1
        omega
      · exact ⟨e1.trans f1.symm, e2.trans f2.symm⟩

/-! ### The ghost trace across a step -/

theorem EvOK.ev_mono {g h : Graph} (x : Ext g h) {e : Event} (ok : EvOK g e) : EvOK h e := by
  cases e with
  | call n g0 =>
    obtain ⟨h1, h2, h3⟩ := ok
    exact ⟨h1, h2.trans x, h3⟩
  | scan u c v g0 =>
    obtain ⟨h1, h2, h3, h4, h5, h6, h7, h8, h9, h10⟩ := ok
    refine ⟨h1, h2.trans x, h3, h4, h5, h6, h7, h8, ?_, h10⟩
    exact prefix_getElem? (x.etypes u (h2.inR.2 h3)) h9
  | leave n g0 =>
    obtain ⟨h1, h2, h3⟩ := ok
    exact ⟨h1, h2.trans x, h3⟩
  | restart r g0 =>
    obtain ⟨h1, h2, h3⟩ := ok
    exact ⟨h1, h2.trans x, h3⟩
  | ret n => trivial

theorem evOK_snap {gf : Graph} {e : Event} (ok : EvOK gf e) {g : Graph}
    (hs : e.snap = some g) : Inv g ∧ Ext g gf := by
  cases e with
  | call n g0 => cases hs; exact ⟨ok.1, ok.2.1⟩
  | scan u c v g0 => cases hs; exact ⟨ok.1, ok.2.1⟩
  | leave n g0 => cases hs; exact ⟨ok.1, ok.2.1⟩
  | restart r g0 => cases hs; exact ⟨ok.1, ok.2.1⟩
  | ret n => cases hs

/-- Appending an event recorded in the current graph keeps the chain. -/
theorem chain_snoc {s : Run} (r : RInv s) (e : Event)
    (he : ∀ g, e.snap = some g → g = s.g) :
    (s.trace ++ [e]).Pairwise fun e1 e2 =>
      ∀ g1 g2, e1.snap = some g1 → e2.snap = some g2 → Ext g1 g2 := by
  rw [List.pairwise_append]
  refine ⟨r.chain, List.pairwise_singleton _ _, ?_⟩
  intro a ha b hb g1 g2 h1 h2
  rw [List.mem_singleton] at hb
  subst hb
  rw [he g2 h2]
  exact (evOK_snap (r.ev a ha) h1).2

/-- Appending an event recorded in the current graph keeps the link between the
recorded graphs and the calls logged before them. -/
theorem snap_path_snoc {s : Run} (r : RInv s) (e0 : Event)
    (he : ∀ g, e0.snap = some g → g = s.g) :
    ∀ (i : Nat) e g, (s.trace ++ [e0])[i]? = some e → e.snap = some g →
      g.DFSpath = ((s.trace ++ [e0]).take i).filterMap Event.callTarget := by
  intro i e g hi hg
  rcases getElem?_append_single _ _ _ _ hi with h1 | ⟨h1, h2⟩
  · have hlt : i < s.trace.length := by
      by_contra hge
      rw [List.getElem?_eq_none (by omega)] at h1
      exact absurd h1 (by simp)
    rw [List.take_append_of_le_length (by omega)]
    exact r.snap_path i e g h1 hg
  · subst h2
    rw [h1, List.take_left, he g hg]
    exact r.calls.symm

/-- Appending an event recorded in the current graph keeps the link between a
`call` event and the graphs recorded after its `visit`. -/
theorem after_call_snoc {s : Run} (r : RInv s) (e0 : Event)
    (he : ∀ g, e0.snap = some g → g = s.g) {gn : Graph} (x : Ext s.g gn)
    (hc : ∀ w g h, e0 = Event.call w g → g.visit w = .ok h → h = gn) :
    ∀ (i : Nat) w g h, (s.trace ++ [e0])[i]? = some (Event.call w g) → g.visit w = .ok h →
      Ext h gn ∧ ∀ (j : Nat) e g', i < j → (s.trace ++ [e0])[j]? = some e →
        e.snap = some g' → Ext h g' := by
  intro i w g h hi hv
  rcases getElem?_append_single _ _ _ _ hi with h1 | ⟨h1, h2⟩
  · obtain ⟨a1, a2⟩ := r.after_call i w g h h1 hv
    refine ⟨a1.trans x, ?_⟩
    intro j e g' hij hj hg
    rcases getElem?_append_single _ _ _ _ hj with h3 | ⟨_, h4⟩
    · exact a2 j e g' hij h3 hg
    · subst h4
      rw [he g' hg]
      exact a1
  · have e1 := hc w g h h2.symm hv
    subst e1
    refine ⟨Ext.refl _, ?_⟩
    intro j e g' hij hj _
    exfalso
    rw [List.getElem?_eq_none (by simp; omega)] at hj
    exact absurd hj (by simp)

theorem rinv_visit {s : Run} {n : Int} {h : Graph} (r : RInv s) (hn : s.g.InR n)
    (hp : (s.g.nd n).pre < 0) (hv : s.g.visit n = .ok h) (v : VisitRel s.g n h) :
    RInv { g := h, trace := s.trace ++ [Event.call n s.g] } := by
  have hext := v.visit_ext hp
  refine ⟨visit_inv r.inv hn hp v, ?_, ?_, ?_, ?_, ?_, ?_,
    snap_path_snoc r _ (fun g hg => by cases hg; rfl),
    after_call_snoc r _ (fun g hg => by cases hg; rfl) hext (fun w g h' e1 e2 => by
      cases e1
      rw [hv] at e2
      exact (Except.ok.inj e2).symm)⟩
  · intro e he
    rcases List.mem_append.1 he with h1 | h1
    · exact (r.ev e h1).ev_mono hext
    · rw [List.mem_singleton] at h1
      subst h1
      exact ⟨r.inv, hext, hn, hp⟩
  · exact chain_snoc r _ (fun g hg => by cases hg; rfl)
  · show List.filterMap _ _ = h.DFSpath
    rw [List.filterMap_append, r.calls, v.path]
    rfl
  · intro u hu c hc
    have hu' := (inR_of_size v.size).1 hu
    rw [v.visit_edgeTypes_eq u hu'.1] at hc
    obtain ⟨w, g0, hm⟩ := r.scans u hu' c hc
    exact ⟨w, g0, List.mem_append_left _ hm⟩
  · show h.postorder = _
    rw [List.filterMap_append, v.postorder, r.leave_cnt]
    simp [Event.leaveTarget]
  · intro k x hk
    rw [List.filterMap_append] at hk
    simp only [List.filterMap_cons, Event.leaveTarget, List.filterMap_nil,
      List.append_nil] at hk
    obtain ⟨hx, hxp⟩ := r.leave_post k x hk
    exact ⟨(inR_of_size v.size).2 hx, by rw [v.visit_post_eq x hx.1]; exact hxp⟩

theorem rinv_leave {s : Run} {n : Int} {h : Graph} (r : RInv s) (hn : s.g.InR n)
    (hpre : 0 ≤ (s.g.nd n).pre) (hp : (s.g.nd n).post < 0)
    (hall : (s.g.nd n).edgeTypes.length = (s.g.nd n).children.length)
    (hkids : ∀ c v, Slot s.g n c v EdgeType.Tree → 0 ≤ (s.g.nd v).post)
    (v : LeaveRel s.g n h) :
    RInv { g := h, trace := s.trace ++ [Event.leave n s.g] } := by
  have hext := v.leave_ext hp
  refine ⟨leave_inv r.inv hn hpre hp hall hkids v, ?_, ?_, ?_, ?_, ?_, ?_,
    snap_path_snoc r _ (fun g hg => by cases hg; rfl),
    after_call_snoc r _ (fun g hg => by cases hg; rfl) (v.leave_ext hp)
      (fun w g h' e1 _ => by cases e1)⟩
  · intro e he
    rcases List.mem_append.1 he with h1 | h1
    · exact (r.ev e h1).ev_mono hext
    · rw [List.mem_singleton] at h1
      subst h1
      exact ⟨r.inv, hext, hn, hpre, hp⟩
  · exact chain_snoc r _ (fun g hg => by cases hg; rfl)
  · show List.filterMap _ _ = h.DFSpath
    rw [List.filterMap_append, r.calls, v.path]
    simp [Event.callTarget]
  · intro u hu c hc
    have hu' := (inR_of_size v.size).1 hu
    rw [v.leave_edgeTypes_eq u hu'.1] at hc
    obtain ⟨w, g0, hm⟩ := r.scans u hu' c hc
    exact ⟨w, g0, List.mem_append_left _ hm⟩
  · show h.postorder = _
    rw [List.filterMap_append, v.postorder, r.leave_cnt]
    simp [Event.leaveTarget]
  · intro k x hk
    rw [List.filterMap_append] at hk
    simp only [List.filterMap_cons, Event.leaveTarget, List.filterMap_nil] at hk
    rcases getElem?_append_single _ _ _ _ hk with h1 | ⟨h1, h2⟩
    · obtain ⟨hx, hxp⟩ := r.leave_post k x h1
      have e : x ≠ n := by rintro rfl; omega
      exact ⟨(inR_of_size v.size).2 hx, by rw [v.post_other x hx.1 e]; exact hxp⟩
    · subst h2
      refine ⟨(inR_of_size v.size).2 hn, ?_⟩
      rw [v.post_self, r.leave_cnt, h1]

theorem rinv_scan {s : Run} {u v : Int} {h : Graph} (r : RInv s) (hu : s.g.InR u)
    (hv : s.g.InR v) (hpre : 0 ≤ (s.g.nd u).pre) (hpost : (s.g.nd u).post < 0)
    (hc : (s.g.nd u).children[(s.g.nd u).edgeTypes.length]? = some v)
    (htop : ∀ x, s.g.InR x → 0 ≤ (s.g.nd x).pre → (s.g.nd x).post < 0 → TreePath s.g x u)
    (hdesc : ∀ x, s.g.InR x → (s.g.nd u).pre < (s.g.nd x).pre →
      0 ≤ (s.g.nd x).post ∧ TreePath s.g u x)
    (htv : ∀ u' c' v', Slot s.g u' c' v' EdgeType.Tree → 0 ≤ (s.g.nd v').pre)
    (x : ScanRel s.g u v h) :
    RInv { g := h,
           trace := s.trace ++ [Event.scan u (s.g.nd u).edgeTypes.length v s.g] } := by
  have hext := x.scan_ext
  refine ⟨scan_inv r.inv hu hv hpre hpost hc htop hdesc htv x, ?_, ?_, ?_, ?_, ?_, ?_,
    snap_path_snoc r _ (fun g hg => by cases hg; rfl),
    after_call_snoc r _ (fun g hg => by cases hg; rfl) x.scan_ext
      (fun w g h' e1 _ => by cases e1)⟩
  · intro e he
    rcases List.mem_append.1 he with h1 | h1
    · exact (r.ev e h1).ev_mono hext
    · rw [List.mem_singleton] at h1
      subst h1
      refine ⟨r.inv, hext, hu, hv, hpre, hpost, rfl, hc, ?_, htop, hdesc, htv⟩
      show (h.nd u).edgeTypes[_]? = _
      rw [x.et_self]
      simp
  · exact chain_snoc r _ (fun g hg => by cases hg; rfl)
  · show List.filterMap _ _ = h.DFSpath
    rw [List.filterMap_append, r.calls, x.path]
    simp [Event.callTarget]
  · intro u' hu' c hc'
    have hu'' := (inR_of_size x.size).1 hu'
    by_cases e : u' = u
    · subst e
      change c < ((h.nd u').edgeTypes).length at hc'
      rw [x.et_self] at hc'
      by_cases hlt : c < (s.g.nd u').edgeTypes.length
      · obtain ⟨w, g0, hm⟩ := r.scans u' hu'' c hlt
        exact ⟨w, g0, List.mem_append_left _ hm⟩
      · have : c = (s.g.nd u').edgeTypes.length := by simp at hc'; omega
        subst this
        exact ⟨v, s.g, List.mem_append_right _ (List.mem_singleton.2 rfl)⟩
    · change c < ((h.nd u').edgeTypes).length at hc'
      rw [x.et_other u' hu''.1 e] at hc'
      obtain ⟨w, g0, hm⟩ := r.scans u' hu'' c hc'
      exact ⟨w, g0, List.mem_append_left _ hm⟩
  · show h.postorder = _
    rw [List.filterMap_append, x.postorder, r.leave_cnt]
    simp [Event.leaveTarget]
  · intro k y hk
    rw [List.filterMap_append] at hk
    simp only [List.filterMap_cons, Event.leaveTarget, List.filterMap_nil,
      List.append_nil] at hk
    obtain ⟨hy, hyp⟩ := r.leave_post k y hk
    exact ⟨(inR_of_size x.size).2 hy, by rw [x.scan_post_eq y hy.1]; exact hyp⟩

/-- Logging an event that is consistent with the current graph. -/
theorem rinv_log {s : Run} (r : RInv s) (e : Event) (ok : EvOK s.g e)
    (he : ∀ g, e.snap = some g → g = s.g) (h1 : e.callTarget = none)
    (h2 : e.leaveTarget = none) : RInv (s.log e) := by
  refine ⟨r.inv, ?_, chain_snoc r e he, ?_, ?_, ?_, ?_, snap_path_snoc r e he,
    after_call_snoc r e he (Ext.refl _) (fun w g h' e1 _ => by
      subst e1
      simp [Event.callTarget] at h1)⟩
  · intro e' he'
    rcases List.mem_append.1 he' with h | h
    · exact r.ev e' h
    · rw [List.mem_singleton] at h; subst h; exact ok
  · show List.filterMap _ (s.trace ++ [e]) = s.g.DFSpath
    rw [List.filterMap_append, r.calls]
    simp [h1]
  · intro u hu c hc
    obtain ⟨w, g0, hm⟩ := r.scans u hu c hc
    exact ⟨w, g0, List.mem_append_left _ hm⟩
  · show s.g.postorder = (List.filterMap _ (s.trace ++ [e])).length
    rw [List.filterMap_append, r.leave_cnt]
    simp [h2]
  · intro k x hk
    change (List.filterMap _ (s.trace ++ [e]))[k]? = some x at hk
    rw [List.filterMap_append] at hk
    simp only [List.filterMap_cons, h2, List.filterMap_nil, List.append_nil] at hk
    exact r.leave_post k x hk

/-! ### The child loop -/

theorem childLoop_succ (rec : Run → Int → Except Err Run) (n : Int) (k c : Nat) (s : Run)
    {v : Int} {g1 : Graph} {vis : Bool} {s2 : Run}
    (h1 : s.g.getChild n c = .ok v) (h2 : s.g.updateEdge n v = .ok g1)
    (h3 : g1.isVisited v = .ok vis)
    (h4 : (if vis then pure { g := g1, trace := s.trace ++ [Event.scan n c v s.g] }
      else rec { g := g1, trace := s.trace ++ [Event.scan n c v s.g] } v) = .ok s2) :
    childLoop rec n (k + 1) c s = childLoop rec n k (c + 1) s2 := by
  rw [childLoop, bind_ok _ _ _ h1, bind_ok _ _ _ h2]
  simp only []
  rw [bind_ok _ _ _ h3]
  cases vis with
  | true =>
    simp only [if_true] at h4 ⊢
    rw [bind_ok _ _ _ h4]
  | false =>
    simp only [Bool.false_eq_true, if_false] at h4 ⊢
    rw [bind_ok _ _ _ h4]

theorem getChild_ok {g : Graph} (hlen : (g.nodes.length : Int) = g.size) {u : Int}
    (hu : g.InR u) {c : Nat} {v : Int} (hc : (g.nd u).children[c]? = some v) :
    g.getChild u c = .ok v := by
  unfold Graph.getChild
  rw [bind_ok _ _ _ (getNode_ok hlen hu), hc]
  rfl

theorem LoopRel.rfl_loop (s : Run) (u : Int) : LoopRel s s u :=
  ⟨Ext.refl _, fun _ _ _ _ => rfl, rfl⟩

theorem LoopRel.trans_loop {a b c : Run} {u : Int} (h1 : LoopRel a b u) (h2 : LoopRel b c u) :
    LoopRel a c u := by
  refine ⟨h1.ext.trans h2.ext, ?_, h2.restarts.trans h1.restarts⟩
  intro x hx hne hp
  have e1 := h1.frame x hx hne hp
  rw [h2.frame x (h1.ext.inR.2 hx) hne (by rw [e1]; exact hp), e1]

/-- One iteration of the child loop. -/
theorem childLoop_step {rec : Run → Int → Except Err Run} {f : Nat} (hrec : RecOK rec f)
    {u : Int} {c : Nat} {s : Run} (li : LI s u c)
    (hclt : c < (s.g.nd u).children.length) (hfuel : s.g.size ≤ s.g.preorder + f) :
    ∃ (v : Int) (g1 : Graph) (vis : Bool) (s2 : Run),
      s.g.getChild u c = .ok v ∧ s.g.updateEdge u v = .ok g1 ∧ g1.isVisited v = .ok vis ∧
      (if vis then pure { g := g1, trace := s.trace ++ [Event.scan u c v s.g] }
        else rec { g := g1, trace := s.trace ++ [Event.scan u c v s.g] } v) = .ok s2 ∧
      LI s2 u (c + 1) ∧ LoopRel s s2 u := by
  have i := li.rinv.inv
  have hcv : (s.g.nd u).children[c]? = some ((s.g.nd u).children[c]) :=
    List.getElem?_eq_getElem hclt
  generalize (s.g.nd u).children[c] = v at hcv
  have hvin : s.g.InR v := i.child_inR u li.inR v (List.getElem?_mem hcv)
  obtain ⟨g1, hupd, x⟩ := updateEdge_ok i.len li.inR hvin
  have hcv' : (s.g.nd u).children[(s.g.nd u).edgeTypes.length]? = some v := by
    rw [li.cnt]; exact hcv
  have r1 : RInv { g := g1, trace := s.trace ++ [Event.scan u c v s.g] } := by
    have := rinv_scan li.rinv li.inR hvin li.pre li.post hcv' li.top li.desc li.tree_vis x
    rwa [li.cnt] at this
  have hext1 : Ext s.g g1 := x.scan_ext
  have hin1 : ∀ {y}, g1.InR y ↔ s.g.InR y := hext1.inR
  have top1 : ∀ y, g1.InR y → 0 ≤ (g1.nd y).pre → (g1.nd y).post < 0 → TreePath g1 y u := by
    intro y hy h1 h2
    rw [x.scan_pre_eq y hy.1] at h1
    rw [x.scan_post_eq y hy.1] at h2
    exact (li.top y (hin1.1 hy) h1 h2).path_mono hext1
  have desc1 : ∀ y, g1.InR y → (g1.nd u).pre < (g1.nd y).pre →
      0 ≤ (g1.nd y).post ∧ TreePath g1 u y := by
    intro y hy h1
    rw [x.scan_pre_eq y hy.1, x.scan_pre_eq u li.inR.1] at h1
    rw [x.scan_post_eq y hy.1]
    obtain ⟨h2, h3⟩ := li.desc y (hin1.1 hy) h1
    exact ⟨h2, h3.path_mono hext1⟩
  have newslot : Slot g1 u c v (classify (s.g.nd u).pre (s.g.nd v).pre (s.g.nd v).post) := by
    refine ⟨hin1.2 li.inR, ?_, ?_⟩
    · rw [x.scan_children_eq u li.inR.1]; exact hcv
    · rw [x.et_self, ← li.cnt]; simp
  have hvis := isVisited_ok r1.inv.len (g := g1) hvin.1
  have hsz : ¬ g1.size ≤ v := by rw [x.size]; have := hvin.2; omega
  have hcnt1 : (g1.nd u).edgeTypes.length = c + 1 := by
    rw [x.et_self, List.length_append, li.cnt]; rfl
  have h0in : s.g.InR 0 := ⟨le_refl _, lt_of_le_of_lt li.inR.1 li.inR.2⟩
  have hrs1 : (s.trace ++ [Event.scan u c v s.g]).filterMap Event.restartTarget =
      s.trace.filterMap Event.restartTarget := by
    rw [List.filterMap_append]; simp [Event.restartTarget]
  have lr1 : LoopRel s { g := g1, trace := s.trace ++ [Event.scan u c v s.g] } u :=
    ⟨hext1, fun y hy hne _ => x.nd_other y hy.1 hne, hrs1⟩
  by_cases hv : 0 ≤ (s.g.nd v).pre
  · -- the target is already visited: no recursive call
    refine ⟨v, g1, true, _, getChild_ok i.len li.inR hcv, hupd, ?_, rfl, ?_, lr1⟩
    · rw [hvis]
      have : (g1.size ≤ v ∨ 0 ≤ (g1.nd v).pre) := Or.inr (by rw [x.scan_pre_eq v hvin.1]; exact hv)
      simp [this]
    · refine ⟨r1, hin1.2 li.inR, ?_, ?_, hcnt1, ?_, top1, ?_, desc1, ?_⟩
      · show 0 ≤ (g1.nd u).pre
        rw [x.scan_pre_eq u li.inR.1]; exact li.pre
      · show (g1.nd u).post < 0
        rw [x.scan_post_eq u li.inR.1]; exact li.post
      · show 0 ≤ (g1.nd 0).pre
        rw [x.scan_pre_eq 0 (le_refl _)]; exact li.root_vis
      · intro c' v' sl
        rcases x.scan_slot hcv' sl with h1 | ⟨_, _, e3, e4⟩
        · show 0 ≤ (g1.nd v').post
          rw [x.scan_post_eq v' (slot_target_inR i h1).1]
          exact li.kids c' v' h1
        · exfalso
          have := classify_tree.1 e4.symm
          omega
      · intro u' c' v' sl
        rcases x.scan_slot hcv' sl with h1 | ⟨_, _, e3, e4⟩
        · show 0 ≤ (g1.nd v').pre
          rw [x.scan_pre_eq v' (slot_target_inR i h1).1]
          exact li.tree_vis u' c' v' h1
        · exfalso
          have := classify_tree.1 e4.symm
          omega
  · -- the target is unvisited: the edge is a tree edge and `DFS` is called on it
    have hv' : (s.g.nd v).pre < 0 := by omega
    have hty : classify (s.g.nd u).pre (s.g.nd v).pre (s.g.nd v).post = EdgeType.Tree :=
      classify_tree.2 hv'
    rw [hty] at newslot
    have tedge : TreeEdge g1 u v := ⟨c, newslot⟩
    have hv0 : 0 ≤ (g1.nd 0).pre := by rw [x.scan_pre_eq 0 (le_refl _)]; exact li.root_vis
    have hfuel1 : g1.size ≤ g1.preorder + f := by rw [x.size, x.preorder]; exact hfuel
    obtain ⟨s2, hrec2, p⟩ := hrec { g := g1, trace := s.trace ++ [Event.scan u c v s.g] } v r1
      (hin1.2 hvin) (by show (g1.nd v).pre < 0; rw [x.scan_pre_eq v hvin.1]; exact hv') hv0
      (fun y hy h1 h2 => (top1 y hy h1 h2).tail tedge)
      (fun u' c' v' sl => by
        rcases x.scan_slot hcv' sl with h1 | ⟨_, _, e3, _⟩
        · right
          show 0 ≤ (g1.nd v').pre
          rw [x.scan_pre_eq v' (slot_target_inR i h1).1]
          exact li.tree_vis u' c' v' h1
        · exact Or.inl e3)
      hfuel1
    have pext : Ext g1 s2.g := p.ext
    have pframe : ∀ y, g1.InR y → 0 ≤ (g1.nd y).pre → s2.g.nd y = g1.nd y := p.frame
    have pfresh : ∀ y, g1.InR y → (g1.nd y).pre < 0 → 0 ≤ (s2.g.nd y).pre →
        0 ≤ (s2.g.nd y).post ∧ TreePath s2.g v y := p.fresh
    have hin2 : ∀ {y}, s2.g.InR y ↔ g1.InR y := pext.inR
    have hu1 : g1.InR u := hin1.2 li.inR
    have hpu1 : 0 ≤ (g1.nd u).pre := by rw [x.scan_pre_eq u li.inR.1]; exact li.pre
    have hfu : s2.g.nd u = g1.nd u := pframe u hu1 hpu1
    refine ⟨v, g1, false, s2, getChild_ok i.len li.inR hcv, hupd, ?_, hrec2, ?_, ?_⟩
    · rw [hvis]
      have : ¬ (g1.size ≤ v ∨ 0 ≤ (g1.nd v).pre) := by
        rw [x.scan_pre_eq v hvin.1]
        rintro (h | h)
        · exact hsz h
        · omega
      simp [this]
    · refine ⟨p.rinv, hin2.2 hu1, ?_, ?_, ?_, ?_, ?_, ?_, ?_, p.tree_vis⟩
      · rw [hfu]; exact hpu1
      · rw [hfu, x.scan_post_eq u li.inR.1]; exact li.post
      · rw [hfu]; exact hcnt1
      · have h1 : 0 ≤ (g1.nd 0).pre := by rw [x.scan_pre_eq 0 (le_refl _)]; exact li.root_vis
        rw [pext.pre 0 (hin1.2 h0in) h1]; exact h1
      · intro y hy h1 h2
        have hy1 := hin2.1 hy
        by_cases hvy : 0 ≤ (g1.nd y).pre
        · have e := pframe y hy1 hvy
          rw [e] at h1 h2
          exact (top1 y hy1 h1 h2).path_mono pext
        · exfalso
          have := (pfresh y hy1 (by omega) h1).1
          omega
      · intro c' v' sl
        have sl1 : Slot g1 u c' v' EdgeType.Tree := by
          obtain ⟨_, h2, h3⟩ := sl
          rw [hfu] at h2 h3
          exact ⟨hu1, h2, h3⟩
        rcases x.scan_slot hcv' sl1 with h1 | ⟨_, _, e3, _⟩
        · have hv'in := slot_target_inR i h1
          have h2 := li.kids c' v' h1
          have h3 : 0 ≤ (g1.nd v').post := by rw [x.scan_post_eq v' hv'in.1]; exact h2
          rw [pext.post v' (hin1.2 hv'in) h3]; exact h3
        · rw [e3]; exact p.done
      · intro y hy h1
        have hy1 := hin2.1 hy
        rw [hfu] at h1
        by_cases hvy : 0 ≤ (g1.nd y).pre
        · have e := pframe y hy1 hvy
          rw [e] at h1 ⊢
          obtain ⟨h2, h3⟩ := desc1 y hy1 h1
          exact ⟨h2, h3.path_mono pext⟩
        · obtain ⟨h2, h3⟩ := pfresh y hy1 (by omega) (by omega)
          exact ⟨h2, Relation.ReflTransGen.head (tedge.edge_mono pext) h3⟩
    · refine ⟨hext1.trans pext, ?_, p.restarts.trans hrs1⟩
      intro y hy hne hpy
      have e1 : g1.nd y = s.g.nd y := x.nd_other y hy.1 hne
      rw [pframe y (hin1.2 hy) (by rw [e1]; exact hpy), e1]

theorem childLoop_spec {rec : Run → Int → Except Err Run} {f : Nat} (hrec : RecOK rec f)
    (u : Int) : ∀ (k c : Nat) (s : Run), LI s u c →
      c + k = (s.g.nd u).children.length → s.g.size ≤ s.g.preorder + f →
      ∃ t, childLoop rec u k c s = .ok t ∧ LI t u (c + k) ∧ LoopRel s t u := by
  intro k
  induction k with
  | zero =>
    intro c s li _ _
    exact ⟨s, rfl, li, LoopRel.rfl_loop s u⟩
  | succ k ih =>
    intro c s li hck hfuel
    obtain ⟨v, g1, vis, s2, h1, h2, h3, h4, li2, lr⟩ :=
      childLoop_step hrec li (by omega) hfuel
    have hch : (s2.g.nd u).children = (s.g.nd u).children := lr.ext.children u li.inR
    obtain ⟨t, ht, lit, lrt⟩ := ih (c + 1) s2 li2 (by rw [hch]; omega)
      (by rw [lr.ext.size]; have := lr.ext.preorder; omega)
    refine ⟨t, ?_, ?_, lr.trans_loop lrt⟩
    · rw [childLoop_succ rec u k c s h1 h2 h3 h4]; exact ht
    · have : c + (k + 1) = c + 1 + k := by omega
      rw [this]; exact lit

/-! ### Counting the visited vertices -/

theorem path_nodup {g : Graph} (i : Inv g) : g.DFSpath.Nodup := by
  rw [List.nodup_iff_getElem?_ne_getElem?]
  intro a b hab hb e
  have hb' : g.DFSpath[b]? = some (g.DFSpath[b]) := List.getElem?_eq_getElem hb
  have ha' : g.DFSpath[a]? = some (g.DFSpath[b]) := by rw [e, hb']
  have h1 := (i.pre_path a _ ha').2
  have h2 := (i.pre_path b _ hb').2
  rw [h1] at h2
  have : a = b := by exact_mod_cast h2
  omega

theorem mem_path_iff {g : Graph} (i : Inv g) {x : Int} :
    x ∈ g.DFSpath ↔ g.InR x ∧ 0 ≤ (g.nd x).pre := by
  constructor
  · intro hx
    obtain ⟨k, hk⟩ := List.getElem?_of_mem hx
    obtain ⟨h1, h2⟩ := i.pre_path k x hk
    exact ⟨h1, by rw [h2]; exact Int.natCast_nonneg _⟩
  · rintro ⟨h1, h2⟩
    exact List.getElem?_mem (i.path_pre x h1 h2)

/-- A nodup list of vertex ids in range has at most `size` entries. -/
theorem length_le_of_inR {l : List Int} {n : Int} (hd : l.Nodup)
    (hr : ∀ x ∈ l, 0 ≤ x ∧ x < n) : (l.length : Int) ≤ n ∨ l = [] := by
  by_cases hl : l = []
  · exact Or.inr hl
  left
  have hsub : l.toFinset ⊆ Finset.Ico 0 n := by
    intro x hx
    rw [List.mem_toFinset] at hx
    rw [Finset.mem_Ico]
    exact hr x hx
  have hc := Finset.card_le_card hsub
  rw [List.toFinset_card_of_nodup hd, Int.card_Ico] at hc
  have hn : 0 ≤ n := by
    obtain ⟨x, hx⟩ := List.exists_mem_of_ne_nil l hl
    have := hr x hx
    omega
  omega

theorem unvisited_lt {g : Graph} (i : Inv g) {w : Int} (hw : g.InR w)
    (hp : (g.nd w).pre < 0) : g.preorder < g.size := by
  have hnot : w ∉ g.DFSpath := by
    intro hm
    have := ((mem_path_iff i).1 hm).2
    omega
  have hd : (w :: g.DFSpath).Nodup := List.nodup_cons.2 ⟨hnot, path_nodup i⟩
  have hr : ∀ x ∈ w :: g.DFSpath, 0 ≤ x ∧ x < g.size := by
    intro x hx
    rcases List.mem_cons.1 hx with h | h
    · rw [h]; exact hw
    · exact ((mem_path_iff i).1 h).1
  rcases length_le_of_inR hd hr with h | h
  · rw [i.pre_cnt]
    simp at h
    omega
  · exact absurd h (by simp)

/-- A vertex visited between two states got a preorder number not below the
counter of the earlier state. -/
theorem fresh_pre_ge {g h : Graph} (ig : Inv g) (ih : Inv h) (e : Ext g h) {y : Int}
    (hy : g.InR y) (hp : (g.nd y).pre < 0) (hq : 0 ≤ (h.nd y).pre) :
    g.preorder ≤ (h.nd y).pre := by
  by_contra hlt
  have h1 := ih.path_pre y (e.inR.2 hy) hq
  obtain ⟨t, ht⟩ := e.path
  rw [← ht] at h1
  have hlen : (h.nd y).pre.toNat < g.DFSpath.length := by
    have := ig.pre_cnt
    omega
  rw [List.getElem?_append_left hlen] at h1
  have := (ig.pre_path _ y h1).2
  omega

/-! ### One activation of `DFS` -/

theorem DFS_succ_nonroot (f : Nat) (s : Run) (n : Int) {g1 : Graph} {cnt : Nat} {s2 : Run}
    {g3 : Graph} (h1 : s.g.visit n = .ok g1) (h2 : g1.countChildren n = .ok cnt)
    (h3 : childLoop (DFS f) n cnt 0 { g := g1, trace := s.trace ++ [Event.call n s.g] }
      = .ok s2)
    (h4 : s2.g.leave n = .ok g3) (h5 : g3.isCurrentRoot n = false) :
    DFS (f + 1) s n =
      .ok (Run.log { g := g3, trace := s2.trace ++ [Event.leave n s2.g] } (Event.ret n)) := by
  rw [DFS, bind_ok _ _ _ h1, bind_ok _ _ _ h2, bind_ok _ _ _ h3, bind_ok _ _ _ h4]
  simp only [h5, Bool.false_eq_true, if_false]
  rfl

theorem DFS_succ_root (f : Nat) (s : Run) (n : Int) {g1 : Graph} {cnt : Nat} {s2 : Run}
    {g3 : Graph} {s4 : Run} (h1 : s.g.visit n = .ok g1) (h2 : g1.countChildren n = .ok cnt)
    (h3 : childLoop (DFS f) n cnt 0 { g := g1, trace := s.trace ++ [Event.call n s.g] }
      = .ok s2)
    (h4 : s2.g.leave n = .ok g3) (h5 : g3.isCurrentRoot n = true)
    (h6 : restartLoop (DFS f) f { g := g3, trace := s2.trace ++ [Event.leave n s2.g] }
      = .ok s4) :
    DFS (f + 1) s n = .ok (s4.log (Event.ret n)) := by
  rw [DFS, bind_ok _ _ _ h1, bind_ok _ _ _ h2, bind_ok _ _ _ h3, bind_ok _ _ _ h4]
  simp only [h5, if_true]
  rw [bind_ok _ _ _ h6]
  rfl

theorem countChildren_ok {g : Graph} (hlen : (g.nodes.length : Int) = g.size) {u : Int}
    (hu : g.InR u) : g.countChildren u = .ok (g.nd u).children.length := by
  unfold Graph.countChildren
  rw [bind_ok _ _ _ (getNode_ok hlen hu)]
  rfl

theorem PostDFS.log_ret {s t : Run} {w : Int} (p : PostDFS s t w) (n : Int) :
    PostDFS s (t.log (Event.ret n)) w := by
  refine ⟨rinv_log p.rinv _ trivial (fun g hg => by cases hg) rfl rfl, p.ext, p.frame,
    p.path, p.fresh, p.done, p.tree_vis, ?_⟩
  show List.filterMap _ (t.trace ++ [Event.ret n]) = _
  rw [List.filterMap_append, p.restarts]
  simp [Event.restartTarget]

/-- The part of `DFS(w)` up to and including `leave(w)`. -/
theorem DFS_body {f : Nat} (hrec : RecOK (DFS f) f) {s : Run} {w : Int} (r : RInv s)
    (hw : s.g.InR w) (hp : (s.g.nd w).pre < 0)
    (hroot : w = 0 ∨ 0 ≤ (s.g.nd 0).pre)
    (htop : ∀ x, s.g.InR x → 0 ≤ (s.g.nd x).pre → (s.g.nd x).post < 0 → TreePath s.g x w)
    (htv : ∀ u' c' v', Slot s.g u' c' v' EdgeType.Tree → v' = w ∨ 0 ≤ (s.g.nd v').pre)
    (hfuel : s.g.size ≤ s.g.preorder + (f + 1)) :
    ∃ (g1 : Graph) (s2 : Run) (g3 : Graph),
      s.g.visit w = .ok g1 ∧
      g1.countChildren w = .ok (g1.nd w).children.length ∧
      childLoop (DFS f) w (g1.nd w).children.length 0
        { g := g1, trace := s.trace ++ [Event.call w s.g] } = .ok s2 ∧
      s2.g.leave w = .ok g3 ∧ g3.currentRoot = 0 ∧
      PostDFS s { g := g3, trace := s2.trace ++ [Event.leave w s2.g] } w := by
  have i := r.inv
  obtain ⟨g1, hvis, vr⟩ := visit_ok i.len hw
  have r1 := rinv_visit r hw hp hvis vr
  have i1 : Inv g1 := r1.inv
  have hext1 : Ext s.g g1 := vr.visit_ext hp
  have hin1 : ∀ {y}, g1.InR y ↔ s.g.InR y := hext1.inR
  have hpre0 : 0 ≤ s.g.preorder := by rw [i.pre_cnt]; exact Int.natCast_nonneg _
  have hpw1 : (g1.nd w).pre = s.g.preorder := vr.pre_self
  have hpostw : (s.g.nd w).post < 0 := by
    by_contra hge
    have := i.fin_vis w hw (by omega)
    omega
  have li1 : LI { g := g1, trace := s.trace ++ [Event.call w s.g] } w 0 := by
    refine ⟨r1, hin1.2 hw, ?_, ?_, ?_, ?_, ?_, ?_, ?_, ?_⟩
    · show 0 ≤ (g1.nd w).pre
      rw [hpw1]; exact hpre0
    · show (g1.nd w).post < 0
      rw [vr.visit_post_eq w hw.1]; exact hpostw
    · show (g1.nd w).edgeTypes.length = 0
      rw [vr.visit_edgeTypes_eq w hw.1, i.et_unvis w hw hp]; rfl
    · show 0 ≤ (g1.nd 0).pre
      rcases hroot with h | h
      · subst h; rw [hpw1]; exact hpre0
      · rw [hext1.pre 0 ⟨le_refl _, lt_of_le_of_lt hw.1 hw.2⟩ h]; exact h
    · intro y hy h1 h2
      by_cases e : y = w
      · subst e; exact Relation.ReflTransGen.refl
      · change 0 ≤ (g1.nd y).pre at h1
        change (g1.nd y).post < 0 at h2
        rw [vr.pre_other y hy.1 e] at h1
        rw [vr.visit_post_eq y hy.1] at h2
        exact (htop y (hin1.1 hy) h1 h2).path_mono hext1
    · intro c' v' sl
      exfalso
      have := slot_visited i (vr.visit_slot.1 sl)
      omega
    · intro y hy h1
      exfalso
      change (g1.nd w).pre < (g1.nd y).pre at h1
      rw [hpw1] at h1
      by_cases e : y = w
      · subst e; omega
      · rw [vr.pre_other y hy.1 e] at h1
        rcases i.pre_rng y (hin1.1 hy) with h2 | h2 <;> omega
    · intro u' c' v' sl
      have sl0 := vr.visit_slot.1 sl
      show 0 ≤ (g1.nd v').pre
      by_cases e : v' = w
      · rw [e, hpw1]; exact hpre0
      · rw [vr.pre_other v' (slot_target_inR i sl0).1 e]
        rcases htv u' c' v' sl0 with h | h
        · exact absurd h e
        · exact h
  have hfuel1 : g1.size ≤ g1.preorder + f := by rw [vr.size, vr.preorder]; omega
  obtain ⟨s2, hloop, li2, lr⟩ := childLoop_spec hrec w (g1.nd w).children.length 0
    { g := g1, trace := s.trace ++ [Event.call w s.g] } li1 (by simp) hfuel1
  have lrext : Ext g1 s2.g := lr.ext
  have lrframe : ∀ y, g1.InR y → y ≠ w → 0 ≤ (g1.nd y).pre → s2.g.nd y = g1.nd y := lr.frame
  have hin2 : ∀ {y}, s2.g.InR y ↔ g1.InR y := lrext.inR
  have i2 : Inv s2.g := li2.rinv.inv
  have hall : (s2.g.nd w).edgeTypes.length = (s2.g.nd w).children.length := by
    rw [li2.cnt, lrext.children w (hin1.2 hw)]; simp
  obtain ⟨g3, hleave, lv⟩ := leave_ok i2.len li2.inR
  have r3 := rinv_leave li2.rinv li2.inR li2.pre li2.post hall li2.kids lv
  have hext3 : Ext s2.g g3 := lv.leave_ext li2.post
  have hpw2 : (s2.g.nd w).pre = s.g.preorder := by
    rw [lrext.pre w (hin1.2 hw) (by rw [hpw1]; exact hpre0), hpw1]
  refine ⟨g1, s2, g3, hvis, countChildren_ok i1.len (hin1.2 hw), hloop, hleave,
    r3.inv.root0, ?_⟩
  refine ⟨r3, hext1.trans (lrext.trans hext3), ?_, ?_, ?_, ?_, ?_, ?_⟩
  · intro y hy hpy
    have e : y ≠ w := by rintro rfl; omega
    have e1 : g1.nd y = s.g.nd y := vr.nd_other y hy.1 e
    have e2 : s2.g.nd y = g1.nd y := lrframe y (hin1.2 hy) e (by rw [e1]; exact hpy)
    show g3.nd y = s.g.nd y
    rw [lv.nd_other y hy.1 e, e2, e1]
  · obtain ⟨t, ht⟩ := lrext.path
    refine ⟨t, ?_⟩
    show g3.DFSpath = _
    rw [lv.path, ← ht, vr.path, List.append_assoc]
    rfl
  · intro y hy hpy hqy
    change 0 ≤ (g3.nd y).pre at hqy
    show 0 ≤ (g3.nd y).post ∧ TreePath g3 w y
    by_cases e : y = w
    · subst e
      rw [lv.post_self]
      exact ⟨i2.post_cnt, Relation.ReflTransGen.refl⟩
    · rw [lv.leave_pre_eq y hy.1] at hqy
      have hy1 : (g1.nd y).pre < 0 := by rw [vr.pre_other y hy.1 e]; exact hpy
      have hge := fresh_pre_ge i1 i2 lrext (hin1.2 hy) hy1 hqy
      rw [vr.preorder] at hge
      obtain ⟨h2, h3⟩ := li2.desc y (hin2.2 (hin1.2 hy)) (by rw [hpw2]; omega)
      rw [lv.post_other y hy.1 e]
      exact ⟨h2, h3.path_mono hext3⟩
  · show 0 ≤ (g3.nd w).post
    rw [lv.post_self]; exact i2.post_cnt
  · intro u' c' v' sl
    have sl2 := lv.leave_slot.1 sl
    show 0 ≤ (g3.nd v').pre
    rw [lv.leave_pre_eq v' (slot_target_inR i2 sl2).1]
    exact li2.tree_vis u' c' v' sl2
  · show List.filterMap _ (s2.trace ++ [Event.leave w s2.g]) = _
    rw [List.filterMap_append, lr.restarts]
    show List.filterMap _ (s.trace ++ [Event.call w s.g]) ++ _ = _
    rw [List.filterMap_append]
    simp [Event.restartTarget]

/-- Every call of `DFS` on an unvisited vertex other than the root succeeds
when the fuel is at least the number of unvisited vertices. -/
theorem DFS_recOK : ∀ f : Nat, RecOK (DFS f) f := by
  intro f
  induction f with
  | zero =>
    intro s w r hw hp _ _ _ hfuel
    exfalso
    have := unvisited_lt r.inv hw hp
    simp at hfuel
    omega
  | succ f ih =>
    intro s w r hw hp h0 htop htv hfuel
    obtain ⟨g1, s2, g3, h1, h2, h3, h4, h5, p⟩ :=
      DFS_body ih r hw hp (Or.inr h0) htop htv (by push_cast at hfuel; exact hfuel)
    have hw0 : w ≠ 0 := by rintro rfl; omega
    have h6 : g3.isCurrentRoot w = false := by
      unfold Graph.isCurrentRoot
      rw [h5]
      simp [hw0]
    exact ⟨_, DFS_succ_nonroot f s w h1 h2 h3 h4 h6, p.log_ret w⟩

/-! ### The restart loop -/

theorem restartLoop_zero (rec : Run → Int → Except Err Run) (s : Run)
    (h : s.g.isVisited s.g.smallestUnvisited = .ok true) :
    restartLoop rec 0 s = .ok s := by
  rw [restartLoop, bind_ok _ _ _ h]
  rfl

theorem restartLoop_done (rec : Run → Int → Except Err Run) (k : Nat) (s : Run)
    (h : s.g.isVisited s.g.smallestUnvisited = .ok true) :
    restartLoop rec (k + 1) s = .ok s := by
  rw [restartLoop]
  rw [bind_ok _ _ _ h]
  rfl

theorem restartLoop_succ (rec : Run → Int → Except Err Run) (k : Nat) (s : Run) {s1 : Run}
    (h : s.g.isVisited s.g.smallestUnvisited = .ok false)
    (h1 : rec (s.log (Event.restart s.g.smallestUnvisited s.g)) s.g.smallestUnvisited
      = .ok s1) :
    restartLoop rec (k + 1) s = restartLoop rec k s1 := by
  rw [restartLoop]
  rw [bind_ok _ _ _ h]
  simp only [Bool.false_eq_true, if_false]
  rw [bind_ok _ _ _ h1]

theorem Segs.snoc {g h : Graph} (e : Ext g h) {roots path : List Int} (sg : Segs g roots path)
    {r : Int} {rest : List Int} (hr : ∀ x ∈ r :: rest, TreePath h r x) :
    Segs h (roots ++ [r]) (path ++ r :: rest) := by
  obtain ⟨segs, h1, h2⟩ := sg
  refine ⟨segs ++ [r :: rest], ?_, ?_⟩
  · rw [List.flatten_concat, h1]
  · refine List.rel_append ?_ ?_
    · exact h2.imp fun a b hab => ⟨hab.1, fun x hx => (hab.2 x hx).path_mono e⟩
    · exact List.Forall₂.cons ⟨rfl, hr⟩ List.Forall₂.nil

theorem Segs.segs_mono {g h : Graph} (e : Ext g h) {roots path : List Int}
    (sg : Segs g roots path) : Segs h roots path := by
  obtain ⟨segs, h1, h2⟩ := sg
  exact ⟨segs, h1, h2.imp fun a b hab => ⟨hab.1, fun x hx => (hab.2 x hx).path_mono e⟩⟩

/-- One restart: the loop invariant is kept by a call of `DFS` on the cursor. -/
theorem restart_step {f : Nat} (hrec : RecOK (DFS f) f) {s : Run} (rl : RL s)
    (hlt : s.g.smallestUnvisited < s.g.size) (hfuel : s.g.size ≤ s.g.preorder + f) :
    ∃ s1, DFS f (s.log (Event.restart s.g.smallestUnvisited s.g)) s.g.smallestUnvisited
        = .ok s1 ∧ RL s1 ∧ Ext s.g s1.g ∧ s.g.preorder < s1.g.preorder := by
  have i := rl.rinv.inv
  have hsu : s.g.InR s.g.smallestUnvisited := ⟨i.su_nonneg, hlt⟩
  have hpsu := i.su_unvis hlt
  have ok : EvOK s.g (Event.restart s.g.smallestUnvisited s.g) :=
    ⟨i, Ext.refl _, hsu, hpsu, fun x h0 h1 => i.su_below x h0 h1 (by omega), rl.allfin⟩
  have r' : RInv (s.log (Event.restart s.g.smallestUnvisited s.g)) :=
    rinv_log rl.rinv _ ok (fun g hg => by cases hg; rfl) rfl rfl
  obtain ⟨s1, h1, p⟩ := hrec (s.log (Event.restart s.g.smallestUnvisited s.g))
    s.g.smallestUnvisited r' hsu hpsu rl.root_vis
    (fun x hx hp hq => by
      exfalso
      have := rl.allfin x hx hp
      change (s.g.nd x).post < 0 at hq
      omega)
    (fun u' c' v' sl => Or.inr (rl.tree_vis u' c' v' sl)) hfuel
  have pext : Ext s.g s1.g := p.ext
  have pframe : ∀ y, s.g.InR y → 0 ≤ (s.g.nd y).pre → s1.g.nd y = s.g.nd y := p.frame
  have pfresh : ∀ y, s.g.InR y → (s.g.nd y).pre < 0 → 0 ≤ (s1.g.nd y).pre →
      0 ≤ (s1.g.nd y).post ∧ TreePath s1.g s.g.smallestUnvisited y := p.fresh
  have i1 : Inv s1.g := p.rinv.inv
  obtain ⟨rest, hpath⟩ : ∃ rest, s1.g.DFSpath = s.g.DFSpath ++ s.g.smallestUnvisited :: rest :=
    p.path
  have hroots : s1.roots = s.roots ++ [s.g.smallestUnvisited] := by
    unfold Run.roots
    rw [p.restarts]
    show 0 :: List.filterMap _ (s.trace ++ [_]) = _
    rw [List.filterMap_append]
    simp [Event.restartTarget]
  have hsu_vis : 0 ≤ (s1.g.nd s.g.smallestUnvisited).pre := by
    have hm : s.g.smallestUnvisited ∈ s1.g.DFSpath := by rw [hpath]; simp
    exact ((mem_path_iff i1).1 hm).2
  have hsu_lt : s.g.smallestUnvisited < s1.g.smallestUnvisited := by
    have h2 := pext.su
    by_contra hge
    have e : s1.g.smallestUnvisited = s.g.smallestUnvisited := by omega
    have := i1.su_unvis (by rw [e, pext.size]; exact hlt)
    rw [e] at this
    omega
  refine ⟨s1, h1, ⟨p.rinv, ?_, ?_, p.tree_vis, ?_, ?_, ?_, ?_⟩, pext, ?_⟩
  · intro y hy hp
    have hy0 := pext.inR.1 hy
    by_cases hv : 0 ≤ (s.g.nd y).pre
    · rw [pframe y hy0 hv]; exact rl.allfin y hy0 hv
    · exact (pfresh y hy0 (by omega) hp).1
  · rw [pext.pre 0 ⟨le_refl _, rl.pos⟩ rl.root_vis]; exact rl.root_vis
  · rw [pext.size]; exact rl.pos
  · intro r hr
    rw [hroots] at hr
    rcases List.mem_append.1 hr with h | h
    · have := rl.roots_lt r h; omega
    · rw [List.mem_singleton] at h; rw [h]; exact hsu_lt
  · rw [hroots, List.pairwise_append]
    refine ⟨rl.roots_sorted, List.pairwise_singleton _ _, ?_⟩
    intro a ha b hb
    rw [List.mem_singleton] at hb
    rw [hb]
    exact rl.roots_lt a ha
  · rw [hroots, hpath]
    refine rl.segs.snoc pext ?_
    intro y hy
    have hm : y ∈ s1.g.DFSpath := by rw [hpath]; exact List.mem_append_right _ hy
    obtain ⟨hy1, hyp⟩ := (mem_path_iff i1).1 hm
    have hy0 := pext.inR.1 hy1
    have hnot : y ∉ s.g.DFSpath := by
      have hd := path_nodup i1
      rw [hpath] at hd
      exact fun h => (List.disjoint_of_nodup_append hd) h hy
    have hun : (s.g.nd y).pre < 0 := by
      by_contra hge
      exact hnot ((mem_path_iff i).2 ⟨hy0, by omega⟩)
    exact (pfresh y hy0 hun hyp).2
  · rw [i.pre_cnt, i1.pre_cnt, hpath]
    simp

theorem restartLoop_spec {f : Nat} (hrec : RecOK (DFS f) f) :
    ∀ (k : Nat) (s : Run), RL s → s.g.size ≤ s.g.preorder + k →
      s.g.size ≤ s.g.preorder + f →
      ∃ t, restartLoop (DFS f) k s = .ok t ∧ RL t ∧ Ext s.g t.g ∧
        (∀ x, t.g.InR x → 0 ≤ (t.g.nd x).pre) := by
  intro k
  induction k with
  | zero =>
    intro s rl hk _
    have i := rl.rinv.inv
    have hall : ∀ x, s.g.InR x → 0 ≤ (s.g.nd x).pre := by
      intro x hx
      by_contra hneg
      have := unvisited_lt i hx (by omega)
      simp at hk
      omega
    refine ⟨s, restartLoop_zero _ s ?_, rl, Ext.refl _, hall⟩
    rw [isVisited_ok i.len i.su_nonneg]
    by_cases hlt : s.g.size ≤ s.g.smallestUnvisited
    · simp [hlt]
    · have := hall _ ⟨i.su_nonneg, by omega⟩
      simp [this]
  | succ k ih =>
    intro s rl hk hf
    have i := rl.rinv.inv
    have hvis := isVisited_ok i.len i.su_nonneg
    by_cases hlt : s.g.smallestUnvisited < s.g.size
    · have hpsu := i.su_unvis hlt
      have hfalse : s.g.isVisited s.g.smallestUnvisited = .ok false := by
        rw [hvis]
        have : ¬ (s.g.size ≤ s.g.smallestUnvisited ∨ 0 ≤ (s.g.nd s.g.smallestUnvisited).pre) := by
          rintro (h | h) <;> omega
        simp [this]
      obtain ⟨s1, h1, rl1, e1, hgrow⟩ := restart_step hrec rl hlt hf
      obtain ⟨t, ht, rlt, et, hall⟩ := ih s1 rl1
        (by rw [e1.size]; push_cast at hk; omega) (by rw [e1.size]; omega)
      exact ⟨t, by rw [restartLoop_succ _ k s hfalse h1]; exact ht, rlt, e1.trans et, hall⟩
    · have htrue : s.g.isVisited s.g.smallestUnvisited = .ok true := by
        rw [hvis]
        have : s.g.size ≤ s.g.smallestUnvisited := by omega
        simp [this]
      refine ⟨s, restartLoop_done _ k s htrue, rl, Ext.refl _, ?_⟩
      intro x hx
      exact i.su_below x hx.1 (by have := hx.2; omega) hx.2

/-! ### The graph built from the input -/

theorem getNode_ok_len {g : Graph} {x : Int} (hx : 0 ≤ x) (hlt : x.toNat < g.nodes.length) :
    g.getNode x = .ok (g.nd x) := by
  unfold Graph.getNode Graph.nd
  rw [if_pos hx, List.getElem?_eq_getElem hlt, List.getD_eq_getElem _ _ hlt]

theorem nd_setNode_len {g : Graph} {x : Int} (hx : 0 ≤ x) (hlt : x.toNat < g.nodes.length)
    (m : Node) (y : Int) (hy : 0 ≤ y) :
    (g.setNode x m).nd y = if y = x then m else g.nd y := by
  by_cases h : y = x
  · subst h
    simp [Graph.setNode, Graph.nd, List.getD_eq_getElem?_getD, List.getElem?_set, hlt]
  · simp [h, nd_setNode_ne hx hy (Ne.symm h)]

theorem adj_cons (u v : Int) (es : List (Int × Int)) (x : Int) :
    adj ((u, v) :: es) x = if u = x then v :: adj es x else adj es x := by
  unfold adj
  by_cases h : u = x
  · simp [List.filter_cons, h]
  · simp [List.filter_cons, h]

theorem addEdges_ok : ∀ (es : List (Int × Int)) (g : Graph),
    (∀ e ∈ es, 0 ≤ e.1 ∧ e.1.toNat < g.nodes.length) →
    ∃ g', addEdges es g = .ok g' ∧ g'.nodes.length = g.nodes.length ∧
      g' = { g with nodes := g'.nodes } ∧
      ∀ x, 0 ≤ x →
        g'.nd x = { g.nd x with children := (g.nd x).children ++ adj es x } := by
  intro es
  induction es with
  | nil =>
    intro g _
    exact ⟨g, rfl, rfl, rfl, fun x _ => by simp [adj]⟩
  | cons e es ih =>
    intro g hval
    obtain ⟨u, v⟩ := e
    have hu := hval (u, v) (List.mem_cons_self _ _)
    obtain ⟨g', h1, h2, h3, h4⟩ := ih (g.setNode u ((g.nd u).addChild v)) (by
      intro e he
      rw [setNode_length]
      exact hval e (List.mem_cons_of_mem _ he))
    refine ⟨g', ?_, by rw [h2, setNode_length], ?_, ?_⟩
    · rw [addEdges, bind_ok _ _ _ (getNode_ok_len hu.1 hu.2)]
      exact h1
    · exact h3
    · intro x hx
      rw [h4 x hx, nd_setNode_len hu.1 hu.2 _ x hx, adj_cons]
      by_cases e : x = u
      · subst e
        simp [Node.addChild]
      · have e' : ¬ u = x := fun h => e h.symm
        simp [e, e']

theorem buildGraph_ok {n : Int} (hn : 0 ≤ n) {edges : List (Int × Int)}
    (hE : ∀ e ∈ edges, 0 ≤ e.1 ∧ e.1 < n ∧ 0 ≤ e.2 ∧ e.2 < n) :
    ∃ g, buildGraph n edges = .ok (g, edges) ∧ Init n edges g := by
  obtain ⟨g', h1, h2, h3, h4⟩ := addEdges_ok edges { nodes := List.replicate n.toNat {} } (by
    intro e he
    have := hE e he
    simp only [List.length_replicate]
    omega)
  refine ⟨{ g' with size := n }, ?_, ?_⟩
  · unfold buildGraph
    rw [if_neg (by omega), bind_ok _ _ _ h1]
    rfl
  · simp only [List.length_replicate] at h2
    have hnd : ∀ x, Graph.nd { g' with size := n } x = g'.nd x := fun x => rfl
    refine ⟨rfl, ?_, ?_, ?_, ?_, ?_, ?_, ?_⟩
    · show ((g'.nodes.length : Nat) : Int) = n
      rw [h2]; omega
    · intro x hx0 hxn
      rw [hnd, h4 x hx0]
      have : (Graph.nd { nodes := List.replicate n.toNat {} } x) = ({} : Node) := by
        unfold Graph.nd
        rw [List.getD_eq_getElem?_getD]
        by_cases hlt : x.toNat < n.toNat
        · simp [List.getElem?_replicate, hlt]
        · simp [List.getElem?_replicate, hlt]
      rw [this]
      simp
    · show g'.DFSpath = []; rw [h3]
    · show g'.smallestUnvisited = 0; rw [h3]
    · show g'.currentRoot = 0; rw [h3]
    · show g'.preorder = 0; rw [h3]
    · show g'.postorder = 0; rw [h3]

theorem adj_mem {edges : List (Int × Int)} {x v : Int} (h : v ∈ adj edges x) :
    (x, v) ∈ edges := by
  unfold adj at h
  rw [List.mem_map] at h
  obtain ⟨e, he, rfl⟩ := h
  rw [List.mem_filter] at he
  obtain ⟨h1, h2⟩ := he
  have : e.1 = x := by simpa using h2
  rw [← this]
  exact h1

theorem mem_adj {edges : List (Int × Int)} {x v : Int} (h : (x, v) ∈ edges) :
    v ∈ adj edges x := by
  unfold adj
  rw [List.mem_map]
  exact ⟨(x, v), List.mem_filter.2 ⟨h, by simp⟩, rfl⟩

theorem Init.inv {n : Int} {edges : List (Int × Int)} {g : Graph} (it : Init n edges g)
    (hE : ∀ e ∈ edges, 0 ≤ e.1 ∧ e.1 < n ∧ 0 ≤ e.2 ∧ e.2 < n) : Inv g := by
  have hnd : ∀ x, g.InR x → g.nd x = { children := adj edges x } := by
    intro x hx
    exact it.nd x hx.1 (by rw [← it.size]; exact hx.2)
  have hslot : ∀ {u c v t}, ¬ Slot g u c v t := by
    intro u c v t s
    have h := s.2.2
    rw [hnd u s.1] at h
    simp at h
  constructor
  · rw [it.len, it.size]
  · exact it.root
  · intro x hx v hv
    rw [hnd x hx] at hv
    have := hE (x, v) (adj_mem hv)
    exact ⟨this.2.2.1, by rw [it.size]; exact this.2.2.2⟩
  · rw [it.preorder, it.path]; rfl
  · intro x hx; left; rw [hnd x hx]
  · intro x hx hp; rw [hnd x hx] at hp; simp at hp
  · intro k x hk; rw [it.path] at hk; simp at hk
  · rw [it.postorder]
  · intro x hx; left; rw [hnd x hx]
  · intro x hx hp; rw [hnd x hx] at hp; simp at hp
  · intro x y hx _ hp; rw [hnd x hx] at hp; simp at hp
  · rw [it.su]
  · intro x h0 h1; rw [it.su] at h1; omega
  · intro hlt
    rw [it.su] at hlt ⊢
    rw [hnd 0 ⟨le_refl _, hlt⟩]
    simp
  · intro x hx _; rw [hnd x hx]
  · intro x hx hp; rw [hnd x hx] at hp; simp at hp
  · intro x hx; rw [hnd x hx]; simp
  · intro x hx; rw [hnd x hx]; simp
  · intro u c v s; exact absurd s hslot
  · intro u c v s; exact absurd s hslot
  · intro u c v s; exact absurd s hslot
  · intro u c v s; exact absurd s hslot
  · intro u c v s; exact absurd s hslot
  · intro u c v u' c' s; exact absurd s hslot

theorem Init.rinv {n : Int} {edges : List (Int × Int)} {g : Graph} (it : Init n edges g)
    (hE : ∀ e ∈ edges, 0 ≤ e.1 ∧ e.1 < n ∧ 0 ≤ e.2 ∧ e.2 < n) : RInv { g := g } := by
  have hnd : ∀ x, g.InR x → g.nd x = { children := adj edges x } := by
    intro x hx
    exact it.nd x hx.1 (by rw [← it.size]; exact hx.2)
  refine ⟨it.inv hE, ?_, List.Pairwise.nil, ?_, ?_, ?_, ?_, ?_, ?_⟩
  · intro e he; simp at he
  · show List.filterMap _ [] = g.DFSpath
    rw [it.path]; rfl
  · intro u hu c hc
    change c < (g.nd u).edgeTypes.length at hc
    rw [hnd u hu] at hc
    simp at hc
  · show g.postorder = _
    rw [it.postorder]; rfl
  · intro k x hk
    simp at hk
  · intro k e g0 hk
    simp at hk
  · intro k w g0 h hk
    simp at hk

/-! ### The whole traversal -/

theorem roots_log_ret (t : Run) (n : Int) : (t.log (Event.ret n)).roots = t.roots := by
  unfold Run.roots
  show 0 :: List.filterMap _ (t.trace ++ [Event.ret n]) = _
  rw [List.filterMap_append]
  simp [Event.restartTarget]

/-- The traversal started by `main` returns, and `Final` holds of the result,
whenever the fuel is at least the number of vertices. -/
theorem traverse_spec {n : Int} (hn : 1 ≤ n) {edges : List (Int × Int)}
    (hE : ∀ e ∈ edges, 0 ≤ e.1 ∧ e.1 < n ∧ 0 ≤ e.2 ∧ e.2 < n) {fuel : Nat}
    (hf : n ≤ fuel) : ∃ t, traverse fuel n edges = .ok t ∧ Final n edges t := by
  obtain ⟨g0, hbuild, it⟩ := buildGraph_ok (by omega : 0 ≤ n) hE
  have r0 := it.rinv hE
  have i0 := it.inv hE
  have hnd0 : ∀ x, g0.InR x → g0.nd x = { children := adj edges x } := by
    intro x hx
    exact it.nd x hx.1 (by rw [← it.size]; exact hx.2)
  have hun : ∀ x, g0.InR x → (g0.nd x).pre < 0 := by
    intro x hx; rw [hnd0 x hx]; simp
  have h0 : g0.InR 0 := ⟨le_refl _, by rw [it.size]; omega⟩
  obtain ⟨f, rfl⟩ : ∃ f, fuel = f + 1 := ⟨fuel - 1, by omega⟩
  obtain ⟨g1, s2, g3, h1, h2, h3, h4, h5, p⟩ :=
    DFS_body (DFS_recOK f) (s := { g := g0 }) r0 h0 (hun 0 h0) (Or.inl rfl)
      (fun x hx hp _ => by
        exfalso
        have := hun x hx
        change 0 ≤ (g0.nd x).pre at hp
        omega)
      (fun u' c' v' sl => by
        exfalso
        have h6 := slot_visited i0 sl
        have h7 := hun u' sl.1
        omega)
      (by
        show g0.size ≤ g0.preorder + ((f : Int) + 1)
        rw [it.size, it.preorder]; push_cast at hf; omega)
  have pext : Ext g0 g3 := p.ext
  have pfresh : ∀ x, g0.InR x → (g0.nd x).pre < 0 → 0 ≤ (g3.nd x).pre →
      0 ≤ (g3.nd x).post ∧ TreePath g3 0 x := p.fresh
  obtain ⟨rest, hpath⟩ : ∃ rest, g3.DFSpath = g0.DFSpath ++ 0 :: rest := p.path
  rw [it.path, List.nil_append] at hpath
  have r3 : RInv { g := g3, trace := s2.trace ++ [Event.leave 0 s2.g] } := p.rinv
  have i3 : Inv g3 := r3.inv
  have hroot_vis : 0 ≤ (g3.nd 0).pre := i3.fin_vis 0 (pext.inR.2 h0) p.done
  have hroots3 : Run.roots { g := g3, trace := s2.trace ++ [Event.leave 0 s2.g] } = [0] := by
    unfold Run.roots
    rw [p.restarts]
    rfl
  have rl3 : RL { g := g3, trace := s2.trace ++ [Event.leave 0 s2.g] } := by
    refine ⟨r3, ?_, hroot_vis, p.tree_vis, ?_, ?_, ?_, ?_⟩
    · intro x hx hp
      have hx0 := pext.inR.1 hx
      exact (pfresh x hx0 (hun x hx0) hp).1
    · show 0 < g3.size
      rw [pext.size]; exact h0.2
    · intro r hr
      rw [hroots3, List.mem_singleton] at hr
      subst hr
      show 0 < g3.smallestUnvisited
      have h6 := i3.su_nonneg
      by_contra hge
      have e : g3.smallestUnvisited = 0 := by omega
      have := i3.su_unvis (by rw [e, pext.size]; exact h0.2)
      rw [e] at this
      omega
    · rw [hroots3]; exact List.pairwise_singleton _ _
    · rw [hroots3]
      refine ⟨[g3.DFSpath], by simp, List.Forall₂.cons ⟨?_, ?_⟩ List.Forall₂.nil⟩
      · rw [hpath]; rfl
      · intro x hx
        obtain ⟨hx3, hxp⟩ := (mem_path_iff i3).1 hx
        have hx0 := pext.inR.1 hx3
        exact (pfresh x hx0 (hun x hx0) hxp).2
  have hpre3 : 1 ≤ g3.preorder := by
    rw [i3.pre_cnt, hpath]; simp
  have hfuel3 : g3.size ≤ g3.preorder + f := by
    rw [pext.size, it.size]; push_cast at hf; omega
  obtain ⟨t, ht, rlt, et, hall⟩ := restartLoop_spec (DFS_recOK f) f
    { g := g3, trace := s2.trace ++ [Event.leave 0 s2.g] } rl3 hfuel3 hfuel3
  have ext0 : Ext g0 t.g := pext.trans et
  have h6 : g3.isCurrentRoot 0 = true := by
    unfold Graph.isCurrentRoot
    rw [h5]; rfl
  refine ⟨t.log (Event.ret 0), ?_, ?_⟩
  · rw [traverse, bind_ok _ _ _ hbuild]
    exact DFS_succ_root f { g := g0 } 0 h1 h2 h3 h4 h6 ht
  · refine ⟨rinv_log rlt.rinv _ trivial (fun g hg => by cases hg) rfl rfl, ?_, ?_, hall,
      ?_, ?_, ?_, ?_⟩
    · show t.g.size = n
      rw [ext0.size, it.size]
    · intro x hx
      have hx0 := ext0.inR.1 hx
      show (t.g.nd x).children = _
      rw [ext0.children x hx0, hnd0 x hx0]
    · intro x hx
      exact rlt.allfin x hx (hall x hx)
    · rw [roots_log_ret]; exact rlt.roots_sorted
    · rw [roots_log_ret]; exact rlt.segs
    · show t.g.DFSpath.head? = some 0
      obtain ⟨tl, htl⟩ : g3.DFSpath <+: t.g.DFSpath := et.path
      rw [← htl, hpath]
      rfl

/-! ### The visitation order at the end -/

theorem final_length {n : Int} {edges : List (Int × Int)} {t : Run} (fin : Final n edges t) :
    (t.g.DFSpath.length : Int) = n := by
  have i := fin.rinv.inv
  have hfs : t.g.DFSpath.toFinset = Finset.Ico 0 n := by
    ext x
    rw [List.mem_toFinset, Finset.mem_Ico, mem_path_iff i]
    constructor
    · rintro ⟨h1, _⟩
      exact ⟨h1.1, by rw [← fin.size]; exact h1.2⟩
    · rintro ⟨h1, h2⟩
      have hx : t.g.InR x := ⟨h1, by rw [fin.size]; exact h2⟩
      exact ⟨hx, fin.allvis x hx⟩
  have hc := List.toFinset_card_of_nodup (path_nodup i)
  rw [hfs, Int.card_Ico] at hc
  have h0 : 0 < t.g.size := lt_of_le_of_lt (le_refl _) (by
    have := i.pre_cnt
    have h1 := fin.head
    cases hp : t.g.DFSpath with
    | nil => rw [hp] at h1; simp at h1
    | cons a l =>
      have hm : a ∈ t.g.DFSpath := by rw [hp]; simp
      have := ((mem_path_iff i).1 hm).1
      exact lt_of_le_of_lt this.1 this.2)
  rw [fin.size] at h0
  omega

theorem final_printPath {n : Int} {edges : List (Int × Int)} {t : Run}
    (fin : Final n edges t) : t.g.printPath = .ok t.g.DFSpath := by
  have h1 := fin.head
  unfold Graph.printPath
  cases hp : t.g.DFSpath with
  | nil => rw [hp] at h1; simp at h1
  | cons a l =>
    rw [hp] at h1
    simp at h1
    subst h1
    rfl

/-! ### The printed edge lines -/

theorem getEdgeType_ok {g : Graph} (hlen : (g.nodes.length : Int) = g.size) {u v : Int}
    (hu : g.InR u) (hv : v ∈ (g.nd u).children)
    (hall : (g.nd u).edgeTypes.length = (g.nd u).children.length) :
    g.getEdgeType u v = .ok (firstType g u v) := by
  unfold Graph.getEdgeType
  rw [bind_ok _ _ _ (getNode_ok hlen hu)]
  unfold Node.getEdgeType firstType
  have hlt : (g.nd u).children.indexOf v < (g.nd u).edgeTypes.length := by
    rw [hall]; exact List.indexOf_lt_length.2 hv
  rw [List.getElem?_eq_getElem hlt, List.getD_eq_getElem _ _ hlt]

theorem outputEdges_ok {g : Graph} (hlen : (g.nodes.length : Int) = g.size) :
    ∀ es : List (Int × Int),
      (∀ e ∈ es, g.InR e.1 ∧ e.2 ∈ (g.nd e.1).children ∧
        (g.nd e.1).edgeTypes.length = (g.nd e.1).children.length) →
      outputEdges g es = .ok (es.map fun e => (e.1, e.2, letter (firstType g e.1 e.2))) := by
  intro es
  induction es with
  | nil => intro _; rfl
  | cons e es ih =>
    intro h
    obtain ⟨u, v⟩ := e
    obtain ⟨h1, h2, h3⟩ := h (u, v) (List.mem_cons_self _ _)
    rw [outputEdges, bind_ok _ _ _ (getEdgeType_ok hlen h1 h2 h3),
      bind_ok _ _ _ (ih fun e he => h e (List.mem_cons_of_mem _ he))]
    rfl

theorem final_output {n : Int} {edges : List (Int × Int)} {t : Run} (fin : Final n edges t)
    (hE : ∀ e ∈ edges, 0 ≤ e.1 ∧ e.1 < n ∧ 0 ≤ e.2 ∧ e.2 < n) :
    output t.g edges = .ok (t.g.DFSpath,
      edges.map fun e => (e.1, e.2, letter (firstType t.g e.1 e.2))) := by
  have i := fin.rinv.inv
  unfold output
  rw [bind_ok _ _ _ (final_printPath fin), bind_ok _ _ _ (outputEdges_ok i.len edges ?_)]
  · rfl
  · intro e he
    have h := hE e he
    have hu : t.g.InR e.1 := ⟨h.1, by rw [fin.size]; exact h.2.1⟩
    refine ⟨hu, ?_, i.et_fin e.1 hu (fin.allfin e.1 hu)⟩
    rw [fin.children e.1 hu]
    exact mem_adj he

theorem main_eq_output {fuel : Nat} {n : Int} {edges : List (Int × Int)} {t : Run}
    (h : traverse fuel n edges = .ok t) : main fuel n edges = output t.g edges := by
  unfold traverse at h
  unfold main
  cases hb : buildGraph n edges with
  | error e => rw [hb] at h; cases h
  | ok p =>
    obtain ⟨g, e⟩ := p
    rw [hb] at h
    have he : e = edges := by
      unfold buildGraph at hb
      split at hb
      · cases hb
      · cases ha : addEdges edges { nodes := List.replicate n.toNat {} } with
        | error e => rw [ha] at hb; cases hb
        | ok g' =>
          rw [ha] at hb
          cases hb
          rfl
    subst he
    have h' : DFS fuel { g := g } 0 = .ok t := h
    show (DFS fuel { g := g } 0 >>= fun s => output s.g e) = _
    rw [bind_ok _ _ _ h']

theorem letter_ne_question {e : EdgeType} (h : e ≠ EdgeType.Undefined) : letter e ≠ '?' := by
  cases e <;> first | exact absurd rfl h | decide

/-! ## Claims -/

/-- C1: for `n ≥ 1` and edges with endpoints in `[0, n)`, the traversal started
by `main` returns; the recorded visitation order `DFSpath` has length exactly
`n`, holds only vertices of `[0, n)`, holds each of them exactly once, begins
with vertex `0`, and is what `printPath` prints. -/
theorem C1_visitation_order (n : Int) (hn : 1 ≤ n) (edges : List (Int × Int))
    (hE : ∀ e ∈ edges, 0 ≤ e.1 ∧ e.1 < n ∧ 0 ≤ e.2 ∧ e.2 < n) (fuel : Nat)
    (hf : n ≤ fuel) :
    ∃ t, traverse fuel n edges = .ok t ∧
      (t.g.DFSpath.length : Int) = n ∧
      (∀ v ∈ t.g.DFSpath, 0 ≤ v ∧ v < n) ∧
      (∀ v, 0 ≤ v → v < n → t.g.DFSpath.count v = 1) ∧
      t.g.DFSpath.head? = some 0 ∧
      t.g.printPath = .ok t.g.DFSpath := by
  obtain ⟨t, ht, fin⟩ := traverse_spec hn hE hf
  have i := fin.rinv.inv
  refine ⟨t, ht, final_length fin, ?_, ?_, fin.head, final_printPath fin⟩
  · intro v hv
    have := ((mem_path_iff i).1 hv).1
    exact ⟨this.1, by rw [← fin.size]; exact this.2⟩
  · intro v h0 h1
    have hv : t.g.InR v := ⟨h0, by rw [fin.size]; exact h1⟩
    exact List.count_eq_one_of_mem (path_nodup i) ((mem_path_iff i).2 ⟨hv, fin.allvis v hv⟩)

/-- Instance of the theorem on visitation order: three vertices, a cycle between
`1` and `2`, a self-loop at `1`, vertex `0` isolated. -/
theorem C1_visitation_order_witness :
    ∃ t, traverse 3 3 [(1, 2), (2, 1), (1, 1)] = .ok t ∧
      (t.g.DFSpath.length : Int) = 3 ∧
      (∀ v ∈ t.g.DFSpath, 0 ≤ v ∧ v < 3) ∧
      (∀ v, 0 ≤ v → v < 3 → t.g.DFSpath.count v = 1) ∧
      t.g.DFSpath.head? = some 0 ∧
      t.g.printPath = .ok t.g.DFSpath :=
  C1_visitation_order 3 (by decide) [(1, 2), (2, 1), (1, 1)] (by decide) 3 (by decide)

/-- C2: for `n ≥ 1` and edges with endpoints in `[0, n)`, when the traversal has
returned every vertex `u` has one recorded type per outgoing edge (`edgeTypes`
is as long as `children`, which is the list of the input edges leaving `u`),
every recorded type is one of `Tree`, `Forward`, `Back`, `Cross`, and `output`
prints one line per input edge, none of them with the letter `?`. -/
theorem C2_every_edge_classified (n : Int) (hn : 1 ≤ n) (edges : List (Int × Int))
    (hE : ∀ e ∈ edges, 0 ≤ e.1 ∧ e.1 < n ∧ 0 ≤ e.2 ∧ e.2 < n) (fuel : Nat)
    (hf : n ≤ fuel) :
    ∃ t out, traverse fuel n edges = .ok t ∧ output t.g edges = .ok out ∧
      main fuel n edges = .ok out ∧
      (∀ u, 0 ≤ u → u < n →
        (t.g.nd u).children = adj edges u ∧
        (t.g.nd u).edgeTypes.length = (t.g.nd u).children.length ∧
        ∀ e ∈ (t.g.nd u).edgeTypes,
          e = EdgeType.Tree ∨ e = EdgeType.Forward ∨ e = EdgeType.Back ∨ e = EdgeType.Cross) ∧
      out.2.length = edges.length ∧
      ∀ l ∈ out.2, l.2.2 ≠ '?' := by
  obtain ⟨t, ht, fin⟩ := traverse_spec hn hE hf
  have i := fin.rinv.inv
  have hout := final_output fin hE
  have hdef : ∀ u, t.g.InR u → ∀ e ∈ (t.g.nd u).edgeTypes, e ≠ EdgeType.Undefined := by
    intro u hu e he h
    rw [h] at he
    exact i.et_def u hu he
  refine ⟨t, _, ht, hout, by rw [main_eq_output ht]; exact hout, ?_, by simp, ?_⟩
  · intro u h0 h1
    have hu : t.g.InR u := ⟨h0, by rw [fin.size]; exact h1⟩
    refine ⟨fin.children u hu, i.et_fin u hu (fin.allfin u hu), ?_⟩
    intro e he
    have := hdef u hu e he
    cases e <;> simp at this ⊢
  · intro l hl
    simp only [List.mem_map] at hl
    obtain ⟨e, he, rfl⟩ := hl
    have h := hE e he
    have hu : t.g.InR e.1 := ⟨h.1, by rw [fin.size]; exact h.2.1⟩
    apply letter_ne_question
    unfold firstType
    have hv : e.2 ∈ (t.g.nd e.1).children := by
      rw [fin.children e.1 hu]; exact mem_adj he
    have hlt : (t.g.nd e.1).children.indexOf e.2 < (t.g.nd e.1).edgeTypes.length := by
      rw [i.et_fin e.1 hu (fin.allfin e.1 hu)]; exact List.indexOf_lt_length.2 hv
    rw [List.getD_eq_getElem _ _ hlt]
    exact hdef e.1 hu _ (List.getElem_mem _)

/-- Instance of the theorem on recorded types on the same three-vertex input. -/
theorem C2_every_edge_classified_witness :
    ∃ t out, traverse 3 3 [(1, 2), (2, 1), (1, 1)] = .ok t ∧
      output t.g [(1, 2), (2, 1), (1, 1)] = .ok out ∧
      main 3 3 [(1, 2), (2, 1), (1, 1)] = .ok out ∧
      (∀ u, 0 ≤ u → u < 3 →
        (t.g.nd u).children = adj [(1, 2), (2, 1), (1, 1)] u ∧
        (t.g.nd u).edgeTypes.length = (t.g.nd u).children.length ∧
        ∀ e ∈ (t.g.nd u).edgeTypes,
          e = EdgeType.Tree ∨ e = EdgeType.Forward ∨ e = EdgeType.Back ∨ e = EdgeType.Cross) ∧
      out.2.length = [(1, 2), (2, 1), ((1 : Int), (1 : Int))].length ∧
      ∀ l ∈ out.2, l.2.2 ≠ '?' :=
  C2_every_edge_classified 3 (by decide) [(1, 2), (2, 1), (1, 1)] (by decide) 3 (by decide)

/-- C3: for `u` and `v` that index the node vector, `updateEdge(u, v)` succeeds
and appends to the `edgeTypes` of `u` the value of the rule on the timestamps
read at the call: `Tree` if `v` has no preorder, else `Forward` if
`pre(v) > pre(u)`, else `Cross` if `v` has a postorder, else `Back`.  The value
is the function `classify` of `(pre(u), pre(v), post(v))` alone; the call
changes no adjacency list, no timestamp, no counter, not the cursor, and not
the visitation order, and leaves the record of every other vertex as it was. -/
theorem C3_updateEdge_rule (g : Graph) (u v : Int)
    (hu : 0 ≤ u ∧ u < g.nodes.length) (hv : 0 ≤ v ∧ v < g.nodes.length) :
    ∃ h, g.updateEdge u v = .ok h ∧
      (h.nd u).edgeTypes = (g.nd u).edgeTypes ++
        [if (g.nd v).pre < 0 then EdgeType.Tree
         else if (g.nd v).pre > (g.nd u).pre then EdgeType.Forward
         else if 0 ≤ (g.nd v).post then EdgeType.Cross
         else EdgeType.Back] ∧
      (h.nd u).edgeTypes = (g.nd u).edgeTypes ++
        [classify (g.nd u).pre (g.nd v).pre (g.nd v).post] ∧
      (∀ y, 0 ≤ y → y ≠ u → h.nd y = g.nd y) ∧
      (∀ y, 0 ≤ y → (h.nd y).pre = (g.nd y).pre ∧ (h.nd y).post = (g.nd y).post ∧
        (h.nd y).children = (g.nd y).children) ∧
      h.preorder = g.preorder ∧ h.postorder = g.postorder ∧
      h.smallestUnvisited = g.smallestUnvisited ∧ h.currentRoot = g.currentRoot ∧
      h.DFSpath = g.DFSpath ∧ h.size = g.size ∧ h.nodes.length = g.nodes.length := by
  have hu' : u.toNat < g.nodes.length := by omega
  have hv' : v.toNat < g.nodes.length := by omega
  unfold Graph.updateEdge
  rw [bind_ok _ _ _ (getNode_ok_len hu.1 hu'), bind_ok _ _ _ (getNode_ok_len hv.1 hv')]
  have hself := nd_setNode_len hu.1 hu' ((g.nd u).setEdgeType v
    (if (g.nd v).pre < 0 then EdgeType.Tree
     else if (g.nd v).pre > (g.nd u).pre then EdgeType.Forward
     else if 0 ≤ (g.nd v).post then EdgeType.Cross
     else EdgeType.Back))
  refine ⟨_, rfl, ?_, ?_, ?_, ?_, rfl, rfl, rfl, rfl, rfl, rfl, by simp⟩
  · rw [hself u hu.1, if_pos rfl]; rfl
  · rw [hself u hu.1, if_pos rfl]; rfl
  · intro y hy hne
    rw [hself y hy, if_neg hne]
  · intro y hy
    rw [hself y hy]
    by_cases e : y = u
    · subst e; simp [Node.setEdgeType]
    · simp [e]

/-- Instance of the rule of `updateEdge`: a visited vertex `0` with an unvisited
child `1` gets `Tree` recorded. -/
theorem C3_updateEdge_rule_witness :
    ∃ h, Graph.updateEdge { nodes := [{ children := [1], pre := 0 }, {}], size := 2 } 0 1
        = .ok h ∧
      (h.nd 0).edgeTypes = [EdgeType.Tree] := by
  obtain ⟨h, h1, h2, _⟩ := C3_updateEdge_rule
    { nodes := [{ children := [1], pre := 0 }, {}], size := 2 } 0 1 (by decide) (by decide)
  exact ⟨h, h1, by rw [h2]; rfl⟩

/-! ### Input positions and adjacency positions -/

theorem indexOf_pair_self (a : Int × Int) (l : List (Int × Int)) :
    List.indexOf a (a :: l) = 0 := by
  simp [List.indexOf_cons]

theorem indexOf_pair_ne {a b : Int × Int} (l : List (Int × Int)) (h : b ≠ a) :
    List.indexOf a (b :: l) = List.indexOf a l + 1 := by
  have : (b == a) = false := by simpa using h
  simp [List.indexOf_cons, this]

theorem getElem?_indexOf_pair : ∀ (l : List (Int × Int)) (a : Int × Int), a ∈ l →
    l[List.indexOf a l]? = some a := by
  intro l
  induction l with
  | nil => intro a h; simp at h
  | cons b l ih =>
    intro a h
    by_cases hb : b = a
    · subst hb; rw [indexOf_pair_self]; simp
    · rw [indexOf_pair_ne l hb, List.getElem?_cons_succ]
      rcases List.mem_cons.1 h with h1 | h1
      · exact absurd h1.symm hb
      · exact ih a h1

theorem adj_indexOf : ∀ (es : List (Int × Int)) (u v : Int), (u, v) ∈ es →
    (adj es u).indexOf v = (adj (es.take (es.indexOf (u, v))) u).length := by
  intro es
  induction es with
  | nil => intro u v h; simp at h
  | cons e es ih =>
    intro u v h
    obtain ⟨a, b⟩ := e
    by_cases he : (a, b) = (u, v)
    · cases he
      rw [indexOf_pair_self, adj_cons, if_pos rfl, List.indexOf_cons_self]
      rfl
    · have hm : (u, v) ∈ es := by
        rcases List.mem_cons.1 h with h1 | h1
        · exact absurd h1.symm he
        · exact h1
      rw [indexOf_pair_ne _ he, List.take_succ_cons]
      by_cases hau : a = u
      · subst hau
        have hb : b ≠ v := fun h => he (by rw [h])
        rw [adj_cons, adj_cons, if_pos rfl, if_pos rfl, List.indexOf_cons_ne _ hb, ih a v hm]
        rfl
      · rw [adj_cons, adj_cons, if_neg hau, if_neg hau, ih u v hm]

theorem slotOf_indexOf {es : List (Int × Int)} {u v : Int} (h : (u, v) ∈ es) :
    slotOf es (es.indexOf (u, v)) = (adj es u).indexOf v := by
  unfold slotOf
  rw [getElem?_indexOf_pair es (u, v) h, adj_indexOf es u v h]

theorem indexOf_of_not_mem_take : ∀ (es : List (Int × Int)) (i : Nat) (a : Int × Int),
    es[i]? = some a → a ∉ es.take i → es.indexOf a = i := by
  intro es
  induction es with
  | nil => intro i a h; simp at h
  | cons e es ih =>
    intro i a h hn
    cases i with
    | zero =>
      simp at h
      subst h
      exact indexOf_pair_self _ _
    | succ i =>
      rw [List.take_succ_cons, List.mem_cons, not_or] at hn
      rw [List.getElem?_cons_succ] at h
      rw [indexOf_pair_ne _ (fun h' => hn.1 h'.symm), ih i a h hn.2]

/-! ### Claim C4 -/

/-- C4, as stated, fails on the input `n = 2`, edges `(0,1), (0,1)`: it is not
the case that every printed line shows the classification computed when the
input edge at the same position was scanned.  The second edge is slot `1` of
vertex `0` and was classified `Forward` there, but the second line prints `t`. -/
theorem C4_counterexample :
    ¬ ∃ (t : Run) (out : List Int × List (Int × Int × Char)), traverse 2 2 [(0, 1), (0, 1)] = .ok t ∧ main 2 2 [(0, 1), (0, 1)] = .ok out ∧
      out.2.length = [((0 : Int), (1 : Int)), (0, 1)].length ∧
      ∀ (i : Nat) (u v : Int), [((0 : Int), (1 : Int)), (0, 1)][i]? = some (u, v) →
        ∃ g0, Event.scan u (slotOf [(0, 1), (0, 1)] i) v g0 ∈ t.trace ∧
          out.2[i]? = some (u, v,
            letter (classify (g0.nd u).pre (g0.nd v).pre (g0.nd v).post)) := by
  rintro ⟨t, out, h1, h2, _, h4⟩
  obtain ⟨t0, ht0, fin⟩ := @traverse_spec 2 (by decide) [(0, 1), (0, 1)] (by decide) 2
    (by decide)
  have ev : ∃ t1 out1, traverse 2 2 [(0, 1), (0, 1)] = .ok t1 ∧
      main 2 2 [(0, 1), (0, 1)] = .ok out1 ∧
      (t1.g.nd 0).edgeTypes[1]? = some EdgeType.Forward ∧
      out1.2[1]? = some (0, 1, 't') := ⟨_, _, rfl, rfl, rfl, rfl⟩
  obtain ⟨t1, out1, e1, e2, e3, e4⟩ := ev
  have ht : t = t0 := by rw [h1] at ht0; exact Except.ok.inj ht0
  have ht1 : t1 = t0 := by rw [e1] at ht0; exact Except.ok.inj ht0
  have ho : out1 = out := by rw [e2] at h2; exact Except.ok.inj h2
  subst ht ht1 ho
  obtain ⟨g0, hm, hl⟩ := h4 1 0 1 rfl
  have hs : slotOf [((0 : Int), (1 : Int)), (0, 1)] 1 = 1 := by decide
  rw [hs] at hm
  obtain ⟨_, _, _, _, _, _, _, _, h9, _⟩ := fin.rinv.ev _ hm
  rw [e3] at h9
  rw [← Option.some.inj h9, e4] at hl
  revert hl
  decide

/-- C4, amended: for `n ≥ 1` and edges with endpoints in `[0, n)`, `output`
prints one line per input edge, in input order; line `i` carries the endpoints
`(u, v)` of the `i`-th input edge and the letter of the classification that
`updateEdge` computed when the first input edge with the same pair `(u, v)`
was scanned.  That edge is the `i`-th edge itself when the pair does not occur
earlier in the input. -/
theorem C4_output_first_occurrence (n : Int) (hn : 1 ≤ n) (edges : List (Int × Int))
    (hE : ∀ e ∈ edges, 0 ≤ e.1 ∧ e.1 < n ∧ 0 ≤ e.2 ∧ e.2 < n) (fuel : Nat)
    (hf : n ≤ fuel) :
    ∃ (t : Run) (out : List Int × List (Int × Int × Char)), traverse fuel n edges = .ok t ∧ main fuel n edges = .ok out ∧
      out.2.length = edges.length ∧
      (∀ (i : Nat) (u v : Int), edges[i]? = some (u, v) →
        ∃ g0, Event.scan u (slotOf edges (edges.indexOf (u, v))) v g0 ∈ t.trace ∧
          out.2[i]? = some (u, v,
            letter (classify (g0.nd u).pre (g0.nd v).pre (g0.nd v).post))) ∧
      (∀ (i : Nat) (u v : Int), edges[i]? = some (u, v) → (u, v) ∉ edges.take i →
        edges.indexOf (u, v) = i) := by
  obtain ⟨t, ht, fin⟩ := traverse_spec hn hE hf
  have i := fin.rinv.inv
  have hout := final_output fin hE
  refine ⟨t, _, ht, by rw [main_eq_output ht]; exact hout, by simp, ?_,
    fun k u v h1 h2 => indexOf_of_not_mem_take edges k (u, v) h1 h2⟩
  intro k u v hk
  have hmem : (u, v) ∈ edges := List.getElem?_mem hk
  have h := hE (u, v) hmem
  have hu : t.g.InR u := ⟨h.1, by rw [fin.size]; exact h.2.1⟩
  have hch := fin.children u hu
  have hv : v ∈ adj edges u := mem_adj hmem
  have hc : slotOf edges (edges.indexOf (u, v)) = (adj edges u).indexOf v :=
    slotOf_indexOf hmem
  have hlt : (adj edges u).indexOf v < (t.g.nd u).edgeTypes.length := by
    rw [i.et_fin u hu (fin.allfin u hu), hch]; exact List.indexOf_lt_length.2 hv
  obtain ⟨v', g0, hm⟩ := fin.rinv.scans u hu _ hlt
  obtain ⟨_, hext, hu0, _, _, _, _, h8, h9, _⟩ := fin.rinv.ev _ hm
  have hv' : v' = v := by
    rw [← hext.children u hu0, hch, List.getElem?_indexOf hv] at h8
    exact (Option.some.inj h8).symm
  subst hv'
  refine ⟨g0, by rw [hc]; exact hm, ?_⟩
  show (edges.map _)[k]? = _
  rw [List.getElem?_map, hk]
  show some (u, v', letter (firstType t.g u v')) = _
  have hft : firstType t.g u v' =
      classify (g0.nd u).pre (g0.nd v').pre (g0.nd v').post := by
    unfold firstType
    rw [hch, List.getD_eq_getElem?_getD, h9]
    rfl
  rw [hft]

/-- Instance of the theorem on printed lines on the input with a repeated edge. -/
theorem C4_output_first_occurrence_witness :
    ∃ (t : Run) (out : List Int × List (Int × Int × Char)), traverse 2 2 [(0, 1), (0, 1)] = .ok t ∧ main 2 2 [(0, 1), (0, 1)] = .ok out ∧
      out.2.length = [((0 : Int), (1 : Int)), (0, 1)].length ∧
      (∀ (i : Nat) (u v : Int), [((0 : Int), (1 : Int)), (0, 1)][i]? = some (u, v) →
        ∃ g0, Event.scan u
            (slotOf [(0, 1), (0, 1)] (List.indexOf (u, v) [((0 : Int), (1 : Int)), (0, 1)]))
            v g0 ∈ t.trace ∧
          out.2[i]? = some (u, v,
            letter (classify (g0.nd u).pre (g0.nd v).pre (g0.nd v).post))) ∧
      (∀ (i : Nat) (u v : Int), [((0 : Int), (1 : Int)), (0, 1)][i]? = some (u, v) →
        (u, v) ∉ List.take i [((0 : Int), (1 : Int)), (0, 1)] →
        List.indexOf (u, v) [((0 : Int), (1 : Int)), (0, 1)] = i) :=
  C4_output_first_occurrence 2 (by decide) [(0, 1), (0, 1)] (by decide) 2 (by decide)

/-! ### Roots and tree paths at the end -/

theorem forall₂_heads_sublist {g : Graph} : ∀ (roots : List Int) (segs : List (List Int)),
    List.Forall₂ (fun r seg => seg.head? = some r ∧ ∀ x ∈ seg, TreePath g r x) roots segs →
    roots.Sublist segs.flatten := by
  intro roots segs h
  induction h with
  | nil => exact List.Sublist.slnil
  | @cons r seg roots segs h1 _ ih =>
    cases seg with
    | nil => simp at h1
    | cons a rest =>
      have ha : a = r := by simpa using h1.1
      subst ha
      rw [List.flatten_cons, List.cons_append]
      exact List.Sublist.cons₂ _ (ih.trans (List.sublist_append_right _ _))

theorem Segs.sublist {g : Graph} {roots path : List Int} (sg : Segs g roots path) :
    roots.Sublist path := by
  obtain ⟨segs, h1, h2⟩ := sg
  rw [← h1]
  exact forall₂_heads_sublist roots segs h2

theorem treePath_pre_le {g : Graph} (i : Inv g) (hall : ∀ x, g.InR x → 0 ≤ (g.nd x).pre)
    {u v : Int} (p : TreePath g u v) : (g.nd u).pre ≤ (g.nd v).pre := by
  induction p with
  | refl => exact le_refl _
  | @tail a b _ hab ih =>
    obtain ⟨c, s⟩ := hab
    have := i.tree_pre a c b s (hall b (slot_target_inR i s))
    omega

theorem treePath_post_le {g : Graph} (i : Inv g) (hall : ∀ x, g.InR x → 0 ≤ (g.nd x).post)
    {u v : Int} (p : TreePath g u v) : (g.nd v).post ≤ (g.nd u).post := by
  induction p with
  | refl => exact le_refl _
  | @tail a b _ hab ih =>
    obtain ⟨c, s⟩ := hab
    have := (i.tree_post a c b s (hall a s.1)).2
    omega

/-! ### Claims C5 to C7 -/

/-- C5: for `n ≥ 1` and edges with endpoints in `[0, n)`, the roots of the
forest (vertex `0`, then the vertices on which the restart loop calls `DFS`,
in that order) occur in `DFSpath` in this order and are strictly increasing;
every vertex `r` on which the restart loop calls `DFS` is, in the graph of
that moment, in range, unvisited, and every smaller vertex is visited. -/
theorem C5_roots_increasing (n : Int) (hn : 1 ≤ n) (edges : List (Int × Int))
    (hE : ∀ e ∈ edges, 0 ≤ e.1 ∧ e.1 < n ∧ 0 ≤ e.2 ∧ e.2 < n) (fuel : Nat)
    (hf : n ≤ fuel) :
    ∃ t, traverse fuel n edges = .ok t ∧
      t.roots = 0 :: t.trace.filterMap Event.restartTarget ∧
      t.roots.Sublist t.g.DFSpath ∧
      t.roots.Pairwise (· < ·) ∧
      ∀ r g, Event.restart r g ∈ t.trace →
        r ∈ t.roots ∧ (0 ≤ r ∧ r < n) ∧ (g.nd r).pre < 0 ∧
        (∀ x, 0 ≤ x → x < r → 0 ≤ (g.nd x).pre) ∧ Ext g t.g := by
  obtain ⟨t, ht, fin⟩ := traverse_spec hn hE hf
  refine ⟨t, ht, rfl, fin.segs.sublist, fin.roots_sorted, ?_⟩
  intro r g hm
  obtain ⟨_, h2, h3, h4, h5, _⟩ := fin.rinv.ev _ hm
  refine ⟨?_, ⟨h3.1, ?_⟩, h4, h5, h2⟩
  · unfold Run.roots
    refine List.mem_cons_of_mem _ (List.mem_filterMap.2 ⟨_, hm, rfl⟩)
  · rw [← fin.size, h2.size]; exact h3.2

/-- Instance of the theorem on roots: the search restarts once, at vertex `1`. -/
theorem C5_roots_increasing_witness :
    ∃ t, traverse 3 3 [(1, 2), (2, 1), (1, 1)] = .ok t ∧
      t.roots = 0 :: t.trace.filterMap Event.restartTarget ∧
      t.roots.Sublist t.g.DFSpath ∧
      t.roots.Pairwise (· < ·) ∧
      ∀ r g, Event.restart r g ∈ t.trace →
        r ∈ t.roots ∧ (0 ≤ r ∧ r < 3) ∧ (g.nd r).pre < 0 ∧
        (∀ x, 0 ≤ x → x < r → 0 ≤ (g.nd x).pre) ∧ Ext g t.g :=
  C5_roots_increasing 3 (by decide) [(1, 2), (2, 1), (1, 1)] (by decide) 3 (by decide)

/-- C6: for `n ≥ 1` and edges with endpoints in `[0, n)`, when the traversal has
returned, every edge `(u, v)` (a slot of the adjacency list of `u`, which is
the list of input edges leaving `u`) whose recorded type is `Back` has a
possibly empty path of edges recorded as `Tree` from `v` to `u`. -/
theorem C6_back_edge_ancestor (n : Int) (hn : 1 ≤ n) (edges : List (Int × Int))
    (hE : ∀ e ∈ edges, 0 ≤ e.1 ∧ e.1 < n ∧ 0 ≤ e.2 ∧ e.2 < n) (fuel : Nat)
    (hf : n ≤ fuel) :
    ∃ t, traverse fuel n edges = .ok t ∧
      (∀ u, 0 ≤ u → u < n → (t.g.nd u).children = adj edges u) ∧
      ∀ u c v, Slot t.g u c v EdgeType.Back → TreePath t.g v u := by
  obtain ⟨t, ht, fin⟩ := traverse_spec hn hE hf
  refine ⟨t, ht, ?_, fin.rinv.inv.back_anc⟩
  intro u h0 h1
  exact fin.children u ⟨h0, by rw [fin.size]; exact h1⟩

/-- Instance of the theorem on `Back` edges: `(2, 1)` and the self-loop `(1, 1)` are
recorded as `Back`. -/
theorem C6_back_edge_ancestor_witness :
    ∃ t, traverse 3 3 [(1, 2), (2, 1), (1, 1)] = .ok t ∧
      (∀ u, 0 ≤ u → u < 3 → (t.g.nd u).children = adj [(1, 2), (2, 1), (1, 1)] u) ∧
      ∀ u c v, Slot t.g u c v EdgeType.Back → TreePath t.g v u :=
  C6_back_edge_ancestor 3 (by decide) [(1, 2), (2, 1), (1, 1)] (by decide) 3 (by decide)

/-- C7: for `n ≥ 1` and edges with endpoints in `[0, n)`, every edge `(u, v)`
whose recorded type is `Cross` was scanned, its target `v` had a postorder
number in the graph of every moment the slot was scanned, and at the end
there is no path of edges recorded as `Tree` from `u` to `v` nor from `v` to
`u`. -/
theorem C7_cross_edge (n : Int) (hn : 1 ≤ n) (edges : List (Int × Int))
    (hE : ∀ e ∈ edges, 0 ≤ e.1 ∧ e.1 < n ∧ 0 ≤ e.2 ∧ e.2 < n) (fuel : Nat)
    (hf : n ≤ fuel) :
    ∃ t, traverse fuel n edges = .ok t ∧
      ∀ u c v, Slot t.g u c v EdgeType.Cross →
        (∃ g0, Event.scan u c v g0 ∈ t.trace) ∧
        (∀ g0, Event.scan u c v g0 ∈ t.trace → 0 ≤ (g0.nd v).post) ∧
        ¬ TreePath t.g u v ∧ ¬ TreePath t.g v u := by
  obtain ⟨t, ht, fin⟩ := traverse_spec hn hE hf
  have i := fin.rinv.inv
  refine ⟨t, ht, ?_⟩
  intro u c v s
  have hlt : c < (t.g.nd u).edgeTypes.length := by
    by_contra hge
    have h := s.2.2
    rw [List.getElem?_eq_none (by omega)] at h
    exact absurd h (by simp)
  obtain ⟨h1, h2, h3⟩ := i.cross_fin u c v s
  have h3' := h3 (fin.allfin u s.1)
  refine ⟨?_, ?_, ?_, ?_⟩
  · obtain ⟨v', g0, hm⟩ := fin.rinv.scans u s.1 c hlt
    obtain ⟨_, hext, hu0, _, _, _, _, h8, _⟩ := fin.rinv.ev _ hm
    have hv' : v' = v := by
      rw [← hext.children u hu0, s.2.1] at h8
      exact (Option.some.inj h8).symm
    subst hv'
    exact ⟨g0, hm⟩
  · intro g0 hm
    obtain ⟨_, _, _, _, _, _, _, _, h9, _⟩ := fin.rinv.ev _ hm
    rw [s.2.2] at h9
    exact (classify_cross.1 (Option.some.inj h9).symm).2.2
  · intro p
    have := treePath_pre_le i fin.allvis p
    omega
  · intro p
    have := treePath_post_le i fin.allfin p
    omega

/-- Instance of the theorem on `Cross` edges: `(2, 0)` is recorded as `Cross`. -/
theorem C7_cross_edge_witness :
    ∃ t, traverse 3 3 [(1, 2), (2, 0), (1, 1)] = .ok t ∧
      ∀ u c v, Slot t.g u c v EdgeType.Cross →
        (∃ g0, Event.scan u c v g0 ∈ t.trace) ∧
        (∀ g0, Event.scan u c v g0 ∈ t.trace → 0 ≤ (g0.nd v).post) ∧
        ¬ TreePath t.g u v ∧ ¬ TreePath t.g v u :=
  C7_cross_edge 3 (by decide) [(1, 2), (2, 0), (1, 1)] (by decide) 3 (by decide)

/-! ### Claims C8 and C9: the code at the failing inputs -/

/-- C8 at the input `n = 2`, edges `(0,1), (0,1)`: the traversal returns, the
second edge (slot `1` of vertex `0`, target `1`) is recorded as `Forward`, the
first is recorded as `Tree`, and there is no path of two or more edges
recorded as `Tree` from `0` to `1`. -/
theorem C8_forward_on_parallel_edge :
    ∃ t, traverse 2 2 [(0, 1), (0, 1)] = .ok t ∧
      Slot t.g 0 0 1 EdgeType.Tree ∧ Slot t.g 0 1 1 EdgeType.Forward ∧
      ∀ k, 2 ≤ k → ¬ TreeWalk t.g k 0 1 := by
  obtain ⟨t, ht, hs, c0, e0, e1⟩ : ∃ t, traverse 2 2 [(0, 1), (0, 1)] = .ok t ∧
      t.g.size = 2 ∧ (t.g.nd 0).children = [1, 1] ∧
      (t.g.nd 0).edgeTypes = [EdgeType.Tree, EdgeType.Forward] ∧
      (t.g.nd 1).edgeTypes = [] := ⟨_, rfl, rfl, rfl, rfl, rfl⟩
  have h0 : t.g.InR 0 := ⟨le_refl _, by rw [hs]; decide⟩
  refine ⟨t, ht, ⟨h0, by rw [c0]; rfl, by rw [e0]; rfl⟩,
    ⟨h0, by rw [c0]; rfl, by rw [e0]; rfl⟩, ?_⟩
  intro k hk hw
  obtain ⟨k, rfl⟩ : ∃ j, k = j + 2 := ⟨k - 2, by omega⟩
  obtain ⟨w, ⟨c, s1⟩, w', ⟨c', s2⟩, _⟩ := hw
  have hw1 : w = 1 := by
    obtain ⟨_, h1, h2⟩ := s1
    rw [c0] at h1
    rw [e0] at h2
    rcases c with _ | _ | c
    · simpa using h1.symm
    · simp at h2
    · simp at h2
  subst hw1
  have h2 := s2.2.2
  rw [e1] at h2
  simp at h2

/-- C9 at the input `n = 1`, edge `(0,0)`: the traversal returns, the self-loop
is recorded as `Back`, and in the graph in which it was scanned the preorder
number of its target is equal to, not smaller than, the one of its source. -/
theorem C9_back_on_self_loop :
    ∃ t g0, traverse 1 1 [(0, 0)] = .ok t ∧
      Slot t.g 0 0 0 EdgeType.Back ∧
      Event.scan 0 0 0 g0 ∈ t.trace ∧
      classify (g0.nd 0).pre (g0.nd 0).pre (g0.nd 0).post = EdgeType.Back ∧
      (g0.nd 0).pre = 0 ∧ (g0.nd 0).post = -1 ∧
      ¬ (g0.nd 0).pre < (g0.nd 0).pre := by
  refine ⟨_, Graph.mk [Node.mk [0] [] 0 (-1)] 1 [0] 2 0 1 0, rfl,
    ⟨⟨by decide, by decide⟩, rfl, rfl⟩, by decide, by decide, rfl, rfl, by decide⟩

/-! ### Claim C10 -/

/-- C10: for `n ≥ 1` and edges with endpoints in `[0, n)`, when the traversal
has returned, every edge `(u, v)` recorded as `Tree` has
`preorder(v) > preorder(u)`, no vertex is the target of two edges recorded as
`Tree`, and the visitation order splits into consecutive segments, one per
root and in the order of the roots, each starting with its root and holding
only vertices reachable from that root by a path of edges recorded as `Tree`. -/
theorem C10_tree_edges_forest (n : Int) (hn : 1 ≤ n) (edges : List (Int × Int))
    (hE : ∀ e ∈ edges, 0 ≤ e.1 ∧ e.1 < n ∧ 0 ≤ e.2 ∧ e.2 < n) (fuel : Nat)
    (hf : n ≤ fuel) :
    ∃ t, traverse fuel n edges = .ok t ∧
      (∀ u c v, Slot t.g u c v EdgeType.Tree → (t.g.nd u).pre < (t.g.nd v).pre) ∧
      (∀ u c v u' c', Slot t.g u c v EdgeType.Tree → Slot t.g u' c' v EdgeType.Tree →
        u = u' ∧ c = c') ∧
      t.roots = 0 :: t.trace.filterMap Event.restartTarget ∧
      ∃ segs : List (List Int), segs.flatten = t.g.DFSpath ∧
        List.Forall₂ (fun r seg => seg.head? = some r ∧ ∀ x ∈ seg, TreePath t.g r x)
          t.roots segs := by
  obtain ⟨t, ht, fin⟩ := traverse_spec hn hE hf
  have i := fin.rinv.inv
  refine ⟨t, ht, ?_, i.tree_unique, rfl, fin.segs⟩
  intro u c v s
  exact i.tree_pre u c v s (fin.allvis v (slot_target_inR i s))

/-- Instance of the theorem on `Tree` edges on the three-vertex input. -/
theorem C10_tree_edges_forest_witness :
    ∃ t, traverse 3 3 [(1, 2), (2, 1), (1, 1)] = .ok t ∧
      (∀ u c v, Slot t.g u c v EdgeType.Tree → (t.g.nd u).pre < (t.g.nd v).pre) ∧
      (∀ u c v u' c', Slot t.g u c v EdgeType.Tree → Slot t.g u' c' v EdgeType.Tree →
        u = u' ∧ c = c') ∧
      t.roots = 0 :: t.trace.filterMap Event.restartTarget ∧
      ∃ segs : List (List Int), segs.flatten = t.g.DFSpath ∧
        List.Forall₂ (fun r seg => seg.head? = some r ∧ ∀ x ∈ seg, TreePath t.g r x)
          t.roots segs :=
  C10_tree_edges_forest 3 (by decide) [(1, 2), (2, 1), (1, 1)] (by decide) 3 (by decide)

/-! ### Claims C11 and C16: the empty graph and endpoints out of range -/

/-- C11 at the input `n = 0`, `m = 0`: `buildGraph` returns a graph with an empty
node vector, and `DFS(0)` then reads `nodes[0]` in `visit`, outside the vector;
with any positive fuel the traversal and `main` stop with `Err.outOfRange`.
On the graph as built, `printPath` also steps outside the empty `DFSpath`. -/
theorem C11_empty_graph_reads_outside (fuel : Nat) :
    (∃ g, buildGraph 0 [] = .ok (g, []) ∧ g.nodes = [] ∧ g.DFSpath = [] ∧
      g.visit 0 = .error .outOfRange ∧ g.printPath = .error .outOfRange) ∧
    traverse (fuel + 1) 0 [] = .error .outOfRange ∧
    main (fuel + 1) 0 [] = .error .outOfRange :=
  ⟨⟨_, rfl, rfl, rfl, rfl, rfl⟩, rfl, rfl⟩

/-- The graph `buildGraph` returns when only the sources of the edges are in
range. -/
theorem buildGraph_src_ok {n : Int} (hn : 0 ≤ n) {edges : List (Int × Int)}
    (hE : ∀ e ∈ edges, 0 ≤ e.1 ∧ e.1 < n) :
    ∃ g, buildGraph n edges = .ok (g, edges) ∧ Init n edges g := by
  obtain ⟨g', h1, h2, h3, h4⟩ := addEdges_ok edges { nodes := List.replicate n.toNat {} } (by
    intro e he
    have := hE e he
    simp only [List.length_replicate]
    omega)
  refine ⟨{ g' with size := n }, ?_, ?_⟩
  · unfold buildGraph
    rw [if_neg (by omega), bind_ok _ _ _ h1]
    rfl
  · simp only [List.length_replicate] at h2
    have hnd : ∀ x, Graph.nd { g' with size := n } x = g'.nd x := fun x => rfl
    refine ⟨rfl, ?_, ?_, ?_, ?_, ?_, ?_, ?_⟩
    · show ((g'.nodes.length : Nat) : Int) = n
      rw [h2]; omega
    · intro x hx0 hxn
      rw [hnd, h4 x hx0]
      have : (Graph.nd { nodes := List.replicate n.toNat {} } x) = ({} : Node) := by
        unfold Graph.nd
        rw [List.getD_eq_getElem?_getD]
        by_cases hlt : x.toNat < n.toNat
        · simp [List.getElem?_replicate, hlt]
        · simp [List.getElem?_replicate, hlt]
      rw [this]
      simp
    · show g'.DFSpath = []; rw [h3]
    · show g'.smallestUnvisited = 0; rw [h3]
    · show g'.currentRoot = 0; rw [h3]
    · show g'.preorder = 0; rw [h3]
    · show g'.postorder = 0; rw [h3]

/-- C16, as stated, fails on the input `n = 1`, edge `(0, 5)`: the target `5` is
outside `[0, 1)`, yet `buildGraph` returns a graph, and the adjacency list of
vertex `0` in it holds `5`. -/
theorem C16_counterexample :
    (∃ e ∈ [((0 : Int), (5 : Int))], ¬ (0 ≤ e.2 ∧ e.2 < 1)) ∧
    buildGraph 1 [(0, 5)] ≠ .error .outOfRange ∧
    ∃ g, buildGraph 1 [(0, 5)] = .ok (g, [(0, 5)]) ∧ 5 ∈ (g.nd 0).children := by
  refine ⟨by decide, ?_, ⟨_, rfl, by decide⟩⟩
  intro h
  have h2 : buildGraph 1 [(0, 5)] = Except.ok
      (Graph.mk [Node.mk [5] [] (-1) (-1)] 1 [] 0 0 0 0, [(0, 5)]) := rfl
  rw [h2] at h
  cases h

/-- C16, amended: `buildGraph` checks no endpoint and reports no error.  For
`n ≥ 0` and an edge list in which the source of every edge is in `[0, n)`, it
returns a graph of `n` nodes in which the adjacency list of every vertex holds
the targets of its edges in input order, whatever their value: the target of
every input edge, in `[0, n)` or not, is stored in the adjacency list of its
source. -/
theorem C16_buildGraph_unchecked (n : Int) (hn : 0 ≤ n) (edges : List (Int × Int))
    (hE : ∀ e ∈ edges, 0 ≤ e.1 ∧ e.1 < n) :
    ∃ g, buildGraph n edges = .ok (g, edges) ∧ g.size = n ∧
      (g.nodes.length : Int) = n ∧
      (∀ u, 0 ≤ u → u < n → (g.nd u).children = adj edges u) ∧
      ∀ e ∈ edges, e.2 ∈ (g.nd e.1).children := by
  obtain ⟨g, h1, it⟩ := buildGraph_src_ok hn hE
  refine ⟨g, h1, it.size, it.len, ?_, ?_⟩
  · intro u h0 h2
    rw [it.nd u h0 h2]
  · intro e he
    rw [it.nd e.1 (hE e he).1 (hE e he).2]
    exact mem_adj he

/-- Instance of the amended C16: one vertex, the edge `(0, 5)`; the target `5`
is stored. -/
theorem C16_buildGraph_unchecked_witness :
    ∃ g, buildGraph 1 [(0, 5)] = .ok (g, [(0, 5)]) ∧ g.size = 1 ∧
      (g.nodes.length : Int) = 1 ∧
      (∀ u, 0 ≤ u → u < 1 → (g.nd u).children = adj [(0, 5)] u) ∧
      ∀ e ∈ [((0 : Int), (5 : Int))], e.2 ∈ (g.nd e.1).children :=
  C16_buildGraph_unchecked 1 (by decide) [(0, 5)] (by decide)

/-! ### The leave order and positions in the trace -/

theorem leaves_nodup {s : Run} (r : RInv s) :
    (s.trace.filterMap Event.leaveTarget).Nodup := by
  rw [List.nodup_iff_getElem?_ne_getElem?]
  intro a b hab hb e
  have hb' := List.getElem?_eq_getElem hb
  have ha' : (s.trace.filterMap Event.leaveTarget)[a]? =
      some ((s.trace.filterMap Event.leaveTarget)[b]) := by rw [e, hb']
  have h1 := (r.leave_post a _ ha').2
  have h2 := (r.leave_post b _ hb').2
  rw [h1] at h2
  have : a = b := by exact_mod_cast h2
  omega

theorem mem_leaves {s : Run} (r : RInv s) {v : Int} (hv : s.g.InR v)
    (hp : 0 ≤ (s.g.nd v).post) : v ∈ s.trace.filterMap Event.leaveTarget := by
  have i := r.inv
  have hlt : (s.g.nd v).post.toNat < (s.trace.filterMap Event.leaveTarget).length := by
    have h1 := r.leave_cnt
    rcases i.post_rng v hv with h2 | h2 <;> omega
  have hk := List.getElem?_eq_getElem hlt
  obtain ⟨hy, hyp⟩ := r.leave_post _ _ hk
  have e : v = (s.trace.filterMap Event.leaveTarget)[(s.g.nd v).post.toNat] := by
    apply i.post_inj v _ hv hy hp
    rw [hyp]
    omega
  rw [e]
  exact List.getElem_mem _

theorem leaves_inR {s : Run} (r : RInv s) {v : Int}
    (hv : v ∈ s.trace.filterMap Event.leaveTarget) : s.g.InR v := by
  obtain ⟨k, hk⟩ := List.getElem?_of_mem hv
  exact (r.leave_post k v hk).1

theorem final_postorder {n : Int} {edges : List (Int × Int)} {t : Run}
    (fin : Final n edges t) : t.g.postorder = n := by
  have r := fin.rinv
  have hfs : (t.trace.filterMap Event.leaveTarget).toFinset = Finset.Ico 0 n := by
    ext x
    rw [List.mem_toFinset, Finset.mem_Ico]
    constructor
    · intro hx
      have := leaves_inR r hx
      exact ⟨this.1, by rw [← fin.size]; exact this.2⟩
    · rintro ⟨h1, h2⟩
      have hx : t.g.InR x := ⟨h1, by rw [fin.size]; exact h2⟩
      exact mem_leaves r hx (fin.allfin x hx)
  have hc := List.toFinset_card_of_nodup (leaves_nodup r)
  rw [hfs, Int.card_Ico] at hc
  have h0 : 0 ≤ n := by
    have := final_length fin
    omega
  rw [r.leave_cnt]
  omega

theorem call_before_leave {s : Run} (r : RInv s) {i j : Nat} {v : Int} {g1 g2 : Graph}
    (hi : s.trace[i]? = some (Event.call v g1)) (hj : s.trace[j]? = some (Event.leave v g2)) :
    i < j := by
  by_contra hge
  have hne : i ≠ j := by
    rintro rfl
    rw [hi] at hj
    cases hj
  have hlt : j < i := by omega
  have hil : i < s.trace.length := by
    by_contra h
    rw [List.getElem?_eq_none (by omega)] at hi
    cases hi
  have hjl : j < s.trace.length := by omega
  have hch := List.pairwise_iff_getElem.1 r.chain j i hjl hil hlt
  have ei : s.trace[i] = Event.call v g1 := by
    rw [List.getElem?_eq_getElem hil] at hi
    exact Option.some.inj hi
  have ej : s.trace[j] = Event.leave v g2 := by
    rw [List.getElem?_eq_getElem hjl] at hj
    exact Option.some.inj hj
  rw [ei, ej] at hch
  have hext : Ext g2 g1 := hch g2 g1 rfl rfl
  obtain ⟨_, _, hv2, hp2, _⟩ := r.ev _ (List.getElem?_mem hj)
  obtain ⟨_, _, _, hp1⟩ := r.ev _ (List.getElem?_mem hi)
  have := hext.pre v hv2 hp2
  omega

/-! ### Claims C17 and C18 -/

/-- C17: for `n ≥ 1` and edges with endpoints in `[0, n)`, the traversal
returns; every vertex is the target of exactly one `call` event (the entry of
`DFS`, whose first action is `visit`) and of exactly one `leave` event, its
`call` event comes before its `leave` event, the preorder number is unset when
`visit` runs and the postorder number is unset when `leave` runs; at the end
`preorder(DFSpath[k]) = k` for every `k < n`, and the postorder numbers lie in
`[0, n)`, are pairwise different, and take every value of `[0, n)`. -/
theorem C17_visit_leave_once (n : Int) (hn : 1 ≤ n) (edges : List (Int × Int))
    (hE : ∀ e ∈ edges, 0 ≤ e.1 ∧ e.1 < n ∧ 0 ≤ e.2 ∧ e.2 < n) (fuel : Nat)
    (hf : n ≤ fuel) :
    ∃ t, traverse fuel n edges = .ok t ∧
      (∀ v, 0 ≤ v → v < n →
        (t.trace.filterMap Event.callTarget).count v = 1 ∧
        (t.trace.filterMap Event.leaveTarget).count v = 1) ∧
      (∀ (i j : Nat) v g1 g2, t.trace[i]? = some (Event.call v g1) →
        t.trace[j]? = some (Event.leave v g2) → i < j) ∧
      (∀ v g, Event.call v g ∈ t.trace → (g.nd v).pre < 0 ∧ (g.nd v).post < 0) ∧
      (∀ v g, Event.leave v g ∈ t.trace → 0 ≤ (g.nd v).pre ∧ (g.nd v).post < 0) ∧
      (∀ k : Nat, (k : Int) < n →
        ∃ v, t.g.DFSpath[k]? = some v ∧ (t.g.nd v).pre = k) ∧
      (∀ v, 0 ≤ v → v < n →
        0 ≤ (t.g.nd v).pre ∧ (t.g.nd v).pre < n ∧
        0 ≤ (t.g.nd v).post ∧ (t.g.nd v).post < n) ∧
      (∀ u v, 0 ≤ u → u < n → 0 ≤ v → v < n →
        ((t.g.nd u).pre = (t.g.nd v).pre → u = v) ∧
        ((t.g.nd u).post = (t.g.nd v).post → u = v)) ∧
      (∀ k : Int, 0 ≤ k → k < n →
        (∃ v, 0 ≤ v ∧ v < n ∧ (t.g.nd v).pre = k) ∧
        (∃ v, 0 ≤ v ∧ v < n ∧ (t.g.nd v).post = k)) := by
  obtain ⟨t, ht, fin⟩ := traverse_spec hn hE hf
  have r := fin.rinv
  have i := r.inv
  have hlen := final_length fin
  have hpost := final_postorder fin
  have hin : ∀ v, 0 ≤ v → v < n → t.g.InR v :=
    fun v h0 h1 => ⟨h0, by rw [fin.size]; exact h1⟩
  refine ⟨t, ht, ?_, ?_, ?_, ?_, ?_, ?_, ?_, ?_⟩
  · intro v h0 h1
    have hv := hin v h0 h1
    constructor
    · rw [r.calls]
      exact List.count_eq_one_of_mem (path_nodup i)
        ((mem_path_iff i).2 ⟨hv, fin.allvis v hv⟩)
    · exact List.count_eq_one_of_mem (leaves_nodup r) (mem_leaves r hv (fin.allfin v hv))
  · intro a b v g1 g2 ha hb
    exact call_before_leave r ha hb
  · intro v g hm
    obtain ⟨ig, _, hv, hp⟩ := r.ev _ hm
    refine ⟨hp, ?_⟩
    by_contra hge
    have := ig.fin_vis v hv (by omega)
    omega
  · intro v g hm
    obtain ⟨_, _, _, hp, hq⟩ := r.ev _ hm
    exact ⟨hp, hq⟩
  · intro k hk
    have hlt : k < t.g.DFSpath.length := by omega
    refine ⟨t.g.DFSpath[k], List.getElem?_eq_getElem hlt, ?_⟩
    exact (i.pre_path k _ (List.getElem?_eq_getElem hlt)).2
  · intro v h0 h1
    have hv := hin v h0 h1
    have h2 := fin.allvis v hv
    have h3 := fin.allfin v hv
    have h4 := i.pre_cnt
    refine ⟨h2, ?_, h3, ?_⟩
    · rcases i.pre_rng v hv with h5 | h5 <;> omega
    · rcases i.post_rng v hv with h5 | h5 <;> omega
  · intro u v hu0 hu1 hv0 hv1
    have hu := hin u hu0 hu1
    have hv := hin v hv0 hv1
    exact ⟨fun e => pre_inj i hu hv (fin.allvis u hu) e,
      fun e => i.post_inj u v hu hv (fin.allfin u hu) e⟩
  · intro k hk0 hk1
    constructor
    · have hlt : k.toNat < t.g.DFSpath.length := by omega
      have hk := List.getElem?_eq_getElem hlt
      obtain ⟨hv, hp⟩ := i.pre_path _ _ hk
      exact ⟨_, hv.1, by rw [← fin.size]; exact hv.2, by rw [hp]; omega⟩
    · have hlt : k.toNat < (t.trace.filterMap Event.leaveTarget).length := by
        have := r.leave_cnt
        omega
      have hk := List.getElem?_eq_getElem hlt
      obtain ⟨hv, hp⟩ := r.leave_post _ _ hk
      exact ⟨_, hv.1, by rw [← fin.size]; exact hv.2, by rw [hp]; omega⟩

/-- Instance of the theorem on `visit` and `leave` on a three-vertex input. -/
theorem C17_visit_leave_once_witness :
    ∃ t, traverse 3 3 [(1, 2), (2, 1), (1, 1)] = .ok t ∧
      (∀ v, 0 ≤ v → v < 3 →
        (t.trace.filterMap Event.callTarget).count v = 1 ∧
        (t.trace.filterMap Event.leaveTarget).count v = 1) ∧
      (∀ (i j : Nat) v g1 g2, t.trace[i]? = some (Event.call v g1) →
        t.trace[j]? = some (Event.leave v g2) → i < j) ∧
      (∀ v g, Event.call v g ∈ t.trace → (g.nd v).pre < 0 ∧ (g.nd v).post < 0) ∧
      (∀ v g, Event.leave v g ∈ t.trace → 0 ≤ (g.nd v).pre ∧ (g.nd v).post < 0) ∧
      (∀ k : Nat, (k : Int) < 3 →
        ∃ v, t.g.DFSpath[k]? = some v ∧ (t.g.nd v).pre = k) ∧
      (∀ v, 0 ≤ v → v < 3 →
        0 ≤ (t.g.nd v).pre ∧ (t.g.nd v).pre < 3 ∧
        0 ≤ (t.g.nd v).post ∧ (t.g.nd v).post < 3) ∧
      (∀ u v, 0 ≤ u → u < 3 → 0 ≤ v → v < 3 →
        ((t.g.nd u).pre = (t.g.nd v).pre → u = v) ∧
        ((t.g.nd u).post = (t.g.nd v).post → u = v)) ∧
      (∀ k : Int, 0 ≤ k → k < 3 →
        (∃ v, 0 ≤ v ∧ v < 3 ∧ (t.g.nd v).pre = k) ∧
        (∃ v, 0 ≤ v ∧ v < 3 ∧ (t.g.nd v).post = k)) :=
  C17_visit_leave_once 3 (by decide) [(1, 2), (2, 1), (1, 1)] (by decide) 3 (by decide)

theorem prefix_getElem?_lt {α : Type} {l1 l2 : List α} (h : l1 <+: l2) {c : Nat}
    (hc : c < l1.length) : l1[c]? = l2[c]? := by
  obtain ⟨t, rfl⟩ := h
  rw [List.getElem?_append_left hc]

/-- C18: for `n ≥ 1` and edges with endpoints in `[0, n)`, when the traversal has
returned: if a vertex `u` has two outgoing edges to the same target `v`, at
slots `c1 < c2` of its adjacency list, and the type recorded for the first is
`Tree`, then the type recorded for the second is `Forward`. -/
theorem C18_parallel_edge_forward (n : Int) (hn : 1 ≤ n) (edges : List (Int × Int))
    (hE : ∀ e ∈ edges, 0 ≤ e.1 ∧ e.1 < n ∧ 0 ≤ e.2 ∧ e.2 < n) (fuel : Nat)
    (hf : n ≤ fuel) :
    ∃ t, traverse fuel n edges = .ok t ∧
      (∀ u, 0 ≤ u → u < n → (t.g.nd u).children = adj edges u) ∧
      ∀ u c1 c2 v, c1 < c2 → Slot t.g u c1 v EdgeType.Tree →
        (t.g.nd u).children[c2]? = some v →
        Slot t.g u c2 v EdgeType.Forward ∧ EdgeType.Forward ≠ EdgeType.Tree := by
  obtain ⟨t, ht, fin⟩ := traverse_spec hn hE hf
  have r := fin.rinv
  have i := r.inv
  refine ⟨t, ht, fun u h0 h1 => fin.children u ⟨h0, by rw [fin.size]; exact h1⟩, ?_⟩
  intro u c1 c2 v h12 s1 hc2
  have hu := s1.1
  have hlt : c2 < (t.g.nd u).edgeTypes.length := by
    rw [i.et_fin u hu (fin.allfin u hu)]
    by_contra hge
    rw [List.getElem?_eq_none (by omega)] at hc2
    cases hc2
  obtain ⟨v', g0, hm⟩ := r.scans u hu c2 hlt
  obtain ⟨ig, hext, hu0, hv0, _, _, hcnt, h8, h9, _, _, htv⟩ := r.ev _ hm
  have hv' : v' = v := by
    rw [← hext.children u hu0, hc2] at h8
    exact (Option.some.inj h8).symm
  subst hv'
  have s0 : Slot g0 u c1 v' EdgeType.Tree := by
    refine ⟨hu0, ?_, ?_⟩
    · rw [← hext.children u hu0]; exact s1.2.1
    · rw [prefix_getElem?_lt (hext.etypes u hu0) (by omega)]; exact s1.2.2
  have hpv := htv u c1 v' s0
  have hlt2 := ig.tree_pre u c1 v' s0 hpv
  have hcl : classify (g0.nd u).pre (g0.nd v').pre (g0.nd v').post = EdgeType.Forward :=
    classify_forward.2 ⟨hpv, hlt2⟩
  rw [hcl] at h9
  exact ⟨⟨hu, hc2, h9⟩, by decide⟩

/-- Instance of the theorem on parallel edges: the edge `(0, 1)` is given twice. -/
theorem C18_parallel_edge_forward_witness :
    ∃ t, traverse 2 2 [(0, 1), (0, 1)] = .ok t ∧
      (∀ u, 0 ≤ u → u < 2 → (t.g.nd u).children = adj [(0, 1), (0, 1)] u) ∧
      ∀ u c1 c2 v, c1 < c2 → Slot t.g u c1 v EdgeType.Tree →
        (t.g.nd u).children[c2]? = some v →
        Slot t.g u c2 v EdgeType.Forward ∧ EdgeType.Forward ≠ EdgeType.Tree :=
  C18_parallel_edge_forward 2 (by decide) [(0, 1), (0, 1)] (by decide) 2 (by decide)

/-! ### Counting the unvisited vertices -/

theorem unvisitedCount_add {g : Graph} (i : Inv g) :
    unvisitedCount g + g.DFSpath.length = g.size.toNat := by
  have hsz : 0 ≤ g.size := by rw [← i.len]; exact Int.natCast_nonneg _
  let p : Nat → Bool := fun x => decide ((g.nd (x : Int)).pre < 0)
  have h1 := List.length_eq_countP_add_countP p (List.range g.size.toNat)
  rw [List.length_range] at h1
  have h2 : unvisitedCount g = List.countP p (List.range g.size.toNat) := by
    unfold unvisitedCount
    rw [List.countP_eq_length_filter]
  have hperm : List.Perm
      (((List.range g.size.toNat).filter fun x => ! p x).map fun x : Nat => (x : Int))
      g.DFSpath := by
    rw [List.perm_ext_iff_of_nodup
      (((List.nodup_range _).filter _).map (fun a b h => by exact_mod_cast h))
      (path_nodup i)]
    intro a
    rw [mem_path_iff i, List.mem_map]
    constructor
    · rintro ⟨x, hx, rfl⟩
      rw [List.mem_filter, List.mem_range] at hx
      obtain ⟨hx1, hx2⟩ := hx
      have hx3 : ¬ (g.nd (x : Int)).pre < 0 := by simpa [p] using hx2
      refine ⟨⟨Int.natCast_nonneg _, by omega⟩, by omega⟩
    · rintro ⟨ha, hp⟩
      refine ⟨a.toNat, ?_, by have := ha.1; omega⟩
      rw [List.mem_filter, List.mem_range]
      have e : ((a.toNat : Nat) : Int) = a := by have := ha.1; omega
      refine ⟨by have := ha.2; omega, ?_⟩
      simp only [p, e]
      simpa using hp
  have h3 : List.countP (fun x => ! p x) (List.range g.size.toNat) = g.DFSpath.length := by
    rw [List.countP_eq_length_filter, ← hperm.length_eq, List.length_map]
  have h4 : List.countP (fun a => decide ¬p a = true) (List.range g.size.toNat)
      = List.countP (fun x => ! p x) (List.range g.size.toNat) := by
    congr 1
    funext x
    simp
  omega

/-! ### Claims C19 and C20 -/

/-- C19: for `n ≥ 1` and edges with endpoints in `[0, n)`, the traversal
returns, and for every call of `visit` (the first action of each `DFS`
activation, entered in the recorded graph `g`) the graph `h` that `visit`
returns has: every vertex below `smallestUnvisited` visited;
`smallestUnvisited` either an unvisited vertex of `[0, n)` or at least `n`,
the latter exactly when all vertices are visited.  The cursor does not
decrease: not across `visit`, not from `h` to any graph recorded later, not
between two recorded graphs, and not up to the final graph. -/
theorem C19_cursor_invariant (n : Int) (hn : 1 ≤ n) (edges : List (Int × Int))
    (hE : ∀ e ∈ edges, 0 ≤ e.1 ∧ e.1 < n ∧ 0 ≤ e.2 ∧ e.2 < n) (fuel : Nat)
    (hf : n ≤ fuel) :
    ∃ t, traverse fuel n edges = .ok t ∧
      (∀ (i : Nat) w g, t.trace[i]? = some (Event.call w g) →
        ∃ h, g.visit w = .ok h ∧
          (∀ x, 0 ≤ x → x < h.smallestUnvisited → x < n → 0 ≤ (h.nd x).pre) ∧
          ((0 ≤ h.smallestUnvisited ∧ h.smallestUnvisited < n ∧
              (h.nd h.smallestUnvisited).pre < 0) ∨ n ≤ h.smallestUnvisited) ∧
          (n ≤ h.smallestUnvisited ↔ ∀ x, 0 ≤ x → x < n → 0 ≤ (h.nd x).pre) ∧
          g.smallestUnvisited ≤ h.smallestUnvisited ∧
          h.smallestUnvisited ≤ t.g.smallestUnvisited ∧
          ∀ (j : Nat) e g', i < j → t.trace[j]? = some e → e.snap = some g' →
            h.smallestUnvisited ≤ g'.smallestUnvisited) ∧
      (t.trace.Pairwise fun e1 e2 => ∀ g1 g2, e1.snap = some g1 → e2.snap = some g2 →
        g1.smallestUnvisited ≤ g2.smallestUnvisited) ∧
      (∀ e ∈ t.trace, ∀ g, e.snap = some g →
        g.smallestUnvisited ≤ t.g.smallestUnvisited) := by
  obtain ⟨t, ht, fin⟩ := traverse_spec hn hE hf
  have r := fin.rinv
  refine ⟨t, ht, ?_, ?_, ?_⟩
  · intro k w g hk
    obtain ⟨ig, hext, hw, hp⟩ := r.ev _ (List.getElem?_mem hk)
    obtain ⟨h, hv, vr⟩ := visit_ok ig.len hw
    have ih := visit_inv ig hw hp vr
    have hsz : h.size = n := by rw [vr.size, ← hext.size, fin.size]
    obtain ⟨a1, a2⟩ := r.after_call k w g h hk hv
    refine ⟨h, hv, ?_, ?_, ?_, vr.su_le, a1.su, ?_⟩
    · intro x h0 h1 h2
      exact ih.su_below x h0 h1 (by rw [hsz]; exact h2)
    · by_cases hlt : h.smallestUnvisited < n
      · exact Or.inl ⟨ih.su_nonneg, hlt, ih.su_unvis (by rw [hsz]; exact hlt)⟩
      · exact Or.inr (by omega)
    · constructor
      · intro hge x h0 h1
        exact ih.su_below x h0 (by omega) (by rw [hsz]; exact h1)
      · intro hall
        by_contra hlt
        have h1 := ih.su_unvis (by rw [hsz]; omega)
        have h2 := hall _ ih.su_nonneg (by omega)
        omega
    · intro j e g' hij hj hg
      exact (a2 j e g' hij hj hg).su
  · exact r.chain.imp fun h g1 g2 h1 h2 => (h g1 g2 h1 h2).su
  · intro e he g hg
    exact (evOK_snap (r.ev e he) hg).2.su

/-- Instance of the theorem on the cursor on a three-vertex input. -/
theorem C19_cursor_invariant_witness :
    ∃ t, traverse 3 3 [(1, 2), (2, 1), (1, 1)] = .ok t ∧
      (∀ (i : Nat) w g, t.trace[i]? = some (Event.call w g) →
        ∃ h, g.visit w = .ok h ∧
          (∀ x, 0 ≤ x → x < h.smallestUnvisited → x < 3 → 0 ≤ (h.nd x).pre) ∧
          ((0 ≤ h.smallestUnvisited ∧ h.smallestUnvisited < 3 ∧
              (h.nd h.smallestUnvisited).pre < 0) ∨ 3 ≤ h.smallestUnvisited) ∧
          (3 ≤ h.smallestUnvisited ↔ ∀ x, 0 ≤ x → x < 3 → 0 ≤ (h.nd x).pre) ∧
          g.smallestUnvisited ≤ h.smallestUnvisited ∧
          h.smallestUnvisited ≤ t.g.smallestUnvisited ∧
          ∀ (j : Nat) e g', i < j → t.trace[j]? = some e → e.snap = some g' →
            h.smallestUnvisited ≤ g'.smallestUnvisited) ∧
      (t.trace.Pairwise fun e1 e2 => ∀ g1 g2, e1.snap = some g1 → e2.snap = some g2 →
        g1.smallestUnvisited ≤ g2.smallestUnvisited) ∧
      (∀ e ∈ t.trace, ∀ g, e.snap = some g →
        g.smallestUnvisited ≤ t.g.smallestUnvisited) :=
  C19_cursor_invariant 3 (by decide) [(1, 2), (2, 1), (1, 1)] (by decide) 3 (by decide)

/-- C20: for `n ≥ 1` and edges with endpoints in `[0, n)` the traversal returns
for every fuel of at least `n`.  Every invocation of `DFS` (a `call` event,
whether made by the child loop or by the restart loop) is on a vertex of
`[0, n)` that is unvisited in the graph of the call; the number of unvisited
vertices at the invocation is `n` minus the number of earlier invocations, and
its `visit` lowers that number by one; there are exactly `n` invocations, and
no vertex is unvisited at the end. -/
theorem C20_dfs_terminates (n : Int) (hn : 1 ≤ n) (edges : List (Int × Int))
    (hE : ∀ e ∈ edges, 0 ≤ e.1 ∧ e.1 < n ∧ 0 ≤ e.2 ∧ e.2 < n) (fuel : Nat)
    (hf : n ≤ fuel) :
    ∃ t, traverse fuel n edges = .ok t ∧
      ((t.trace.filterMap Event.callTarget).length : Int) = n ∧
      unvisitedCount t.g = 0 ∧
      ∀ (i : Nat) w g, t.trace[i]? = some (Event.call w g) →
        (0 ≤ w ∧ w < n) ∧ (g.nd w).pre < 0 ∧
        unvisitedCount g + ((t.trace.take i).filterMap Event.callTarget).length = n.toNat ∧
        ∃ h, g.visit w = .ok h ∧ unvisitedCount h + 1 = unvisitedCount g := by
  obtain ⟨t, ht, fin⟩ := traverse_spec hn hE hf
  have r := fin.rinv
  have hlen := final_length fin
  refine ⟨t, ht, by rw [r.calls]; exact hlen, ?_, ?_⟩
  · have := unvisitedCount_add r.inv
    rw [fin.size] at this
    omega
  · intro k w g hk
    obtain ⟨ig, hext, hw, hp⟩ := r.ev _ (List.getElem?_mem hk)
    have hsz : g.size = n := by rw [← hext.size, fin.size]
    obtain ⟨h, hv, vr⟩ := visit_ok ig.len hw
    have ih := visit_inv ig hw hp vr
    have h1 := unvisitedCount_add ig
    have h2 := unvisitedCount_add ih
    rw [vr.path, vr.size, List.length_append] at h2
    have h3 := r.snap_path k _ g hk rfl
    refine ⟨⟨hw.1, by rw [← hsz]; exact hw.2⟩, hp, ?_, h, hv, ?_⟩
    · rw [← h3, ← hsz]; exact h1
    · simp at h2
      omega

/-- Instance of the theorem on termination on a three-vertex input. -/
theorem C20_dfs_terminates_witness :
    ∃ t, traverse 3 3 [(1, 2), (2, 1), (1, 1)] = .ok t ∧
      ((t.trace.filterMap Event.callTarget).length : Int) = 3 ∧
      unvisitedCount t.g = 0 ∧
      ∀ (i : Nat) w g, t.trace[i]? = some (Event.call w g) →
        (0 ≤ w ∧ w < 3) ∧ (g.nd w).pre < 0 ∧
        unvisitedCount g + ((t.trace.take i).filterMap Event.callTarget).length
          = (3 : Int).toNat ∧
        ∃ h, g.visit w = .ok h ∧ unvisitedCount h + 1 = unvisitedCount g :=
  C20_dfs_terminates 3 (by decide) [(1, 2), (2, 1), (1, 1)] (by decide) 3 (by decide)

/-! ### Claim C21: forward edges -/

/-- C21: for `n ≥ 1` and edges with endpoints in `[0, n)` the traversal returns,
and whenever `updateEdge(u, v)` runs for slot `c` of `u` in a graph `g` where
its rule gives `Forward`: the call appends `Forward` to the `edgeTypes` of
`u`, the target `v` is visited and already has a postorder number in `g`,
`v ≠ u`, the slot is recorded `Forward` in the final graph, and a non-empty
path of edges recorded as `Tree` leads from `u` to `v` in the final graph.
Every slot recorded `Forward` at the end comes from such a scan. -/
theorem C21_forward_target_finished (n : Int) (hn : 1 ≤ n) (edges : List (Int × Int))
    (hE : ∀ e ∈ edges, 0 ≤ e.1 ∧ e.1 < n ∧ 0 ≤ e.2 ∧ e.2 < n) (fuel : Nat)
    (hf : n ≤ fuel) :
    ∃ t, traverse fuel n edges = .ok t ∧
      (∀ u c v g, Event.scan u c v g ∈ t.trace →
        classify (g.nd u).pre (g.nd v).pre (g.nd v).post = EdgeType.Forward →
        (∃ h, g.updateEdge u v = .ok h ∧
          (h.nd u).edgeTypes = (g.nd u).edgeTypes ++ [EdgeType.Forward]) ∧
        0 ≤ (g.nd v).pre ∧ 0 ≤ (g.nd v).post ∧ u ≠ v ∧
        Slot t.g u c v EdgeType.Forward ∧
        Relation.TransGen (TreeEdge t.g) u v) ∧
      (∀ u c v, Slot t.g u c v EdgeType.Forward →
        ∃ g, Event.scan u c v g ∈ t.trace ∧
          classify (g.nd u).pre (g.nd v).pre (g.nd v).post = EdgeType.Forward) := by
  obtain ⟨t, ht, fin⟩ := traverse_spec hn hE hf
  refine ⟨t, ht, ?_, ?_⟩
  · intro u c v g hm hc
    obtain ⟨ig, hext, hu, hv, _, _, _, h8, h9, _, hdesc, _⟩ := fin.rinv.ev _ hm
    obtain ⟨hb, hlt⟩ := classify_forward.1 hc
    obtain ⟨hpost, hpath⟩ := hdesc v hv hlt
    have hne : u ≠ v := by
      intro e
      rw [e] at hlt
      omega
    obtain ⟨h, hh, sr⟩ := updateEdge_ok ig.len hu hv
    refine ⟨⟨h, hh, ?_⟩, hb, hpost, hne, ⟨?_, ?_, ?_⟩, ?_⟩
    · rw [sr.nd_self, hc]
    · exact ⟨hu.1, by rw [hext.size]; exact hu.2⟩
    · rw [hext.children u hu]; exact h8
    · rw [h9, hc]
    · have hp := TreePath.path_mono hext hpath
      rcases Relation.reflTransGen_iff_eq_or_transGen.1 hp with e | e
      · exact absurd e.symm hne
      · exact e
  · intro u c v s
    have hlt : c < (t.g.nd u).edgeTypes.length := by
      by_contra hge
      have h := s.2.2
      rw [List.getElem?_eq_none (by omega)] at h
      exact absurd h (by simp)
    obtain ⟨v', g0, hm⟩ := fin.rinv.scans u s.1 c hlt
    obtain ⟨_, hext, hu0, _, _, _, _, h8, h9, _⟩ := fin.rinv.ev _ hm
    have hv' : v' = v := by
      rw [← hext.children u hu0, s.2.1] at h8
      exact (Option.some.inj h8).symm
    subst hv'
    refine ⟨g0, hm, ?_⟩
    rw [s.2.2] at h9
    exact (Option.some.inj h9).symm

/-- Instance of the theorem on forward edges: triangle with the chord `(0, 2)`
scanned after the subtree of `1`. -/
theorem C21_forward_target_finished_witness :
    ∃ t, traverse 3 3 [(0, 1), (1, 2), (0, 2)] = .ok t ∧
      (∀ u c v g, Event.scan u c v g ∈ t.trace →
        classify (g.nd u).pre (g.nd v).pre (g.nd v).post = EdgeType.Forward →
        (∃ h, g.updateEdge u v = .ok h ∧
          (h.nd u).edgeTypes = (g.nd u).edgeTypes ++ [EdgeType.Forward]) ∧
        0 ≤ (g.nd v).pre ∧ 0 ≤ (g.nd v).post ∧ u ≠ v ∧
        Slot t.g u c v EdgeType.Forward ∧
        Relation.TransGen (TreeEdge t.g) u v) ∧
      (∀ u c v, Slot t.g u c v EdgeType.Forward →
        ∃ g, Event.scan u c v g ∈ t.trace ∧
          classify (g.nd u).pre (g.nd v).pre (g.nd v).post = EdgeType.Forward) :=
  C21_forward_target_finished 3 (by decide) [(0, 1), (1, 2), (0, 2)] (by decide) 3 (by decide)

/-! ### The nesting of the calls -/

theorem bind_inv {α β : Type} {x : Except Err α} {f : α → Except Err β} {b : β}
    (h : (x >>= f) = .ok b) : ∃ a, x = .ok a ∧ f a = .ok b := by
  cases x with
  | error e => cases h
  | ok a => exact ⟨a, rfl, h⟩

theorem childLoop_inv {rec : Run → Int → Except Err Run} {n : Int} {k c : Nat} {s t : Run}
    (h : childLoop rec n (k + 1) c s = .ok t) :
    ∃ (v : Int) (g1 : Graph) (vis : Bool) (s2 : Run),
      s.g.getChild n c = .ok v ∧ s.g.updateEdge n v = .ok g1 ∧ g1.isVisited v = .ok vis ∧
      (if vis then pure { g := g1, trace := s.trace ++ [Event.scan n c v s.g] }
        else rec { g := g1, trace := s.trace ++ [Event.scan n c v s.g] } v) = .ok s2 ∧
      childLoop rec n k (c + 1) s2 = .ok t := by
  rw [childLoop] at h
  obtain ⟨v, h1, h⟩ := bind_inv h
  obtain ⟨g1, h2, h⟩ := bind_inv h
  obtain ⟨vis, h3, h⟩ := bind_inv h
  cases vis with
  | true =>
    simp only [if_true] at h
    obtain ⟨s2, h4, h⟩ := bind_inv h
    exact ⟨v, g1, true, s2, h1, h2, h3, by simp only [if_true]; exact h4, h⟩
  | false =>
    simp only [Bool.false_eq_true, if_false] at h
    obtain ⟨s2, h4, h⟩ := bind_inv h
    exact ⟨v, g1, false, s2, h1, h2, h3,
      by simp only [Bool.false_eq_true, if_false]; exact h4, h⟩

theorem childLoop_grows {rec : Run → Int → Except Err Run}
    (hrec : ∀ s w t, rec s w = .ok t → s.trace <+: t.trace) (n : Int) :
    ∀ (k c : Nat) (s t : Run), childLoop rec n k c s = .ok t → s.trace <+: t.trace := by
  intro k
  induction k with
  | zero =>
    intro c s t h
    rw [childLoop] at h
    cases h
    exact List.prefix_refl _
  | succ k ih =>
    intro c s t h
    obtain ⟨v, g1, vis, s2, _, _, _, h4, h5⟩ := childLoop_inv h
    have p2 := ih _ _ _ h5
    have p1 : s.trace <+: s2.trace := by
      cases vis with
      | true =>
        simp only [if_true] at h4
        cases h4
        exact List.prefix_append _ _
      | false =>
        simp only [Bool.false_eq_true, if_false] at h4
        exact (List.prefix_append _ _).trans (hrec _ _ _ h4)
    exact p1.trans p2

theorem restartLoop_grows {rec : Run → Int → Except Err Run}
    (hrec : ∀ s w t, rec s w = .ok t → s.trace <+: t.trace) :
    ∀ (k : Nat) (s t : Run), restartLoop rec k s = .ok t → s.trace <+: t.trace := by
  intro k
  induction k with
  | zero =>
    intro s t h
    rw [restartLoop] at h
    obtain ⟨vis, _, h⟩ := bind_inv h
    cases vis with
    | true =>
      simp only [if_true] at h
      cases h
      exact List.prefix_refl _
    | false =>
      simp only [Bool.false_eq_true, if_false] at h
      cases h
  | succ k ih =>
    intro s t h
    rw [restartLoop] at h
    obtain ⟨vis, _, h⟩ := bind_inv h
    cases vis with
    | true =>
      simp only [if_true] at h
      cases h
      exact List.prefix_refl _
    | false =>
      simp only [Bool.false_eq_true, if_false] at h
      obtain ⟨s1, h1, h⟩ := bind_inv h
      have p1 := hrec _ _ _ h1
      exact ((List.prefix_append _ _).trans p1).trans (ih _ _ h)

/-- The parts of a call of `DFS` that has returned: the `visit`, the child
loop, and what follows the child loop, which only adds events. -/
theorem DFS_inv {f : Nat}
    (hrec : ∀ s w t, DFS f s w = .ok t → s.trace <+: t.trace) {s t : Run} {n : Int}
    (h : DFS (f + 1) s n = .ok t) :
    ∃ (g1 : Graph) (cnt : Nat) (s2 : Run),
      s.g.visit n = .ok g1 ∧ g1.countChildren n = .ok cnt ∧
      childLoop (DFS f) n cnt 0 { g := g1, trace := s.trace ++ [Event.call n s.g] } = .ok s2 ∧
      s2.trace <+: t.trace := by
  rw [DFS] at h
  obtain ⟨g1, h1, h⟩ := bind_inv h
  obtain ⟨cnt, h2, h⟩ := bind_inv h
  obtain ⟨s2, h3, h⟩ := bind_inv h
  obtain ⟨g3, h4, h⟩ := bind_inv h
  refine ⟨g1, cnt, s2, h1, h2, h3, ?_⟩
  by_cases hr : g3.isCurrentRoot n = true
  · simp only [hr, if_true] at h
    obtain ⟨s4, h5, h⟩ := bind_inv h
    have h6 : t = s4.log (Event.ret n) := by cases h; rfl
    rw [h6]
    exact ((List.prefix_append _ _).trans (restartLoop_grows hrec _ _ _ h5)).trans
      (List.prefix_append _ _)
  · simp only [hr, if_false] at h
    obtain ⟨s4, h5, h⟩ := bind_inv h
    have h6 : t = s4.log (Event.ret n) := by cases h; rfl
    cases h5
    rw [h6]
    exact (List.prefix_append _ _).trans (List.prefix_append _ _)

theorem DFS_grows : ∀ (f : Nat) (s : Run) (w : Int) (t : Run), DFS f s w = .ok t →
    s.trace <+: t.trace := by
  intro f
  induction f with
  | zero =>
    intro s w t h
    rw [DFS] at h
    cases h
  | succ f ih =>
    intro s w t h
    obtain ⟨g1, cnt, s2, _, _, h3, p⟩ := DFS_inv ih h
    exact ((List.prefix_append _ _).trans (childLoop_grows ih w _ _ _ _ h3)).trans p

theorem foldr_max_le (l : List Nat) (b : Nat) (h : ∀ x ∈ l, x ≤ b) : l.foldr max 0 ≤ b := by
  induction l with
  | nil => exact Nat.zero_le _
  | cons a l ih =>
    simp only [List.foldr_cons]
    exact max_le (h a (List.mem_cons_self _ _)) (ih fun x hx => h x (List.mem_cons_of_mem _ hx))

theorem le_foldr_max (l : List Nat) (x : Nat) (h : x ∈ l) : x ≤ l.foldr max 0 := by
  induction l with
  | nil => simp at h
  | cons a l ih =>
    simp only [List.foldr_cons]
    rcases List.mem_cons.1 h with e | e
    · rw [e]; exact le_max_left _ _
    · exact (ih e).trans (le_max_right _ _)

theorem maxDepth_le (tr : List Event) : maxDepth tr ≤ (tr.filterMap Event.callTarget).length := by
  unfold maxDepth
  apply foldr_max_le
  intro x hx
  obtain ⟨i, _, rfl⟩ := List.mem_map.1 hx
  have h1 : ((tr.take i).filterMap Event.callTarget).length
      ≤ (tr.filterMap Event.callTarget).length :=
    ((List.take_sublist i tr).filterMap _).length_le
  unfold depth
  omega

theorem le_maxDepth (tr : List Event) (i : Nat) (hi : i ≤ tr.length) :
    (depth (tr.take i)).toNat ≤ maxDepth tr := by
  unfold maxDepth
  apply le_foldr_max
  exact List.mem_map.2 ⟨i, List.mem_range.2 (by omega), rfl⟩

/-! ### The path graph -/

theorem adj_append (l1 l2 : List (Int × Int)) (x : Int) :
    adj (l1 ++ l2) x = adj l1 x ++ adj l2 x := by
  unfold adj
  simp [List.filter_append]

theorem adj_path_aux (m : Nat) (x : Int) (hx : 0 ≤ x) :
    adj ((List.range m).map fun (k : Nat) => ((k : Int), (k : Int) + 1)) x
      = if x < m then [x + 1] else [] := by
  induction m with
  | zero =>
    have : ¬ x < ((0 : Nat) : Int) := by omega
    rw [if_neg this]
    rfl
  | succ m ih =>
    rw [List.range_succ, List.map_append, adj_append, ih, List.map_singleton, adj_cons]
    have e0 : adj [] x = [] := rfl
    rw [e0]
    by_cases h1 : x < (m : Int)
    · have h2 : ¬ ((m : Int) = x) := by omega
      have h3 : x < ((m + 1 : Nat) : Int) := by omega
      rw [if_pos h1, if_neg h2, if_pos h3]
      rfl
    · by_cases h2 : (m : Int) = x
      · have h3 : x < ((m + 1 : Nat) : Int) := by omega
        rw [if_neg h1, if_pos h2, if_pos h3, h2]
        rfl
      · have h3 : ¬ x < ((m + 1 : Nat) : Int) := by omega
        rw [if_neg h1, if_neg h2, if_neg h3]
        rfl

theorem adj_pathEdges (n : Int) (hn : 1 ≤ n) (x : Int) (hx : 0 ≤ x) :
    adj (pathEdges n) x = if x + 1 < n then [x + 1] else [] := by
  unfold pathEdges
  rw [adj_path_aux _ x hx]
  have e : ((n.toNat - 1 : Nat) : Int) = n - 1 := by omega
  by_cases h : x + 1 < n
  · rw [if_pos (by omega), if_pos h]
  · rw [if_neg (by omega), if_neg h]

theorem pathEdges_inR (n : Int) :
    ∀ e ∈ pathEdges n, 0 ≤ e.1 ∧ e.1 < n ∧ 0 ≤ e.2 ∧ e.2 < n := by
  intro e he
  unfold pathEdges at he
  obtain ⟨k, hk, rfl⟩ := List.mem_map.1 he
  have := List.mem_range.1 hk
  simp only
  omega

/-- On a graph whose adjacency lists are those of the path graph and whose
vertices from `k` on are unvisited, the call `DFS(k)` first enters the calls on
`k`, `k + 1`, ..., `n - 1` one inside the other: its events start with a block
that holds `n - k` calls and no return. -/
theorem path_descent (n : Int) : ∀ (d : Nat) (k : Int) (f : Nat) (s t : Run),
    0 ≤ k → k + d + 1 = n → (s.g.nodes.length : Int) = s.g.size → s.g.size = n →
    (∀ x, 0 ≤ x → x < n → (s.g.nd x).children = if x + 1 < n then [x + 1] else []) →
    (∀ x, k ≤ x → x < n → (s.g.nd x).pre < 0) →
    DFS f s k = .ok t →
    ∃ mid rest, t.trace = s.trace ++ mid ++ rest ∧
      (mid.filterMap Event.callTarget).length = d + 1 ∧ ∀ e ∈ mid, e.isRet = false := by
  intro d
  induction d with
  | zero =>
    intro k f s t hk hd hlen hsz hch hun h
    cases f with
    | zero => rw [DFS] at h; cases h
    | succ f =>
      obtain ⟨g1, cnt, s2, _, _, h3, p⟩ := DFS_inv (DFS_grows f) h
      obtain ⟨r1, e1⟩ := childLoop_grows (DFS_grows f) k _ _ _ _ h3
      obtain ⟨r2, e2⟩ := p
      refine ⟨[Event.call k s.g], r1 ++ r2, ?_, rfl, ?_⟩
      · rw [← e2, ← e1]
        simp
      · intro e he
        rw [List.mem_singleton.1 he]
        rfl
  | succ d ih =>
    intro k f s t hk hd hlen hsz hch hun h
    cases f with
    | zero => rw [DFS] at h; cases h
    | succ f =>
      obtain ⟨g1, cnt, s2, h1, h2, h3, p⟩ := DFS_inv (DFS_grows f) h
      have hkR : s.g.InR k := ⟨hk, by rw [hsz]; omega⟩
      obtain ⟨gV0, hv, vr⟩ := visit_ok hlen hkR
      rw [hv] at h1
      cases h1
      have hlen1 : (g1.nodes.length : Int) = g1.size := by rw [vr.len, vr.size]; exact hlen
      have hsz1 : g1.size = n := by rw [vr.size]; exact hsz
      have hkR1 : g1.InR k := ⟨hk, by rw [hsz1]; omega⟩
      have hk1R1 : g1.InR (k + 1) := ⟨by omega, by rw [hsz1]; omega⟩
      have hch1 : (g1.nd k).children = [k + 1] := by
        rw [vr.visit_children_eq k hk, hch k hk (by omega), if_pos (by omega)]
      rw [countChildren_ok hlen1 hkR1] at h2
      cases h2
      rw [hch1] at h3
      obtain ⟨v, gA, vis, sB, c1, c2, c3, c4, c5⟩ := childLoop_inv h3
      rw [getChild_ok hlen1 hkR1 (show (g1.nd k).children[0]? = some (k + 1) by rw [hch1]; rfl)]
        at c1
      cases c1
      obtain ⟨gS0, hu, sr⟩ := updateEdge_ok hlen1 hkR1 hk1R1
      simp only [] at c2
      rw [hu] at c2
      cases c2
      have hlenA : (gA.nodes.length : Int) = gA.size := by rw [sr.len, sr.size]; exact hlen1
      have hszA : gA.size = n := by rw [sr.size]; exact hsz1
      have hpre : ∀ x, k + 1 ≤ x → x < n → (gA.nd x).pre < 0 := by
        intro x hx1 hx2
        rw [sr.scan_pre_eq x (by omega), vr.pre_other x (by omega) (by omega)]
        exact hun x (by omega) hx2
      rw [isVisited_ok hlenA (show (0 : Int) ≤ k + 1 by omega)] at c3
      have hvis : vis = false := by
        have := hpre (k + 1) (le_refl _) (by omega)
        have hd : decide (gA.size ≤ k + 1 ∨ 0 ≤ (gA.nd (k + 1)).pre) = false := by
          rw [decide_eq_false_iff_not, hszA]
          omega
        rw [hd] at c3
        cases c3
        rfl
      subst hvis
      simp only [Bool.false_eq_true, if_false] at c4
      obtain ⟨mid, rest, e1, e2, e3⟩ := ih (k + 1) f _ sB (by omega) (by omega) hlenA hszA
        (by
          intro x hx0 hx1
          rw [sr.scan_children_eq x hx0, vr.visit_children_eq x hx0]
          exact hch x hx0 hx1)
        hpre c4
      have c6 : (Except.ok sB : Except Err Run) = .ok s2 := c5
      cases c6
      obtain ⟨r2, e4⟩ := p
      refine ⟨Event.call k s.g :: Event.scan k 0 (k + 1) g1 :: mid, rest ++ r2, ?_, ?_, ?_⟩
      · rw [← e4, e1]
        simp
      · simp [Event.callTarget, e2]
      · intro e he
        rcases List.mem_cons.1 he with h | h
        · rw [h]; rfl
        · rcases List.mem_cons.1 h with h | h
          · rw [h]; rfl
          · exact e3 e h

/-- C23, as stated, fails: on the path graphs with two and with four vertices
the calls of `DFS` nest two deep and four deep; the depth grows with `n`. -/
theorem C23_counterexample :
    pathEdges 2 = [(0, 1)] ∧ pathEdges 4 = [(0, 1), (1, 2), (2, 3)] ∧
    (∃ t, traverse 2 2 (pathEdges 2) = .ok t ∧ maxDepth t.trace = 2) ∧
    (∃ t, traverse 4 4 (pathEdges 4) = .ok t ∧ maxDepth t.trace = 4) :=
  ⟨rfl, rfl, ⟨_, rfl, by decide⟩, ⟨_, rfl, by decide⟩⟩

/-- C23, amended: the traversal is recursion on the call stack.  For `n ≥ 1` the
calls of `DFS` nest at most `n` deep on every edge list with endpoints in
`[0, n)`, and exactly `n` deep on the path graph `0 → 1 → ... → n - 1`. -/
theorem C23_recursion_depth (n : Int) (hn : 1 ≤ n) (fuel : Nat) (hf : n ≤ fuel) :
    (∀ edges : List (Int × Int), (∀ e ∈ edges, 0 ≤ e.1 ∧ e.1 < n ∧ 0 ≤ e.2 ∧ e.2 < n) →
      ∃ t, traverse fuel n edges = .ok t ∧ (maxDepth t.trace : Int) ≤ n) ∧
    ∃ t, traverse fuel n (pathEdges n) = .ok t ∧ (maxDepth t.trace : Int) = n := by
  have upper : ∀ edges : List (Int × Int),
      (∀ e ∈ edges, 0 ≤ e.1 ∧ e.1 < n ∧ 0 ≤ e.2 ∧ e.2 < n) →
      ∃ t, traverse fuel n edges = .ok t ∧ Final n edges t ∧ (maxDepth t.trace : Int) ≤ n := by
    intro edges hE
    obtain ⟨t, ht, fin⟩ := traverse_spec hn hE hf
    refine ⟨t, ht, fin, ?_⟩
    have h1 := maxDepth_le t.trace
    rw [fin.rinv.calls] at h1
    have h2 := final_length fin
    omega
  refine ⟨fun edges hE => ?_, ?_⟩
  · obtain ⟨t, ht, _, h⟩ := upper edges hE
    exact ⟨t, ht, h⟩
  · obtain ⟨t, ht, fin, hle⟩ := upper (pathEdges n) (pathEdges_inR n)
    refine ⟨t, ht, ?_⟩
    obtain ⟨g0, hb, it⟩ := buildGraph_ok (by omega : (0 : Int) ≤ n) (pathEdges_inR n)
    have hD : DFS fuel { g := g0 } 0 = .ok t := by
      have h := ht
      rw [traverse, bind_ok _ _ _ hb] at h
      exact h
    obtain ⟨mid, rest, e1, e2, e3⟩ := path_descent n (n.toNat - 1) 0 fuel { g := g0 } t
      (le_refl _) (by omega) (by rw [it.len, it.size]) it.size
      (by
        intro x hx0 hx1
        rw [it.nd x hx0 hx1]
        exact adj_pathEdges n hn x hx0)
      (by
        intro x hx0 hx1
        rw [it.nd x hx0 hx1]
        show (-1 : Int) < 0
        decide)
      hD
    have hlow := le_maxDepth t.trace mid.length (by rw [e1]; simp)
    have htake : t.trace.take mid.length = mid := by
      rw [e1]
      simp
    rw [htake] at hlow
    have hret : mid.filter Event.isRet = [] := by
      rw [List.filter_eq_nil_iff]
      intro e he
      rw [e3 e he]
      decide
    unfold depth at hlow
    rw [e2, hret] at hlow
    simp only [List.length_nil] at hlow
    omega

/-- Instance of the amended C23 with three vertices. -/
theorem C23_recursion_depth_witness :
    (∀ edges : List (Int × Int), (∀ e ∈ edges, 0 ≤ e.1 ∧ e.1 < 3 ∧ 0 ≤ e.2 ∧ e.2 < 3) →
      ∃ t, traverse 3 3 edges = .ok t ∧ (maxDepth t.trace : Int) ≤ 3) ∧
    ∃ t, traverse 3 3 (pathEdges 3) = .ok t ∧ (maxDepth t.trace : Int) = 3 :=
  C23_recursion_depth 3 (by decide) 3 (by decide)

end DFSLabeling

/-! ## Theorems on the villages program -/

namespace Villages

/-- C15: on one village with the single road `(0, 0)` the program creates a
county for the pair, lowers `villagesRemaining` by two to `-1`, and prints
`-1`; on no villages and no roads it prints `-1` as well.  Neither printed
value is a number of roads. -/
theorem C15_prints_negative :
    main 1 [(0, 0)] = .ok (-1) ∧
    (∃ r, build 1 [(0, 0)] = .ok r ∧ r.numCounties = 1 ∧ r.villagesRemaining = -1 ∧
      r.getNumCounties = 0 ∧ r.directory = [some 0] ∧
      r.store = [some { villages := [0, 0] }]) ∧
    main 0 [] = .ok (-1) ∧
    (∃ r, build 0 [] = .ok r ∧ r.getNumCounties = 0) :=
  ⟨rfl, ⟨_, rfl, rfl, rfl, rfl, rfl, rfl⟩, rfl, ⟨_, rfl, rfl⟩⟩

/-! ### Roads and connectivity -/

theorem Road.symm_road {rs : List (Int × Int)} {x y : Int} (h : Road rs x y) : Road rs y x :=
  Or.symm h

theorem road_snoc (rs : List (Int × Int)) (u v x y : Int) :
    Road (rs ++ [(u, v)]) x y ↔ Road rs x y ∨ (x = u ∧ y = v) ∨ (x = v ∧ y = u) := by
  unfold Road
  simp only [List.mem_append, List.mem_singleton, Prod.mk.injEq]
  tauto

theorem Conn.symm_conn {rs : List (Int × Int)} {x y : Int} (h : Conn rs x y) : Conn rs y x :=
  Relation.ReflTransGen.symmetric (fun _ _ h => Road.symm_road h) h

theorem Conn.trans_conn {rs : List (Int × Int)} {x y z : Int} (h1 : Conn rs x y)
    (h2 : Conn rs y z) : Conn rs x z :=
  Relation.ReflTransGen.trans h1 h2

theorem Conn.rfl_conn (rs : List (Int × Int)) (x : Int) : Conn rs x x :=
  Relation.ReflTransGen.refl

theorem Conn.snoc_mono {rs : List (Int × Int)} (u v : Int) {x y : Int} (h : Conn rs x y) :
    Conn (rs ++ [(u, v)]) x y :=
  Relation.ReflTransGen.mono (fun _ _ h => (road_snoc rs u v _ _).2 (Or.inl h)) h

theorem conn_new (rs : List (Int × Int)) (u v : Int) : Conn (rs ++ [(u, v)]) u v :=
  Relation.ReflTransGen.single ((road_snoc rs u v u v).2 (Or.inr (Or.inl ⟨rfl, rfl⟩)))

theorem conn_snoc (rs : List (Int × Int)) (u v x y : Int) :
    Conn (rs ++ [(u, v)]) x y ↔
      Conn rs x y ∨ (Conn rs x u ∧ Conn rs v y) ∨ (Conn rs x v ∧ Conn rs u y) := by
  constructor
  · intro h
    induction h with
    | refl => exact Or.inl (Conn.rfl_conn rs x)
    | @tail b c _ hbc ih =>
      rcases (road_snoc rs u v b c).1 hbc with hr | ⟨rfl, rfl⟩ | ⟨rfl, rfl⟩
      · have hs : Conn rs b c := Relation.ReflTransGen.single hr
        rcases ih with h | ⟨h1, h2⟩ | ⟨h1, h2⟩
        · exact Or.inl (h.trans_conn hs)
        · exact Or.inr (Or.inl ⟨h1, h2.trans_conn hs⟩)
        · exact Or.inr (Or.inr ⟨h1, h2.trans_conn hs⟩)
      · rcases ih with h | ⟨h1, _⟩ | ⟨h1, _⟩
        · exact Or.inr (Or.inl ⟨h, Conn.rfl_conn rs _⟩)
        · exact Or.inr (Or.inl ⟨h1, Conn.rfl_conn rs _⟩)
        · exact Or.inl h1
      · rcases ih with h | ⟨h1, _⟩ | ⟨h1, _⟩
        · exact Or.inr (Or.inr ⟨h, Conn.rfl_conn rs _⟩)
        · exact Or.inl h1
        · exact Or.inr (Or.inr ⟨h1, Conn.rfl_conn rs _⟩)
  · rintro (h | ⟨h1, h2⟩ | ⟨h1, h2⟩)
    · exact h.snoc_mono u v
    · exact ((h1.snoc_mono u v).trans_conn (conn_new rs u v)).trans_conn (h2.snoc_mono u v)
    · exact ((h1.snoc_mono u v).trans_conn (conn_new rs u v).symm_conn).trans_conn
        (h2.snoc_mono u v)

theorem conn_nil {x y : Int} (h : Conn [] x y) : x = y := by
  induction h with
  | refl => rfl
  | tail _ hbc _ =>
    rcases hbc with h | h
    · simp at h
    · simp at h

/-! ### Counting the components -/

theorem components_nil (n : Int) : Components n [] n.toNat := by
  refine ⟨(List.range n.toNat).map fun (k : Nat) => (k : Int), by simp, ?_, ?_, ?_, ?_⟩
  · exact (List.nodup_range _).map fun a b h => by exact_mod_cast h
  · intro a ha
    obtain ⟨k, hk, rfl⟩ := List.mem_map.1 ha
    have := List.mem_range.1 hk
    omega
  · intro a _ b _ h
    exact conn_nil h
  · intro x h0 h1
    refine ⟨x, List.mem_map.2 ⟨x.toNat, List.mem_range.2 (by omega), by omega⟩,
      Conn.rfl_conn _ _⟩

theorem components_same {n : Int} {rs : List (Int × Int)} {k : Nat} {u v : Int}
    (huv : Conn rs u v) (h : Components n rs k) : Components n (rs ++ [(u, v)]) k := by
  have e : ∀ x y, Conn (rs ++ [(u, v)]) x y ↔ Conn rs x y := by
    intro x y
    rw [conn_snoc]
    constructor
    · rintro (h | ⟨h1, h2⟩ | ⟨h1, h2⟩)
      · exact h
      · exact (h1.trans_conn huv).trans_conn h2
      · exact (h1.trans_conn huv.symm_conn).trans_conn h2
    · exact Or.inl
  obtain ⟨reps, h1, h2, h3, h4, h5⟩ := h
  refine ⟨reps, h1, h2, h3, fun a ha b hb hab => h4 a ha b hb ((e a b).1 hab), ?_⟩
  intro x hx0 hx1
  obtain ⟨a, ha, hc⟩ := h5 x hx0 hx1
  exact ⟨a, ha, (e x a).2 hc⟩

theorem components_join {n : Int} {rs : List (Int × Int)} {k : Nat} {u v : Int}
    (hu : 0 ≤ u ∧ u < n) (hv : 0 ≤ v ∧ v < n) (huv : ¬ Conn rs u v)
    (h : Components n rs k) : ∃ k1 : Nat, k1 + 1 = k ∧ Components n (rs ++ [(u, v)]) k1 := by
  obtain ⟨reps, h1, h2, h3, h4, h5⟩ := h
  obtain ⟨ru, hru, cu⟩ := h5 u hu.1 hu.2
  obtain ⟨rv, hrv, cv⟩ := h5 v hv.1 hv.2
  have hne : ru ≠ rv := by
    intro e
    rw [e] at cu
    exact huv (cu.trans_conn cv.symm_conn)
  have hlen : (reps.erase rv).length + 1 = reps.length := by
    rw [List.length_erase_of_mem hrv]
    have : 0 < reps.length := List.length_pos_of_mem hrv
    omega
  refine ⟨(reps.erase rv).length, by rw [hlen, h1], reps.erase rv, rfl, h2.erase rv, ?_, ?_, ?_⟩
  · intro a ha
    exact h3 a (List.mem_of_mem_erase ha)
  · intro a ha b hb hab
    have ha1 := List.mem_of_mem_erase ha
    have hb1 := List.mem_of_mem_erase hb
    have ha2 : a ≠ rv := fun e => by rw [e] at ha; exact (h2.mem_erase_iff.1 ha).1 rfl
    have hb2 : b ≠ rv := fun e => by rw [e] at hb; exact (h2.mem_erase_iff.1 hb).1 rfl
    rcases (conn_snoc rs u v a b).1 hab with h | ⟨_, hvb⟩ | ⟨hav, _⟩
    · exact h4 a ha1 b hb1 h
    · exact absurd (h4 b hb1 rv hrv (hvb.symm_conn.trans_conn cv)) hb2
    · exact absurd (h4 a ha1 rv hrv (hav.trans_conn cv)) ha2
  · intro x hx0 hx1
    obtain ⟨a, ha, hc⟩ := h5 x hx0 hx1
    by_cases e : a = rv
    · refine ⟨ru, (List.mem_erase_of_ne hne).2 hru, ?_⟩
      rw [e] at hc
      exact (conn_snoc rs u v x ru).2 (Or.inr (Or.inr ⟨hc.trans_conn cv.symm_conn, cu⟩))
    · exact ⟨a, (List.mem_erase_of_ne e).2 ha, hc.snoc_mono u v⟩

theorem components_le {n : Int} {rs : List (Int × Int)} {k k1 : Nat}
    (h : Components n rs k) (h1 : Components n rs k1) : k ≤ k1 := by
  obtain ⟨reps, e1, nd, rng, uniq, _⟩ := h
  obtain ⟨reps1, e2, nd1, _, _, cover1⟩ := h1
  classical
  let f : Int → Int := fun a =>
    if hx : ∃ b ∈ reps1, Conn rs a b then Classical.choose hx else 0
  have hf : ∀ a ∈ reps, f a ∈ reps1 ∧ Conn rs a (f a) := by
    intro a ha
    have hx : ∃ b ∈ reps1, Conn rs a b := cover1 a (rng a ha).1 (rng a ha).2
    have := Classical.choose_spec hx
    simp only [f, dif_pos hx]
    exact this
  have hcard : reps.toFinset.card ≤ reps1.toFinset.card := by
    apply Finset.card_le_card_of_injOn f
    · intro a ha
      have ha1 : a ∈ reps := List.mem_toFinset.1 (Finset.mem_coe.1 ha)
      exact Finset.mem_coe.2 (List.mem_toFinset.2 (hf a ha1).1)
    · intro a ha b hb hab
      have ha1 : a ∈ reps := List.mem_toFinset.1 (Finset.mem_coe.1 ha)
      have hb1 : b ∈ reps := List.mem_toFinset.1 (Finset.mem_coe.1 hb)
      have c1 := (hf a ha1).2
      have c2 := (hf b hb1).2
      rw [hab] at c1
      exact uniq a ha1 b hb1 (c1.trans_conn c2.symm_conn)
  rw [List.toFinset_card_of_nodup nd, List.toFinset_card_of_nodup nd1] at hcard
  omega

theorem components_unique {n : Int} {rs : List (Int × Int)} {k k1 : Nat}
    (h : Components n rs k) (h1 : Components n rs k1) : k = k1 :=
  Nat.le_antisymm (components_le h h1) (components_le h1 h)
/-! ### The directory as a labelling of the components -/

theorem same_none_left (D : Int → Option Nat) {u : Int} (hu : D u = none) (x : Int) :
    (x = u ∨ ∃ c, D x = some c ∧ D u = some c) ↔ x = u := by
  simp [hu]

theorem same_none_right (D : Int → Option Nat) {u : Int} (hu : D u = none) (y : Int) :
    (u = y ∨ ∃ c, D u = some c ∧ D y = some c) ↔ u = y := by
  simp [hu]

theorem same_some_left (D : Int → Option Nat) {u : Int} {uc : Nat} (hu : D u = some uc)
    (x : Int) : (x = u ∨ ∃ c, D x = some c ∧ D u = some c) ↔ D x = some uc := by
  constructor
  · rintro (rfl | ⟨c, h1, h2⟩)
    · exact hu
    · rw [hu] at h2; rw [h1, h2]
  · intro h; exact Or.inr ⟨uc, h, hu⟩

theorem same_some_right (D : Int → Option Nat) {u : Int} {uc : Nat} (hu : D u = some uc)
    (y : Int) : (u = y ∨ ∃ c, D u = some c ∧ D y = some c) ↔ D y = some uc := by
  constructor
  · rintro (rfl | ⟨c, h1, h2⟩)
    · exact hu
    · rw [hu] at h1; rw [h2, h1]
  · intro h; exact Or.inr ⟨uc, hu, h⟩

theorem same_step_NN (D D' : Int → Option Nat) (u v : Int) (new : Nat) (huv : u ≠ v)
    (hu : D u = none) (hv : D v = none) (hfresh : ∀ y, D y ≠ some new)
    (hD' : ∀ y, D' y = if y = u ∨ y = v then some new else D y) (x y : Int) :
    (x = y ∨ ∃ c, D' x = some c ∧ D' y = some c) ↔
      ((x = y ∨ ∃ c, D x = some c ∧ D y = some c) ∨
        ((x = u ∨ ∃ c, D x = some c ∧ D u = some c) ∧
          (v = y ∨ ∃ c, D v = some c ∧ D y = some c)) ∨
        ((x = v ∨ ∃ c, D x = some c ∧ D v = some c) ∧
          (u = y ∨ ∃ c, D u = some c ∧ D y = some c))) := by
  rw [same_none_left D hu, same_none_left D hv, same_none_right D hu, same_none_right D hv,
    hD' x, hD' y]
  have fx := hfresh x
  have fy := hfresh y
  by_cases ex : x = y
  · simp [ex]
  · by_cases hxu : x = u <;> by_cases hxv : x = v <;> by_cases hyu : y = u <;>
      by_cases hyv : y = v <;>
      simp only [hxu, hxv, hyu, hyv, or_true, true_or, or_false, false_or, if_true, if_false,
        true_and, and_true, false_and, and_false, eq_self, Option.some.injEq, exists_eq_left',
        exists_eq_left, exists_eq', iff_true, true_iff, exists_eq] <;>
      (try omega) <;>
      (rcases hx : D x with _ | a <;> rcases hy : D y with _ | b <;>
        simp only [hx, hy, ne_eq, Option.some.injEq, reduceCtorEq, not_false_eq_true,
          not_true_eq_false] at fx fy hu hv ⊢ <;>
        simp_all <;> omega)

theorem same_step_NS (D D' : Int → Option Nat) (u v : Int) (vc : Nat)
    (hu : D u = none) (hv : D v = some vc)
    (hD' : ∀ y, D' y = if y = u then some vc else D y) (x y : Int) :
    (x = y ∨ ∃ c, D' x = some c ∧ D' y = some c) ↔
      ((x = y ∨ ∃ c, D x = some c ∧ D y = some c) ∨
        ((x = u ∨ ∃ c, D x = some c ∧ D u = some c) ∧
          (v = y ∨ ∃ c, D v = some c ∧ D y = some c)) ∨
        ((x = v ∨ ∃ c, D x = some c ∧ D v = some c) ∧
          (u = y ∨ ∃ c, D u = some c ∧ D y = some c))) := by
  rw [same_none_left D hu, same_some_left D hv, same_none_right D hu, same_some_right D hv,
    hD' x, hD' y]
  by_cases ex : x = y
  · simp [ex]
  · by_cases hxu : x = u <;> by_cases hyu : y = u <;>
      simp only [hxu, hyu, or_true, true_or, or_false, false_or, if_true, if_false,
        true_and, and_true, false_and, and_false, eq_self, Option.some.injEq, exists_eq_left',
        exists_eq_left, exists_eq', iff_true, true_iff, exists_eq] <;>
      (rcases hx : D x with _ | a <;> rcases hy : D y with _ | b <;>
        simp only [hx, hy, ne_eq, Option.some.injEq, reduceCtorEq, not_false_eq_true,
          not_true_eq_false] at hu hv ⊢ <;>
        simp_all <;> omega)

theorem same_step_SN (D D' : Int → Option Nat) (u v : Int) (uc : Nat)
    (hu : D u = some uc) (hv : D v = none)
    (hD' : ∀ y, D' y = if y = v then some uc else D y) (x y : Int) :
    (x = y ∨ ∃ c, D' x = some c ∧ D' y = some c) ↔
      ((x = y ∨ ∃ c, D x = some c ∧ D y = some c) ∨
        ((x = u ∨ ∃ c, D x = some c ∧ D u = some c) ∧
          (v = y ∨ ∃ c, D v = some c ∧ D y = some c)) ∨
        ((x = v ∨ ∃ c, D x = some c ∧ D v = some c) ∧
          (u = y ∨ ∃ c, D u = some c ∧ D y = some c))) := by
  rw [same_some_left D hu, same_none_left D hv, same_some_right D hu, same_none_right D hv,
    hD' x, hD' y]
  by_cases ex : x = y
  · simp [ex]
  · by_cases hxv : x = v <;> by_cases hyv : y = v <;>
      simp only [hxv, hyv, or_true, true_or, or_false, false_or, if_true, if_false,
        true_and, and_true, false_and, and_false, eq_self, Option.some.injEq, exists_eq_left',
        exists_eq_left, exists_eq', iff_true, true_iff, exists_eq] <;>
      (rcases hx : D x with _ | a <;> rcases hy : D y with _ | b <;>
        simp only [hx, hy, ne_eq, Option.some.injEq, reduceCtorEq, not_false_eq_true,
          not_true_eq_false] at hu hv ⊢ <;>
        simp_all <;> omega)

theorem same_step_SS (D D' : Int → Option Nat) (u v : Int) (uc vc : Nat) (hu : D u = some uc)
    (hv : D v = some vc)
    (hD' : ∀ y, D' y = if D y = some vc then some uc else D y) (x y : Int) :
    (x = y ∨ ∃ c, D' x = some c ∧ D' y = some c) ↔
      ((x = y ∨ ∃ c, D x = some c ∧ D y = some c) ∨
        ((x = u ∨ ∃ c, D x = some c ∧ D u = some c) ∧
          (v = y ∨ ∃ c, D v = some c ∧ D y = some c)) ∨
        ((x = v ∨ ∃ c, D x = some c ∧ D v = some c) ∧
          (u = y ∨ ∃ c, D u = some c ∧ D y = some c))) := by
  rw [same_some_left D hu, same_some_left D hv, same_some_right D hu, same_some_right D hv,
    hD' x, hD' y]
  by_cases ex : x = y
  · simp [ex]
  · rcases hx : D x with _ | a <;> rcases hy : D y with _ | b
    all_goals
      simp only [ex, false_or, Option.some.injEq, reduceCtorEq, if_false, false_and, and_false,
        exists_false, or_false, exists_eq_left', exists_eq_left]
    all_goals try split_ifs
    all_goals
      try simp only [Option.some.injEq, reduceCtorEq, exists_false, false_and, and_false,
        exists_eq_left', exists_eq_left, false_iff, not_or, not_and, iff_false, true_iff,
        or_false, false_or, eq_self, and_true, true_and, exists_eq', iff_true]
    all_goals try omega

/-! ### Reading and writing the directory -/

theorem dir_range {r : Region} {x : Int} {c : Nat} (h : r.dir x = some c) :
    0 ≤ x ∧ x.toNat < r.directory.length := by
  unfold Region.dir at h
  by_cases h0 : 0 ≤ x
  · rw [if_pos h0] at h
    refine ⟨h0, ?_⟩
    by_contra hlt
    rw [List.getD_eq_getElem?_getD, List.getElem?_eq_none (by omega)] at h
    exact absurd h (by simp)
  · rw [if_neg h0] at h
    exact absurd h (by simp)

theorem dirGet_ok {r : Region} {x : Int} (h0 : 0 ≤ x) (h1 : x.toNat < r.directory.length) :
    r.dirGet x = .ok (r.dir x) := by
  unfold Region.dirGet Region.dir
  rw [if_pos h0, if_pos h0, List.getD_eq_getElem?_getD, List.getElem?_eq_getElem h1]
  rfl

theorem dirSet_ok {r : Region} {x : Int} (h0 : 0 ≤ x) (h1 : x.toNat < r.directory.length)
    (c : Nat) :
    r.dirSet x c = .ok { r with directory := r.directory.set x.toNat (some c) } := by
  unfold Region.dirSet
  rw [if_pos ⟨h0, h1⟩]

theorem dir_set (r : Region) {x : Int} (h0 : 0 ≤ x) (h1 : x.toNat < r.directory.length)
    (c : Nat) (y : Int) :
    Region.dir { r with directory := r.directory.set x.toNat (some c) } y
      = if y = x then some c else r.dir y := by
  unfold Region.dir
  by_cases hy : 0 ≤ y
  · rw [if_pos hy, if_pos hy]
    by_cases e : y = x
    · subst e
      simp [List.getD_eq_getElem?_getD, List.getElem?_set, h1]
    · have e1 : x.toNat ≠ y.toNat := by omega
      simp [List.getD_eq_getElem?_getD, List.getElem?_set, e, e1]
  · rw [if_neg hy, if_neg hy, if_neg (by omega)]

theorem redirect_ok (c : Nat) : ∀ (ws : List Int) (r : Region),
    (∀ w ∈ ws, 0 ≤ w ∧ w.toNat < r.directory.length) →
    ∃ r1, redirect c ws r = .ok r1 ∧ r1.store = r.store ∧ r1.numCounties = r.numCounties ∧
      r1.villagesRemaining = r.villagesRemaining ∧
      r1.directory.length = r.directory.length ∧
      ∀ y, r1.dir y = if y ∈ ws then some c else r.dir y := by
  intro ws
  induction ws with
  | nil =>
    intro r _
    exact ⟨r, rfl, rfl, rfl, rfl, rfl, fun y => by simp⟩
  | cons w ws ih =>
    intro r h
    obtain ⟨h0, h1⟩ := h w (List.mem_cons_self _ _)
    obtain ⟨r1, e1, e2, e3, e4, e5, e6⟩ :=
      ih { r with directory := r.directory.set w.toNat (some c) } (by
        intro w' hw'
        simp only [List.length_set]
        exact h w' (List.mem_cons_of_mem _ hw'))
    refine ⟨r1, ?_, e2, e3, e4, by rw [e5]; simp, ?_⟩
    · rw [redirect, DFSLabeling.bind_ok _ _ _ (dirSet_ok h0 h1 c)]
      exact e1
    · intro y
      rw [e6 y, dir_set r h0 h1 c y]
      by_cases hy : y ∈ ws
      · simp [hy]
      · by_cases e : y = w
        · simp [e]
        · simp [hy, e]

theorem mem_mergeRun (x : Int) (rest : List Int → List Int) (xs : List Int)
    (hrest : ∀ ys a, a ∈ rest ys ↔ a ∈ xs ∨ a ∈ ys) :
    ∀ ys a, a ∈ mergeRun x rest ys ↔ a = x ∨ a ∈ xs ∨ a ∈ ys := by
  intro ys
  induction ys with
  | nil =>
    intro a
    simp [mergeRun, hrest]
  | cons y ys ih =>
    intro a
    unfold mergeRun
    by_cases h : y < x
    · rw [if_pos h, List.mem_cons, ih a, List.mem_cons]
      tauto
    · rw [if_neg h, List.mem_cons, hrest, List.mem_cons]

theorem mem_mergeLists : ∀ (xs ys : List Int) (a : Int),
    a ∈ mergeLists xs ys ↔ a ∈ xs ∨ a ∈ ys := by
  intro xs
  induction xs with
  | nil => intro ys a; simp [mergeLists]
  | cons x xs ih =>
    intro ys a
    rw [mergeLists, mem_mergeRun x (mergeLists xs) xs ih, List.mem_cons]
    tauto

theorem county_ok {r : Region} {c : Nat} {k : County} (h : r.store[c]? = some (some k)) :
    r.county c = .ok k := by
  unfold Region.county
  rw [h]

/-! ### The invariant of the region -/

theorem regInv_new (n : Int) (hn : 0 ≤ n) :
    ∃ r, Region.new n = .ok r ∧ RegInv n [] r := by
  refine ⟨{ directory := List.replicate n.toNat none, villagesRemaining := n }, ?_, ?_⟩
  · unfold Region.new
    rw [if_pos hn]
  · have hd : ∀ x, Region.dir (Region.mk (List.replicate n.toNat none) 0 n []) x = none := by
      intro x
      unfold Region.dir
      by_cases h0 : 0 ≤ x
      · rw [if_pos h0, List.getD_eq_getElem?_getD]
        by_cases h1 : x.toNat < n.toNat
        · simp [List.getElem?_replicate, h1]
        · simp [List.getElem?_replicate, h1]
      · rw [if_neg h0]
    refine ⟨?_, ?_, ?_, ?_, ?_, ?_⟩
    · simp only [List.length_replicate]; omega
    · intro x c h
      rw [hd] at h
      exact absurd h (by simp)
    · intro c k w h
      simp at h
    · intro x y
      rw [hd, hd]
      constructor
      · intro h; exact Or.inl (conn_nil h)
      · rintro (rfl | ⟨c, h, _⟩)
        · exact Conn.rfl_conn _ _
        · exact absurd h (by simp)
    · intro x
      rw [hd]
      constructor
      · rintro ⟨c, h⟩; exact absurd h (by simp)
      · rintro ⟨y, h | h⟩ <;> simp at h
    · refine ⟨n.toNat, ?_, components_nil n⟩
      show (0 : Int) + n = (n.toNat : Int)
      omega

/-- The invariant after a road between two villages that the directory does
not put in one county, from what the step does to the directory. -/
theorem regInv_join {n : Int} {rs : List (Int × Int)} {r r1 : Region} {u v : Int}
    (I : RegInv n rs r) (hu : 0 ≤ u ∧ u < n) (hv : 0 ≤ v ∧ v < n) (huv : u ≠ v)
    (hnot : ¬ ∃ c, r.dir u = some c ∧ r.dir v = some c)
    (hlen : (r1.directory.length : Int) = n)
    (hlive : ∀ x c, r1.dir x = some c → ∃ k, r1.store[c]? = some (some k) ∧ x ∈ k.villages)
    (hmem : ∀ c k w, r1.store[c]? = some (some k) → w ∈ k.villages → r1.dir w = some c)
    (hsame : ∀ x y, (x = y ∨ ∃ c, r1.dir x = some c ∧ r1.dir y = some c) ↔
      ((x = y ∨ ∃ c, r.dir x = some c ∧ r.dir y = some c) ∨
        ((x = u ∨ ∃ c, r.dir x = some c ∧ r.dir u = some c) ∧
          (v = y ∨ ∃ c, r.dir v = some c ∧ r.dir y = some c)) ∨
        ((x = v ∨ ∃ c, r.dir x = some c ∧ r.dir v = some c) ∧
          (u = y ∨ ∃ c, r.dir u = some c ∧ r.dir y = some c))))
    (hass : ∀ x, (∃ c, r1.dir x = some c) ↔ ((∃ c, r.dir x = some c) ∨ x = u ∨ x = v))
    (hcnt : r1.getNumCounties = r.getNumCounties - 1) :
    RegInv n (rs ++ [(u, v)]) r1 := by
  refine ⟨hlen, hlive, hmem, ?_, ?_, ?_⟩
  · intro x y
    rw [conn_snoc, hsame, I.conn, I.conn, I.conn, I.conn, I.conn]
  · intro x
    rw [hass, I.assigned]
    constructor
    · rintro (⟨y, h⟩ | rfl | rfl)
      · exact ⟨y, (road_snoc rs u v x y).2 (Or.inl h)⟩
      · exact ⟨v, (road_snoc rs x v x v).2 (Or.inr (Or.inl ⟨rfl, rfl⟩))⟩
      · exact ⟨u, (road_snoc rs u x x u).2 (Or.inr (Or.inr ⟨rfl, rfl⟩))⟩
    · rintro ⟨y, h⟩
      rcases (road_snoc rs u v x y).1 h with h | ⟨h, _⟩ | ⟨h, _⟩
      · exact Or.inl ⟨y, h⟩
      · exact Or.inr (Or.inl h)
      · exact Or.inr (Or.inr h)
  · obtain ⟨k, hk, hc⟩ := I.count
    have hn : ¬ Conn rs u v := by
      intro h
      rcases (I.conn u v).1 h with e | e
      · exact huv e
      · exact hnot e
    obtain ⟨k1, e1, hc1⟩ := components_join hu hv hn hc
    refine ⟨k1, ?_, hc1⟩
    rw [hcnt, hk]
    omega
theorem dir_congr {r r1 : Region} (h : r1.directory = r.directory) (y : Int) :
    r1.dir y = r.dir y := by
  unfold Region.dir
  rw [h]

theorem regInv_lens {n : Int} {rs : List (Int × Int)} {r : Region} (I : RegInv n rs r)
    {u : Int} (hu : 0 ≤ u ∧ u < n) : u.toNat < r.directory.length := by
  have := I.len
  omega

theorem addRoad_NN {n : Int} {rs : List (Int × Int)} {r : Region} {u v : Int}
    (I : RegInv n rs r) (hu : 0 ≤ u ∧ u < n) (hv : 0 ≤ v ∧ v < n) (huv : u ≠ v)
    (du : r.dir u = none) (dv : r.dir v = none) :
    ∃ r1, r.addRoad u v = .ok r1 ∧ RegInv n (rs ++ [(u, v)]) r1 := by
  have hul := regInv_lens I hu
  have hvl := regInv_lens I hv
  have gu : r.dirGet u = .ok none := by rw [dirGet_ok hu.1 hul, du]
  have gv : r.dirGet v = .ok none := by rw [dirGet_ok hv.1 hvl, dv]
  have hvl2 : v.toNat < (r.directory.set u.toNat (some r.store.length)).length := by
    rw [List.length_set]; exact hvl
  refine ⟨Region.mk ((r.directory.set u.toNat (some r.store.length)).set v.toNat
    (some r.store.length)) (r.numCounties + 1) (r.villagesRemaining - 2)
    (r.store ++ [some (County.new u v)]), ?_, ?_⟩
  · unfold Region.addRoad
    rw [DFSLabeling.bind_ok _ _ _ gu, DFSLabeling.bind_ok _ _ _ gv]
    dsimp only
    rw [DFSLabeling.bind_ok _ _ _ (dirSet_ok (r := { r with store :=
      r.store ++ [some (County.new u v)] }) hu.1 hul r.store.length)]
    rw [DFSLabeling.bind_ok _ _ _ (dirSet_ok (r := Region.mk
      (r.directory.set u.toNat (some r.store.length)) r.numCounties r.villagesRemaining
      (r.store ++ [some (County.new u v)])) hv.1 hvl2 r.store.length)]
  · have hD : ∀ y, Region.dir (Region.mk ((r.directory.set u.toNat (some r.store.length)).set
        v.toNat (some r.store.length)) (r.numCounties + 1) (r.villagesRemaining - 2)
        (r.store ++ [some (County.new u v)])) y
        = if y = u ∨ y = v then some r.store.length else r.dir y := by
      intro y
      have h1 := dir_set (Region.mk (r.directory.set u.toNat (some r.store.length))
        r.numCounties r.villagesRemaining r.store) hv.1 hvl2 r.store.length y
      have h2 := dir_set r hu.1 hul r.store.length y
      have h3 : Region.dir (Region.mk (r.directory.set u.toNat (some r.store.length))
          r.numCounties r.villagesRemaining r.store) y
          = if y = u then some r.store.length else r.dir y := h2
      rw [h3] at h1
      refine Eq.trans (dir_congr rfl y) (h1.trans ?_)
      by_cases e1 : y = v
      · simp [e1]
      · by_cases e2 : y = u
        · simp [e2]
        · simp [e1, e2]
    have hfresh : ∀ y, r.dir y ≠ some r.store.length := by
      intro y h
      obtain ⟨k, hk, _⟩ := I.live y _ h
      rw [List.getElem?_eq_none (le_refl _)] at hk
      exact absurd hk (by simp)
    apply regInv_join I hu hv huv (by rw [du]; simp)
    · show ((List.length (List.set (List.set r.directory u.toNat (some r.store.length))
        v.toNat (some r.store.length)) : Nat) : Int) = n
      rw [List.length_set, List.length_set]
      exact I.len
    · intro x c hx
      rw [hD] at hx
      show ∃ k, (r.store ++ [some (County.new u v)])[c]? = some (some k) ∧ x ∈ k.villages
      by_cases e : x = u ∨ x = v
      · rw [if_pos e] at hx
        have ec : c = r.store.length := (Option.some.inj hx).symm
        subst ec
        refine ⟨County.new u v, by simp, ?_⟩
        rcases e with e | e
        · rw [e]; simp [County.new]
        · rw [e]; simp [County.new]
      · rw [if_neg e] at hx
        obtain ⟨k, hk, hm⟩ := I.live x c hx
        have hc : c < r.store.length := by
          by_contra hge
          rw [List.getElem?_eq_none (by omega)] at hk
          exact absurd hk (by simp)
        exact ⟨k, by rw [List.getElem?_append_left hc]; exact hk, hm⟩
    · intro c k w hk hw
      rw [hD]
      change (r.store ++ [some (County.new u v)])[c]? = some (some k) at hk
      by_cases hc : c < r.store.length
      · rw [List.getElem?_append_left hc] at hk
        have hw1 := I.members c k w hk hw
        have e : ¬ (w = u ∨ w = v) := by
          rintro (e | e)
          · rw [e, du] at hw1; exact absurd hw1 (by simp)
          · rw [e, dv] at hw1; exact absurd hw1 (by simp)
        rw [if_neg e]
        exact hw1
      · by_cases hc2 : c = r.store.length
        · subst hc2
          simp only [List.getElem?_concat_length, Option.some.injEq] at hk
          rw [← hk] at hw
          simp only [County.new, List.mem_cons, List.mem_singleton, List.not_mem_nil,
            or_false] at hw
          rw [if_pos hw]
        · rw [List.getElem?_eq_none (by simp; omega)] at hk
          exact absurd hk (by simp)
    · exact same_step_NN r.dir _ u v r.store.length huv du dv hfresh hD
    · intro x
      rw [hD]
      by_cases e : x = u ∨ x = v
      · rw [if_pos e]
        constructor
        · intro _; exact Or.inr e
        · intro _; exact ⟨_, rfl⟩
      · rw [if_neg e]
        constructor
        · intro h; exact Or.inl h
        · rintro (h | h)
          · exact h
          · exact absurd h e
    · show r.numCounties + 1 + (r.villagesRemaining - 2)
        = r.numCounties + r.villagesRemaining - 1
      omega
theorem store_lt {l : List (Option County)} {i : Nat} {a : Option County}
    (h : l[i]? = some a) : i < l.length := by
  by_contra hge
  rw [List.getElem?_eq_none (by omega)] at h
  exact absurd h (by simp)

theorem store_set_self {l : List (Option County)} {i : Nat} (h : i < l.length)
    (a : Option County) : (l.set i a)[i]? = some a := by
  simp [List.getElem?_set, h]

theorem store_set_ne {l : List (Option County)} {i j : Nat} (h : i ≠ j) (a : Option County) :
    (l.set i a)[j]? = l[j]? := by
  simp [List.getElem?_set, h]

theorem addRoad_NS {n : Int} {rs : List (Int × Int)} {r : Region} {u v : Int} {vc : Nat}
    (I : RegInv n rs r) (hu : 0 ≤ u ∧ u < n) (hv : 0 ≤ v ∧ v < n) (huv : u ≠ v)
    (du : r.dir u = none) (dv : r.dir v = some vc) :
    ∃ r1, r.addRoad u v = .ok r1 ∧ RegInv n (rs ++ [(u, v)]) r1 := by
  have hul := regInv_lens I hu
  have hvl := regInv_lens I hv
  have gu : r.dirGet u = .ok none := by rw [dirGet_ok hu.1 hul, du]
  have gv : r.dirGet v = .ok (some vc) := by rw [dirGet_ok hv.1 hvl, dv]
  obtain ⟨k, hk, hvk⟩ := I.live v vc dv
  have hvc := store_lt hk
  refine ⟨Region.mk (r.directory.set u.toNat (some vc)) r.numCounties
    (r.villagesRemaining - 1) (r.store.set vc (some (k.addVillage u))), ?_, ?_⟩
  · unfold Region.addRoad
    rw [DFSLabeling.bind_ok _ _ _ gu, DFSLabeling.bind_ok _ _ _ gv]
    dsimp only
    rw [DFSLabeling.bind_ok _ _ _ (county_ok hk)]
    rw [DFSLabeling.bind_ok _ _ _ (dirSet_ok (r := Region.mk r.directory r.numCounties
      r.villagesRemaining (r.store.set vc (some (k.addVillage u)))) hu.1 hul vc)]
  · have hD : ∀ y, Region.dir (Region.mk (r.directory.set u.toNat (some vc)) r.numCounties
        (r.villagesRemaining - 1) (r.store.set vc (some (k.addVillage u)))) y
        = if y = u then some vc else r.dir y := by
      intro y
      exact Eq.trans (dir_congr rfl y) (dir_set r hu.1 hul vc y)
    apply regInv_join I hu hv huv (by rw [du]; simp)
    · show ((List.length (List.set r.directory u.toNat (some vc)) : Nat) : Int) = n
      rw [List.length_set]
      exact I.len
    · intro x c hx
      rw [hD] at hx
      show ∃ k1, (r.store.set vc (some (k.addVillage u)))[c]? = some (some k1) ∧
        x ∈ k1.villages
      by_cases e : x = u
      · rw [if_pos e] at hx
        have ec : c = vc := (Option.some.inj hx).symm
        subst ec
        exact ⟨_, store_set_self hvc _, by rw [e]; simp [County.addVillage]⟩
      · rw [if_neg e] at hx
        obtain ⟨k0, hk0, hm⟩ := I.live x c hx
        by_cases ec : c = vc
        · subst ec
          rw [hk] at hk0
          have : k = k0 := Option.some.inj (Option.some.inj hk0)
          subst this
          exact ⟨_, store_set_self hvc _, by simp [County.addVillage, hm]⟩
        · exact ⟨k0, by rw [store_set_ne (fun h => ec h.symm)]; exact hk0, hm⟩
    · intro c k1 w hk1 hw
      rw [hD]
      change (r.store.set vc (some (k.addVillage u)))[c]? = some (some k1) at hk1
      by_cases ec : c = vc
      · subst ec
        rw [store_set_self hvc] at hk1
        have : k.addVillage u = k1 := Option.some.inj (Option.some.inj hk1)
        subst this
        simp only [County.addVillage, List.mem_append, List.mem_singleton] at hw
        by_cases e : w = u
        · rw [if_pos e]
        · rw [if_neg e]
          rcases hw with hw | hw
          · exact I.members _ k w hk hw
          · exact absurd hw e
      · rw [store_set_ne (fun h => ec h.symm)] at hk1
        have hw1 := I.members c k1 w hk1 hw
        have e : w ≠ u := by
          intro e
          rw [e, du] at hw1
          exact absurd hw1 (by simp)
        rw [if_neg e]
        exact hw1
    · exact same_step_NS r.dir _ u v vc du dv hD
    · intro x
      rw [hD]
      by_cases e : x = u
      · rw [if_pos e]
        constructor
        · intro _; exact Or.inr (Or.inl e)
        · intro _; exact ⟨_, rfl⟩
      · rw [if_neg e]
        constructor
        · intro h; exact Or.inl h
        · rintro (h | h | h)
          · exact h
          · exact absurd h e
          · rw [h]; exact ⟨vc, dv⟩
    · show r.numCounties + (r.villagesRemaining - 1)
        = r.numCounties + r.villagesRemaining - 1
      omega

theorem addRoad_SN {n : Int} {rs : List (Int × Int)} {r : Region} {u v : Int} {uc : Nat}
    (I : RegInv n rs r) (hu : 0 ≤ u ∧ u < n) (hv : 0 ≤ v ∧ v < n) (huv : u ≠ v)
    (du : r.dir u = some uc) (dv : r.dir v = none) :
    ∃ r1, r.addRoad u v = .ok r1 ∧ RegInv n (rs ++ [(u, v)]) r1 := by
  have hul := regInv_lens I hu
  have hvl := regInv_lens I hv
  have gu : r.dirGet u = .ok (some uc) := by rw [dirGet_ok hu.1 hul, du]
  have gv : r.dirGet v = .ok none := by rw [dirGet_ok hv.1 hvl, dv]
  obtain ⟨k, hk, huk⟩ := I.live u uc du
  have huc := store_lt hk
  refine ⟨Region.mk (r.directory.set v.toNat (some uc)) r.numCounties
    (r.villagesRemaining - 1) (r.store.set uc (some (k.addVillage v))), ?_, ?_⟩
  · unfold Region.addRoad
    rw [DFSLabeling.bind_ok _ _ _ gu, DFSLabeling.bind_ok _ _ _ gv]
    dsimp only
    rw [DFSLabeling.bind_ok _ _ _ (county_ok hk)]
    rw [DFSLabeling.bind_ok _ _ _ (dirSet_ok (r := Region.mk r.directory r.numCounties
      r.villagesRemaining (r.store.set uc (some (k.addVillage v)))) hv.1 hvl uc)]
  · have hD : ∀ y, Region.dir (Region.mk (r.directory.set v.toNat (some uc)) r.numCounties
        (r.villagesRemaining - 1) (r.store.set uc (some (k.addVillage v)))) y
        = if y = v then some uc else r.dir y := by
      intro y
      exact Eq.trans (dir_congr rfl y) (dir_set r hv.1 hvl uc y)
    apply regInv_join I hu hv huv (by rw [dv]; simp)
    · show ((List.length (List.set r.directory v.toNat (some uc)) : Nat) : Int) = n
      rw [List.length_set]
      exact I.len
    · intro x c hx
      rw [hD] at hx
      show ∃ k1, (r.store.set uc (some (k.addVillage v)))[c]? = some (some k1) ∧
        x ∈ k1.villages
      by_cases e : x = v
      · rw [if_pos e] at hx
        have ec : c = uc := (Option.some.inj hx).symm
        subst ec
        exact ⟨_, store_set_self huc _, by rw [e]; simp [County.addVillage]⟩
      · rw [if_neg e] at hx
        obtain ⟨k0, hk0, hm⟩ := I.live x c hx
        by_cases ec : c = uc
        · subst ec
          rw [hk] at hk0
          have : k = k0 := Option.some.inj (Option.some.inj hk0)
          subst this
          exact ⟨_, store_set_self huc _, by simp [County.addVillage, hm]⟩
        · exact ⟨k0, by rw [store_set_ne (fun h => ec h.symm)]; exact hk0, hm⟩
    · intro c k1 w hk1 hw
      rw [hD]
      change (r.store.set uc (some (k.addVillage v)))[c]? = some (some k1) at hk1
      by_cases ec : c = uc
      · subst ec
        rw [store_set_self huc] at hk1
        have : k.addVillage v = k1 := Option.some.inj (Option.some.inj hk1)
        subst this
        simp only [County.addVillage, List.mem_append, List.mem_singleton] at hw
        by_cases e : w = v
        · rw [if_pos e]
        · rw [if_neg e]
          rcases hw with hw | hw
          · exact I.members _ k w hk hw
          · exact absurd hw e
      · rw [store_set_ne (fun h => ec h.symm)] at hk1
        have hw1 := I.members c k1 w hk1 hw
        have e : w ≠ v := by
          intro e
          rw [e, dv] at hw1
          exact absurd hw1 (by simp)
        rw [if_neg e]
        exact hw1
    · exact same_step_SN r.dir _ u v uc du dv hD
    · intro x
      rw [hD]
      by_cases e : x = v
      · rw [if_pos e]
        constructor
        · intro _; exact Or.inr (Or.inr e)
        · intro _; exact ⟨_, rfl⟩
      · rw [if_neg e]
        constructor
        · intro h; exact Or.inl h
        · rintro (h | h | h)
          · exact h
          · rw [h]; exact ⟨uc, du⟩
          · exact absurd h e
    · show r.numCounties + (r.villagesRemaining - 1)
        = r.numCounties + r.villagesRemaining - 1
      omega
theorem addRoad_SS {n : Int} {rs : List (Int × Int)} {r : Region} {u v : Int} {uc vc : Nat}
    (I : RegInv n rs r) (hu : 0 ≤ u ∧ u < n) (hv : 0 ≤ v ∧ v < n) (huv : u ≠ v)
    (du : r.dir u = some uc) (dv : r.dir v = some vc) (hne : uc ≠ vc) :
    ∃ r1, r.addRoad u v = .ok r1 ∧ RegInv n (rs ++ [(u, v)]) r1 := by
  have hul := regInv_lens I hu
  have hvl := regInv_lens I hv
  have gu : r.dirGet u = .ok (some uc) := by rw [dirGet_ok hu.1 hul, du]
  have gv : r.dirGet v = .ok (some vc) := by rw [dirGet_ok hv.1 hvl, dv]
  obtain ⟨ku, hku, _⟩ := I.live u uc du
  obtain ⟨kv, hkv, _⟩ := I.live v vc dv
  have huc := store_lt hku
  have hvc := store_lt hkv
  obtain ⟨r1, e1, e2, e3, e4, e5, e6⟩ := redirect_ok uc kv.villages r
    (fun w hw => dir_range (I.members vc kv w hkv hw))
  have hin : ∀ y, y ∈ kv.villages ↔ r.dir y = some vc := by
    intro y
    constructor
    · exact I.members vc kv y hkv
    · intro h
      obtain ⟨k0, hk0, hm⟩ := I.live y vc h
      rw [hkv] at hk0
      have : kv = k0 := Option.some.inj (Option.some.inj hk0)
      rw [this]
      exact hm
  have hku1 : r1.store[uc]? = some (some ku) := by rw [e2]; exact hku
  refine ⟨Region.mk r1.directory (r1.numCounties - 1) r1.villagesRemaining
    ((r1.store.set uc (some (ku.mergeCounties kv.villages))).set vc none), ?_, ?_⟩
  · unfold Region.addRoad
    rw [DFSLabeling.bind_ok _ _ _ gu, DFSLabeling.bind_ok _ _ _ gv]
    dsimp only
    rw [if_pos hne, DFSLabeling.bind_ok _ _ _ (county_ok hkv), DFSLabeling.bind_ok _ _ _ e1,
      DFSLabeling.bind_ok _ _ _ (county_ok hku1)]
  · have hD : ∀ y, Region.dir (Region.mk r1.directory (r1.numCounties - 1)
        r1.villagesRemaining
        ((r1.store.set uc (some (ku.mergeCounties kv.villages))).set vc none)) y
        = if r.dir y = some vc then some uc else r.dir y := by
      intro y
      refine Eq.trans (dir_congr (r := r1) rfl y) ?_
      rw [e6 y]
      by_cases h : y ∈ kv.villages
      · rw [if_pos h, if_pos ((hin y).1 h)]
      · rw [if_neg h, if_neg (fun h1 => h ((hin y).2 h1))]
    have hst : ∀ c, ((r1.store.set uc (some (ku.mergeCounties kv.villages))).set vc none)[c]?
        = if c = vc then some none else if c = uc then some (some (ku.mergeCounties kv.villages))
          else r.store[c]? := by
      intro c
      by_cases h1 : c = vc
      · rw [if_pos h1, h1]
        exact store_set_self (by rw [List.length_set, e2]; exact hvc) _
      · rw [if_neg h1, store_set_ne (fun h => h1 h.symm)]
        by_cases h2 : c = uc
        · rw [if_pos h2, h2]
          exact store_set_self (by rw [e2]; exact huc) _
        · rw [if_neg h2, store_set_ne (fun h => h2 h.symm), e2]
    apply regInv_join I hu hv huv (by
      rintro ⟨c, h1, h2⟩
      rw [du] at h1
      rw [dv] at h2
      exact hne ((Option.some.inj h1).trans (Option.some.inj h2).symm))
    · show ((r1.directory.length : Nat) : Int) = n
      rw [e5]
      exact I.len
    · intro x c hx
      rw [hD] at hx
      show ∃ k1, ((r1.store.set uc (some (ku.mergeCounties kv.villages))).set vc none)[c]?
        = some (some k1) ∧ x ∈ k1.villages
      rw [hst]
      by_cases h : r.dir x = some vc
      · rw [if_pos h] at hx
        have ec : c = uc := (Option.some.inj hx).symm
        subst ec
        rw [if_neg hne, if_pos rfl]
        refine ⟨_, rfl, ?_⟩
        simp only [County.mergeCounties]
        rw [mem_mergeLists]
        exact Or.inr ((hin x).2 h)
      · rw [if_neg h] at hx
        obtain ⟨k0, hk0, hm⟩ := I.live x c hx
        have hc : c ≠ vc := by
          intro e
          rw [e] at hx
          exact h hx
        rw [if_neg hc]
        by_cases ec : c = uc
        · subst ec
          rw [if_pos rfl]
          rw [hku] at hk0
          have : ku = k0 := Option.some.inj (Option.some.inj hk0)
          subst this
          refine ⟨_, rfl, ?_⟩
          simp only [County.mergeCounties]
          rw [mem_mergeLists]
          exact Or.inl hm
        · rw [if_neg ec]
          exact ⟨k0, hk0, hm⟩
    · intro c k1 w hk1 hw
      rw [hD]
      change ((r1.store.set uc (some (ku.mergeCounties kv.villages))).set vc none)[c]?
        = some (some k1) at hk1
      rw [hst] at hk1
      by_cases h1 : c = vc
      · rw [if_pos h1] at hk1
        exact absurd (Option.some.inj hk1) (by simp)
      · rw [if_neg h1] at hk1
        by_cases h2 : c = uc
        · rw [if_pos h2] at hk1
          have : ku.mergeCounties kv.villages = k1 := Option.some.inj (Option.some.inj hk1)
          subst this
          simp only [County.mergeCounties] at hw
          rw [mem_mergeLists] at hw
          rcases hw with hw | hw
          · have hw1 := I.members uc ku w hku hw
            rw [hw1, if_neg (by
              intro e
              exact hne (Option.some.inj e)), h2]
          · have hw1 := I.members vc kv w hkv hw
            rw [if_pos hw1, h2]
        · rw [if_neg h2] at hk1
          have hw1 := I.members c k1 w hk1 hw
          rw [hw1, if_neg (by
            intro e
            exact h1 (Option.some.inj e))]
    · exact same_step_SS r.dir _ u v uc vc du dv hD
    · intro x
      rw [hD]
      by_cases h : r.dir x = some vc
      · rw [if_pos h]
        constructor
        · intro _; exact Or.inl ⟨vc, h⟩
        · intro _; exact ⟨_, rfl⟩
      · rw [if_neg h]
        constructor
        · intro h; exact Or.inl h
        · rintro (h | h | h)
          · exact h
          · rw [h]; exact ⟨uc, du⟩
          · rw [h]; exact ⟨vc, dv⟩
    · show r1.numCounties - 1 + r1.villagesRemaining
        = r.numCounties + r.villagesRemaining - 1
      rw [e3, e4]
      omega

theorem addRoad_same {n : Int} {rs : List (Int × Int)} {r : Region} {u v : Int} {uc : Nat}
    (I : RegInv n rs r) (hu : 0 ≤ u ∧ u < n) (hv : 0 ≤ v ∧ v < n)
    (du : r.dir u = some uc) (dv : r.dir v = some uc) :
    ∃ r1, r.addRoad u v = .ok r1 ∧ RegInv n (rs ++ [(u, v)]) r1 := by
  have hul := regInv_lens I hu
  have hvl := regInv_lens I hv
  have gu : r.dirGet u = .ok (some uc) := by rw [dirGet_ok hu.1 hul, du]
  have gv : r.dirGet v = .ok (some uc) := by rw [dirGet_ok hv.1 hvl, dv]
  have huv : Conn rs u v := (I.conn u v).2 (Or.inr ⟨uc, du, dv⟩)
  have e : ∀ x y, Conn (rs ++ [(u, v)]) x y ↔ Conn rs x y := by
    intro x y
    rw [conn_snoc]
    constructor
    · rintro (h | ⟨h1, h2⟩ | ⟨h1, h2⟩)
      · exact h
      · exact (h1.trans_conn huv).trans_conn h2
      · exact (h1.trans_conn huv.symm_conn).trans_conn h2
    · exact Or.inl
  refine ⟨r, ?_, I.len, I.live, I.members, ?_, ?_, ?_⟩
  · unfold Region.addRoad
    rw [DFSLabeling.bind_ok _ _ _ gu, DFSLabeling.bind_ok _ _ _ gv]
    dsimp only
    rw [if_neg (by simp)]
  · intro x y
    rw [e, I.conn]
  · intro x
    rw [I.assigned]
    constructor
    · rintro ⟨y, h⟩
      exact ⟨y, (road_snoc rs u v x y).2 (Or.inl h)⟩
    · rintro ⟨y, h⟩
      rcases (road_snoc rs u v x y).1 h with h | ⟨h, _⟩ | ⟨h, _⟩
      · exact ⟨y, h⟩
      · rw [h]; exact (I.assigned u).1 ⟨uc, du⟩
      · rw [h]; exact (I.assigned v).1 ⟨uc, dv⟩
  · obtain ⟨k, hk, hc⟩ := I.count
    exact ⟨k, hk, components_same huv hc⟩

/-- One call of `addRoad` on two different villages of `[0, n)` returns and
keeps the invariant. -/
theorem addRoad_spec {n : Int} {rs : List (Int × Int)} {r : Region} {u v : Int}
    (I : RegInv n rs r) (hu : 0 ≤ u ∧ u < n) (hv : 0 ≤ v ∧ v < n) (huv : u ≠ v) :
    ∃ r1, r.addRoad u v = .ok r1 ∧ RegInv n (rs ++ [(u, v)]) r1 := by
  rcases du : r.dir u with _ | uc <;> rcases dv : r.dir v with _ | vc
  · exact addRoad_NN I hu hv huv du dv
  · exact addRoad_NS I hu hv huv du dv
  · exact addRoad_SN I hu hv huv du dv
  · by_cases hne : uc = vc
    · subst hne
      exact addRoad_same I hu hv du dv
    · exact addRoad_SS I hu hv huv du dv hne

theorem addRoads_spec {n : Int} : ∀ (rest done : List (Int × Int)) (r : Region),
    RegInv n done r →
    (∀ e ∈ rest, 0 ≤ e.1 ∧ e.1 < n ∧ 0 ≤ e.2 ∧ e.2 < n ∧ e.1 ≠ e.2) →
    ∃ r1, addRoads rest r = .ok r1 ∧ RegInv n (done ++ rest) r1 := by
  intro rest
  induction rest with
  | nil =>
    intro done r I _
    exact ⟨r, rfl, by rw [List.append_nil]; exact I⟩
  | cons e rest ih =>
    intro done r I h
    obtain ⟨u, v⟩ := e
    obtain ⟨h1, h2, h3, h4, h5⟩ := h (u, v) (List.mem_cons_self _ _)
    obtain ⟨r1, e1, I1⟩ := addRoad_spec I ⟨h1, h2⟩ ⟨h3, h4⟩ h5
    obtain ⟨r2, e2, I2⟩ := ih (done ++ [(u, v)]) r1 I1
      (fun e he => h e (List.mem_cons_of_mem _ he))
    refine ⟨r2, ?_, ?_⟩
    · rw [addRoads, DFSLabeling.bind_ok _ _ _ e1]
      exact e2
    · rw [List.append_assoc] at I2
      exact I2

theorem build_spec {n : Int} (hn : 0 ≤ n) {roads : List (Int × Int)}
    (hR : ∀ e ∈ roads, 0 ≤ e.1 ∧ e.1 < n ∧ 0 ≤ e.2 ∧ e.2 < n ∧ e.1 ≠ e.2) :
    ∃ r, build n roads = .ok r ∧ RegInv n roads r := by
  obtain ⟨r0, e0, I0⟩ := regInv_new n hn
  obtain ⟨r, e, I⟩ := addRoads_spec roads [] r0 I0 hR
  refine ⟨r, ?_, by simpa using I⟩
  unfold build
  rw [DFSLabeling.bind_ok _ _ _ e0]
  exact e

theorem linked_iff {rs : List (Int × Int)} (x y : Int) :
    Linked rs x y ↔ (x ≠ y ∧ Conn rs x y) ∨ (x = y ∧ ∃ z, Road rs x z) := by
  constructor
  · intro h
    by_cases e : x = y
    · right
      refine ⟨e, ?_⟩
      obtain ⟨z, hz, _⟩ := Relation.TransGen.head'_iff.1 h
      exact ⟨z, hz⟩
    · exact Or.inl ⟨e, Relation.TransGen.to_reflTransGen h⟩
  · rintro (⟨hne, h⟩ | ⟨rfl, z, hz⟩)
    · rcases Relation.reflTransGen_iff_eq_or_transGen.1 h with e | e
      · exact absurd e.symm hne
      · exact e
    · exact Relation.TransGen.tail (Relation.TransGen.single hz) hz.symm_road

/-- C22: for `n ≥ 1` and roads `(u, v)` with `0 ≤ u, v < n` and `u ≠ v`
(repetitions allowed), the calls of `addRoad` on a fresh region of `n` villages
return; afterwards `getNumCounties()` is the number of connected components of
the road graph on the `n` villages (the number `k` with `Components n roads k`,
which is unique), and two villages of `[0, n)` have the same non-null
directory entry exactly when a sequence of one or more roads joins them. -/
theorem C22_counties_are_components (n : Int) (hn : 1 ≤ n) (roads : List (Int × Int))
    (hR : ∀ e ∈ roads, 0 ≤ e.1 ∧ e.1 < n ∧ 0 ≤ e.2 ∧ e.2 < n ∧ e.1 ≠ e.2) :
    ∃ r, build n roads = .ok r ∧
      (∃ k : Nat, r.getNumCounties = k ∧ Components n roads k ∧
        ∀ k1, Components n roads k1 → k1 = k) ∧
      (∀ u v, 0 ≤ u → u < n → 0 ≤ v → v < n →
        ((∃ c, r.dirGet u = .ok (some c) ∧ r.dirGet v = .ok (some c)) ↔ Linked roads u v)) ∧
      (∀ u v, 0 ≤ u → u < n → 0 ≤ v → v < n → u ≠ v →
        ((∃ c, r.dirGet u = .ok (some c) ∧ r.dirGet v = .ok (some c)) ↔ Conn roads u v)) := by
  obtain ⟨r, e, I⟩ := build_spec (by omega : (0 : Int) ≤ n) hR
  have hget : ∀ u v, 0 ≤ u → u < n → 0 ≤ v → v < n →
      ((∃ c, r.dirGet u = .ok (some c) ∧ r.dirGet v = .ok (some c)) ↔
        ∃ c, r.dir u = some c ∧ r.dir v = some c) := by
    intro u v h1 h2 h3 h4
    rw [dirGet_ok h1 (regInv_lens I ⟨h1, h2⟩), dirGet_ok h3 (regInv_lens I ⟨h3, h4⟩)]
    constructor
    · rintro ⟨c, a, b⟩
      exact ⟨c, Except.ok.inj a, Except.ok.inj b⟩
    · rintro ⟨c, a, b⟩
      exact ⟨c, by rw [a], by rw [b]⟩
  refine ⟨r, e, ?_, ?_, ?_⟩
  · obtain ⟨k, hk, hc⟩ := I.count
    exact ⟨k, hk, hc, fun k1 h1 => components_unique h1 hc⟩
  · intro u v h1 h2 h3 h4
    rw [hget u v h1 h2 h3 h4, linked_iff]
    constructor
    · rintro ⟨c, a, b⟩
      by_cases e : u = v
      · exact Or.inr ⟨e, (I.assigned u).1 ⟨c, a⟩⟩
      · exact Or.inl ⟨e, (I.conn u v).2 (Or.inr ⟨c, a, b⟩)⟩
    · rintro (⟨hne, h⟩ | ⟨rfl, h⟩)
      · rcases (I.conn u v).1 h with e | e
        · exact absurd e hne
        · exact e
      · obtain ⟨c, hc⟩ := (I.assigned u).2 h
        exact ⟨c, hc, hc⟩
  · intro u v h1 h2 h3 h4 hne
    rw [hget u v h1 h2 h3 h4, I.conn]
    constructor
    · exact Or.inr
    · rintro (e | e)
      · exact absurd e hne
      · exact e

/-- Instance of the theorem on counties: five villages, roads `(1, 0)`,
`(3, 2)`, `(0, 3)`, `(1, 0)`. -/
theorem C22_counties_are_components_witness :
    ∃ r, build 5 [(1, 0), (3, 2), (0, 3), (1, 0)] = .ok r ∧
      (∃ k : Nat, r.getNumCounties = k ∧ Components 5 [(1, 0), (3, 2), (0, 3), (1, 0)] k ∧
        ∀ k1, Components 5 [(1, 0), (3, 2), (0, 3), (1, 0)] k1 → k1 = k) ∧
      (∀ u v, 0 ≤ u → u < 5 → 0 ≤ v → v < 5 →
        ((∃ c, r.dirGet u = .ok (some c) ∧ r.dirGet v = .ok (some c)) ↔
          Linked [(1, 0), (3, 2), (0, 3), (1, 0)] u v)) ∧
      (∀ u v, 0 ≤ u → u < 5 → 0 ≤ v → v < 5 → u ≠ v →
        ((∃ c, r.dirGet u = .ok (some c) ∧ r.dirGet v = .ok (some c)) ↔
          Conn [(1, 0), (3, 2), (0, 3), (1, 0)] u v)) :=
  C22_counties_are_components 5 (by decide) [(1, 0), (3, 2), (0, 3), (1, 0)] (by decide)

end Villages

/-! ## Theorems on the alignment program -/

namespace Alignment

/-! ### The table -/

theorem get_of_cell {A : Table} {i j : Nat} {v : Int} (h : cell A i j = some v) :
    A.get (i : Int) (j : Int) = .ok v := by
  unfold cell at h
  unfold Table.get
  cases hr : A[i]? with
  | none => rw [hr] at h; simp at h
  | some row =>
    rw [hr] at h
    simp only [Option.some_bind] at h
    simp [hr, h]

theorem set_of_cell {A : Table} {i j : Nat} {v0 : Int} (h : cell A i j = some v0) (v : Int) :
    ∃ B, A.set (i : Int) (j : Int) v = .ok B ∧
      ∀ i1 j1, cell B i1 j1 = if i1 = i ∧ j1 = j then some v else cell A i1 j1 := by
  unfold cell at h
  cases hr : A[i]? with
  | none => rw [hr] at h; simp at h
  | some row =>
    rw [hr] at h
    simp only [Option.some_bind] at h
    have hj : j < row.length := by
      by_contra hc
      rw [List.getElem?_eq_none (by omega)] at h
      exact absurd h (by simp)
    have hi : i < A.length := by
      by_contra hc
      rw [List.getElem?_eq_none (by omega)] at hr
      exact absurd hr (by simp)
    refine ⟨List.set A i (row.set j v), by simp [Table.set, hr, hj], ?_⟩
    intro i1 j1
    unfold cell
    by_cases e1 : i1 = i
    · subst e1
      by_cases e2 : j1 = j
      · subst e2
        simp [List.getElem?_set, hi, hj]
      · have e3 : j ≠ j1 := fun e => e2 e.symm
        simp [List.getElem?_set, hi, hr, e2, e3]
    · have e3 : i ≠ i1 := fun e => e1 e.symm
      simp [List.getElem?_set, e1, e3]

theorem charAt_ok {s : List Char} {k : Nat} {c : Char} (h : s[k]? = some c) :
    charAt s (k : Int) = .ok c := by
  simp [charAt, h]

/-! ### The recurrence -/

theorem ed_zero (x y : List Char) (j : Nat) : ed x y 0 j = j := rfl

theorem ed_right (x y : List Char) (i : Nat) : ed x y i 0 = i := by
  cases i <;> rfl

theorem ed_succ_succ (x y : List Char) (i j : Nat) :
    ed x y (i + 1) (j + 1) =
      min (min (mm x y i j + ed x y i j) (1 + ed x y i (j + 1))) (1 + ed x y (i + 1) j) := rfl

theorem ed_le_up (x y : List Char) (i j : Nat) : ed x y (i + 1) j ≤ 1 + ed x y i j := by
  cases j with
  | zero => rw [ed_right, ed_right]; omega
  | succ j => rw [ed_succ_succ]; omega

theorem ed_le_left (x y : List Char) (i j : Nat) : ed x y i (j + 1) ≤ 1 + ed x y i j := by
  cases i with
  | zero => rw [ed_zero, ed_zero]; omega
  | succ i => rw [ed_succ_succ]; omega

theorem ed_le_diag (x y : List Char) (i j : Nat) :
    ed x y (i + 1) (j + 1) ≤ mm x y i j + ed x y i j := by
  rw [ed_succ_succ]; omega

theorem mm_of_get {x y : List Char} {i j : Nat} {a b : Char} (ha : x[i]? = some a)
    (hb : y[j]? = some b) : mm x y i j = if a = b then 0 else 1 := by
  simp [mm, ha, hb]

/-! ### The invariant of `opt` -/

theorem Mono.rfl_mono (x y : List Char) (A : Table) : Mono x y A A :=
  fun _ _ _ _ h => h

theorem Mono.trans_mono {x y : List Char} {A B C : Table} (h1 : Mono x y A B)
    (h2 : Mono x y B C) : Mono x y A C :=
  fun i j hi hj h => h2 i j hi hj (h1 i j hi hj h)

theorem evalArgs_ok {P : Table → Prop} {R : Table → Table → Prop} {Q1 Q2 Q3 : Table → Prop}
    {f1 f2 f3 : Call} {r1 r2 r3 : Int}
    (htrans : ∀ A B C, R A B → R B C → R A C)
    (hQ1 : ∀ A B, Q1 A → R A B → Q1 B) (hQ2 : ∀ A B, Q2 A → R A B → Q2 B)
    (hQ3 : ∀ A B, Q3 A → R A B → Q3 B)
    (h1 : ∀ A, P A → ∃ B, f1 A = .ok (r1, B) ∧ P B ∧ R A B ∧ Q1 B)
    (h2 : ∀ A, P A → ∃ B, f2 A = .ok (r2, B) ∧ P B ∧ R A B ∧ Q2 B)
    (h3 : ∀ A, P A → ∃ B, f3 A = .ok (r3, B) ∧ P B ∧ R A B ∧ Q3 B)
    (ord : ArgOrder) (A : Table) (hA : P A) :
    ∃ B, evalArgs ord f1 f2 f3 A = .ok (r1, r2, r3, B) ∧ P B ∧ R A B ∧ Q1 B ∧ Q2 B ∧ Q3 B := by
  cases ord
  · obtain ⟨B1, e1, p1, m1, q1⟩ := h1 A hA
    obtain ⟨B2, e2, p2, m2, q2⟩ := h2 B1 p1
    obtain ⟨B3, e3, p3, m3, q3⟩ := h3 B2 p2
    refine ⟨B3, ?_, p3, htrans _ _ _ (htrans _ _ _ m1 m2) m3,
      hQ1 _ _ (hQ1 _ _ q1 m2) m3, hQ2 _ _ q2 m3, q3⟩
    simp only [evalArgs]
    rw [DFSLabeling.bind_ok _ _ _ e1]
    simp only []
    rw [DFSLabeling.bind_ok _ _ _ e2]
    simp only []
    rw [DFSLabeling.bind_ok _ _ _ e3]
  · obtain ⟨B1, e1, p1, m1, q1⟩ := h1 A hA
    obtain ⟨B3, e3, p3, m3, q3⟩ := h3 B1 p1
    obtain ⟨B2, e2, p2, m2, q2⟩ := h2 B3 p3
    refine ⟨B2, ?_, p2, htrans _ _ _ (htrans _ _ _ m1 m3) m2,
      hQ1 _ _ (hQ1 _ _ q1 m3) m2, q2, hQ3 _ _ q3 m2⟩
    simp only [evalArgs]
    rw [DFSLabeling.bind_ok _ _ _ e1]
    simp only []
    rw [DFSLabeling.bind_ok _ _ _ e3]
    simp only []
    rw [DFSLabeling.bind_ok _ _ _ e2]
  · obtain ⟨B2, e2, p2, m2, q2⟩ := h2 A hA
    obtain ⟨B1, e1, p1, m1, q1⟩ := h1 B2 p2
    obtain ⟨B3, e3, p3, m3, q3⟩ := h3 B1 p1
    refine ⟨B3, ?_, p3, htrans _ _ _ (htrans _ _ _ m2 m1) m3,
      hQ1 _ _ q1 m3, hQ2 _ _ (hQ2 _ _ q2 m1) m3, q3⟩
    simp only [evalArgs]
    rw [DFSLabeling.bind_ok _ _ _ e2]
    simp only []
    rw [DFSLabeling.bind_ok _ _ _ e1]
    simp only []
    rw [DFSLabeling.bind_ok _ _ _ e3]
  · obtain ⟨B2, e2, p2, m2, q2⟩ := h2 A hA
    obtain ⟨B3, e3, p3, m3, q3⟩ := h3 B2 p2
    obtain ⟨B1, e1, p1, m1, q1⟩ := h1 B3 p3
    refine ⟨B1, ?_, p1, htrans _ _ _ (htrans _ _ _ m2 m3) m1,
      q1, hQ2 _ _ (hQ2 _ _ q2 m3) m1, hQ3 _ _ q3 m1⟩
    simp only [evalArgs]
    rw [DFSLabeling.bind_ok _ _ _ e2]
    simp only []
    rw [DFSLabeling.bind_ok _ _ _ e3]
    simp only []
    rw [DFSLabeling.bind_ok _ _ _ e1]
  · obtain ⟨B3, e3, p3, m3, q3⟩ := h3 A hA
    obtain ⟨B1, e1, p1, m1, q1⟩ := h1 B3 p3
    obtain ⟨B2, e2, p2, m2, q2⟩ := h2 B1 p1
    refine ⟨B2, ?_, p2, htrans _ _ _ (htrans _ _ _ m3 m1) m2,
      hQ1 _ _ q1 m2, q2, hQ3 _ _ (hQ3 _ _ q3 m1) m2⟩
    simp only [evalArgs]
    rw [DFSLabeling.bind_ok _ _ _ e3]
    simp only []
    rw [DFSLabeling.bind_ok _ _ _ e1]
    simp only []
    rw [DFSLabeling.bind_ok _ _ _ e2]
  · obtain ⟨B3, e3, p3, m3, q3⟩ := h3 A hA
    obtain ⟨B2, e2, p2, m2, q2⟩ := h2 B3 p3
    obtain ⟨B1, e1, p1, m1, q1⟩ := h1 B2 p2
    refine ⟨B1, ?_, p1, htrans _ _ _ (htrans _ _ _ m3 m2) m1,
      q1, hQ2 _ _ q2 m1, hQ3 _ _ (hQ3 _ _ q3 m2) m1⟩
    simp only [evalArgs]
    rw [DFSLabeling.bind_ok _ _ _ e3]
    simp only []
    rw [DFSLabeling.bind_ok _ _ _ e2]
    simp only []
    rw [DFSLabeling.bind_ok _ _ _ e1]
theorem opt_spec (ord : ArgOrder) (x y : List Char) :
    ∀ (fuel : Nat) (A : Table) (i j : Nat), Good x y A → i ≤ x.length → j ≤ y.length →
      i + j < fuel →
      ∃ B, opt ord fuel A x y i j = .ok ((ed x y i j : Int), B) ∧ Good x y B ∧ Mono x y A B ∧
        cell B i j = some (ed x y i j : Int) := by
  intro fuel
  induction fuel with
  | zero => intro A i j _ _ _ hf; omega
  | succ fuel ih =>
    intro A i j hG hi hj hf
    rcases hG.cells i j hi hj with hc | ⟨hc, h1, h2⟩
    · refine ⟨A, ?_, hG, Mono.rfl_mono x y A, hc⟩
      rw [opt, DFSLabeling.bind_ok _ _ _ (get_of_cell hc)]
      have : ((ed x y i j : Nat) : Int) ≥ 0 := Int.natCast_nonneg _
      simp only [this, if_true]
    · obtain ⟨i, rfl⟩ : ∃ k, i = k + 1 := ⟨i - 1, by omega⟩
      obtain ⟨j, rfl⟩ : ∃ k, j = k + 1 := ⟨j - 1, by omega⟩
      have ei : ((i + 1 : Nat) : Int) - 1 = (i : Int) := by push_cast; ring
      have ej : ((j + 1 : Nat) : Int) - 1 = (j : Int) := by push_cast; ring
      have hxi : x[i]? = some (x[i]) := List.getElem?_eq_getElem (by omega)
      have hyj : y[j]? = some (y[j]) := List.getElem?_eq_getElem (by omega)
      have hmono : ∀ (a b : Nat), a ≤ x.length → b ≤ y.length → ∀ T U : Table,
          cell T a b = some (ed x y a b : Int) → Mono x y T U →
          cell U a b = some (ed x y a b : Int) := fun a b ha hb T U h m => m a b ha hb h
      obtain ⟨A3, e3, g3, m3, q1, q2, q3⟩ :=
        @evalArgs_ok (Good x y) (Mono x y)
          (fun T => cell T i j = some (ed x y i j : Int))
          (fun T => cell T i (j + 1) = some (ed x y i (j + 1) : Int))
          (fun T => cell T (i + 1) j = some (ed x y (i + 1) j : Int))
          (fun T => opt ord fuel T x y (i : Int) (j : Int))
          (fun T => opt ord fuel T x y (i : Int) ((j + 1 : Nat) : Int))
          (fun T => opt ord fuel T x y ((i + 1 : Nat) : Int) (j : Int))
          (ed x y i j) (ed x y i (j + 1)) (ed x y (i + 1) j)
          (fun _ _ _ => Mono.trans_mono)
          (fun T U => hmono i j (by omega) (by omega) T U)
          (fun T U => hmono i (j + 1) (by omega) (by omega) T U)
          (fun T U => hmono (i + 1) j (by omega) (by omega) T U)
          (fun T hT => ih T i j hT (by omega) (by omega) (by omega))
          (fun T hT => ih T i (j + 1) hT (by omega) (by omega) (by omega))
          (fun T hT => ih T (i + 1) j hT (by omega) (by omega) (by omega))
          ord A hG
      have hval : min3 ((if x[i] = y[j] then 0 else 1) + (ed x y i j : Int))
          (1 + (ed x y i (j + 1) : Int)) (1 + (ed x y (i + 1) j : Int))
          = (ed x y (i + 1) (j + 1) : Int) := by
        rw [ed_succ_succ, mm_of_get hxi hyj]
        unfold min3
        split <;> push_cast <;> rfl
      have hcur : ∃ v0, cell A3 (i + 1) (j + 1) = some v0 := by
        rcases g3.cells (i + 1) (j + 1) hi hj with h | ⟨h, _, _⟩
        · exact ⟨_, h⟩
        · exact ⟨_, h⟩
      obtain ⟨v0, hv0⟩ := hcur
      obtain ⟨B, eB, hB⟩ := set_of_cell hv0 (ed x y (i + 1) (j + 1) : Int)
      have hBne : ∀ a b, ¬ (a = i + 1 ∧ b = j + 1) → cell B a b = cell A3 a b := by
        intro a b hab
        rw [hB, if_neg hab]
      have hBeq : cell B (i + 1) (j + 1) = some (ed x y (i + 1) (j + 1) : Int) := by
        rw [hB, if_pos ⟨rfl, rfl⟩]
      have mB : Mono x y A3 B := by
        intro a b _ _ h
        by_cases hab : a = i + 1 ∧ b = j + 1
        · rw [hab.1, hab.2]; exact hBeq
        · rw [hBne a b hab]; exact h
      have full : ∀ a b, a ≤ i + 1 → b ≤ j + 1 → cell B a b = some (ed x y a b : Int) := by
        intro a b ha hb
        by_cases hab : a = i + 1 ∧ b = j + 1
        · rw [hab.1, hab.2]; exact hBeq
        · by_cases ha1 : a ≤ i
          · exact mB a b (by omega) (by omega)
              (g3.closed i (j + 1) (by omega) (by omega) q2 a b ha1 hb)
          · exact mB a b (by omega) (by omega)
              (g3.closed (i + 1) j (by omega) (by omega) q3 a b (by omega) (by omega))
      refine ⟨B, ?_, ⟨?_, ?_⟩, Mono.trans_mono m3 mB, hBeq⟩
      · rw [opt, DFSLabeling.bind_ok _ _ _ (get_of_cell hc)]
        simp only [show ¬ ((-1 : Int) ≥ 0) by decide, if_false]
        rw [ei, ej, DFSLabeling.bind_ok _ _ _ (charAt_ok hxi),
          DFSLabeling.bind_ok _ _ _ (charAt_ok hyj), DFSLabeling.bind_ok _ _ _ e3]
        simp only [hval]
        rw [DFSLabeling.bind_ok _ _ _ eB]
      · intro a b ha hb
        by_cases hab : a = i + 1 ∧ b = j + 1
        · left; rw [hab.1, hab.2]; exact hBeq
        · rw [hBne a b hab]; exact g3.cells a b ha hb
      · intro a b ha hb h a1 b1 ha1 hb1
        by_cases hab : a = i + 1 ∧ b = j + 1
        · exact full a1 b1 (by omega) (by omega)
        · rw [hBne a b hab] at h
          exact mB a1 b1 (by omega) (by omega) (g3.closed a b ha hb h a1 b1 ha1 hb1)

/-! ### The table built by `main` -/

theorem cell_initTable (m n i j : Nat) (hi : i ≤ m) (hj : j ≤ n) :
    cell (initTable m n) i j =
      if i = 0 then some (j : Int) else if j = 0 then some (i : Int) else some (-1) := by
  unfold cell initTable
  have hr : ∀ k N : Nat, k ≤ N → (List.range (N + 1))[k]? = some k := fun k N h =>
    List.getElem?_range (by omega)
  cases i with
  | zero =>
    simp [List.getElem?_set, List.getElem?_map, hr j n hj]
  | succ i =>
    cases j with
    | zero => simp [List.getElem?_set, List.getElem?_map, hr (i + 1) m hi]
    | succ j =>
      have : j < n := by omega
      simp [List.getElem?_set, List.getElem?_map, hr (i + 1) m hi, List.getElem?_replicate, this]

theorem good_initTable (x y : List Char) : Good x y (initTable x.length y.length) := by
  constructor
  · intro i j hi hj
    rw [cell_initTable _ _ i j hi hj]
    by_cases h0 : i = 0
    · subst h0; left; simp [ed_zero]
    · by_cases h1 : j = 0
      · subst h1; left; simp [ed_right, h0]
      · right; simp [h0, h1]; omega
  · intro i j hi hj h i1 j1 hi1 hj1
    rw [cell_initTable _ _ i j hi hj] at h
    rw [cell_initTable _ _ i1 j1 (by omega) (by omega)]
    by_cases h0 : i = 0
    · have : i1 = 0 := by omega
      subst this; simp [ed_zero]
    · by_cases h1 : j = 0
      · have : j1 = 0 := by omega
        subst this
        by_cases h2 : i1 = 0
        · subst h2; simp [ed_zero]
        · simp [h2, ed_right]
      · simp [h0, h1] at h
/-! ### Alignments and the recurrence -/

theorem cost_snoc (a : List Column) (c : Column) : cost (a ++ [c]) = cost a + colCost c := by
  simp [cost]

theorem take_succ_get {l : List Char} {i : Nat} (h : i < l.length) :
    l.take (i + 1) = l.take i ++ [l[i]] := by
  rw [List.take_succ, List.getElem?_eq_getElem h]
  rfl

theorem take_eq_snoc {l L : List Char} {i : Nat} {p : Char} (hi : i ≤ l.length)
    (h : l.take i = L ++ [p]) : ∃ k, i = k + 1 ∧ L = l.take k ∧ l[k]? = some p := by
  cases i with
  | zero => simp at h
  | succ k =>
    have hk : k < l.length := by omega
    rw [take_succ_get hk] at h
    obtain ⟨h1, h2⟩ := List.append_inj' h rfl
    refine ⟨k, rfl, h1.symm, ?_⟩
    rw [List.getElem?_eq_getElem hk]
    simpa using h2

theorem IsAlignment.snoc_both {a : List Column} {u v : List Char} (h : IsAlignment a u v)
    (p q : Char) : IsAlignment (a ++ [(some p, some q)]) (u ++ [p]) (v ++ [q]) := by
  obtain ⟨h1, h2, h3⟩ := h
  refine ⟨by simp [List.filterMap_append, h1], by simp [List.filterMap_append, h2], ?_⟩
  intro c hc
  rcases List.mem_append.1 hc with hc | hc
  · exact h3 c hc
  · rw [List.mem_singleton.1 hc]; simp

theorem IsAlignment.snoc_fst {a : List Column} {u v : List Char} (h : IsAlignment a u v)
    (p : Char) : IsAlignment (a ++ [(some p, none)]) (u ++ [p]) v := by
  obtain ⟨h1, h2, h3⟩ := h
  refine ⟨by simp [List.filterMap_append, h1], by simp [List.filterMap_append, h2], ?_⟩
  intro c hc
  rcases List.mem_append.1 hc with hc | hc
  · exact h3 c hc
  · rw [List.mem_singleton.1 hc]; simp

theorem IsAlignment.snoc_snd {a : List Column} {u v : List Char} (h : IsAlignment a u v)
    (q : Char) : IsAlignment (a ++ [(none, some q)]) u (v ++ [q]) := by
  obtain ⟨h1, h2, h3⟩ := h
  refine ⟨by simp [List.filterMap_append, h1], by simp [List.filterMap_append, h2], ?_⟩
  intro c hc
  rcases List.mem_append.1 hc with hc | hc
  · exact h3 c hc
  · rw [List.mem_singleton.1 hc]; simp

theorem isAlignment_gaps_fst (v : List Char) :
    IsAlignment (v.map fun c => ((none : Option Char), some c)) [] v ∧
      cost (v.map fun c => ((none : Option Char), some c)) = v.length := by
  induction v with
  | nil => exact ⟨⟨rfl, rfl, by simp⟩, rfl⟩
  | cons c v ih =>
    obtain ⟨⟨h1, h2, h3⟩, h4⟩ := ih
    refine ⟨⟨?_, ?_, ?_⟩, ?_⟩
    · simp
    · simp [h2]
    · intro d hd
      rcases List.mem_cons.1 hd with hd | hd
      · rw [hd]; simp
      · exact h3 d hd
    · simp only [cost, List.map_cons, List.sum_cons, List.length_cons] at h4 ⊢
      rw [h4]; simp [colCost]; omega

theorem isAlignment_gaps_snd (u : List Char) :
    IsAlignment (u.map fun c => (some c, (none : Option Char))) u [] ∧
      cost (u.map fun c => (some c, (none : Option Char))) = u.length := by
  induction u with
  | nil => exact ⟨⟨rfl, rfl, by simp⟩, rfl⟩
  | cons c u ih =>
    obtain ⟨⟨h1, h2, h3⟩, h4⟩ := ih
    refine ⟨⟨?_, ?_, ?_⟩, ?_⟩
    · simp [h1]
    · simp
    · intro d hd
      rcases List.mem_cons.1 hd with hd | hd
      · rw [hd]; simp
      · exact h3 d hd
    · simp only [cost, List.map_cons, List.sum_cons, List.length_cons] at h4 ⊢
      rw [h4]; simp [colCost]; omega

theorem ed_attained (x y : List Char) : ∀ i j, i ≤ x.length → j ≤ y.length →
    ∃ a, IsAlignment a (x.take i) (y.take j) ∧ cost a = ed x y i j := by
  intro i
  induction i with
  | zero =>
    intro j _ hj
    refine ⟨_, (isAlignment_gaps_fst (y.take j)).1, ?_⟩
    rw [(isAlignment_gaps_fst (y.take j)).2, ed_zero, List.length_take]
    omega
  | succ i ihi =>
    intro j
    induction j with
    | zero =>
      intro hi _
      refine ⟨_, (isAlignment_gaps_snd (x.take (i + 1))).1, ?_⟩
      rw [(isAlignment_gaps_snd (x.take (i + 1))).2, ed_right, List.length_take]
      omega
    | succ j ihj =>
      intro hi hj
      have hxi : x[i]? = some (x[i]) := List.getElem?_eq_getElem (by omega)
      have hyj : y[j]? = some (y[j]) := List.getElem?_eq_getElem (by omega)
      have h3 : ed x y (i + 1) (j + 1) = mm x y i j + ed x y i j ∨
          ed x y (i + 1) (j + 1) = 1 + ed x y i (j + 1) ∨
          ed x y (i + 1) (j + 1) = 1 + ed x y (i + 1) j := by
        rw [ed_succ_succ]; omega
      rcases h3 with h | h | h
      · obtain ⟨a, ha, hc⟩ := ihi j (by omega) (by omega)
        refine ⟨a ++ [(some (x[i]), some (y[j]))], ?_, ?_⟩
        · rw [take_succ_get (show i < x.length by omega),
            take_succ_get (show j < y.length by omega)]
          exact ha.snoc_both _ _
        · rw [cost_snoc, hc, h, mm_of_get hxi hyj]
          simp only [colCost]; omega
      · obtain ⟨a, ha, hc⟩ := ihi (j + 1) (by omega) hj
        refine ⟨a ++ [(some (x[i]), none)], ?_, ?_⟩
        · rw [take_succ_get (show i < x.length by omega)]
          exact ha.snoc_fst _
        · rw [cost_snoc, hc, h]
          simp only [colCost]; omega
      · obtain ⟨a, ha, hc⟩ := ihj hi (by omega)
        refine ⟨a ++ [(none, some (y[j]))], ?_, ?_⟩
        · rw [take_succ_get (show j < y.length by omega)]
          exact ha.snoc_snd _
        · rw [cost_snoc, hc, h]
          simp only [colCost]; omega

theorem ed_le_cost (x y : List Char) : ∀ (a : List Column) (i j : Nat), i ≤ x.length →
    j ≤ y.length → IsAlignment a (x.take i) (y.take j) → ed x y i j ≤ cost a := by
  intro a
  induction a using List.reverseRecOn with
  | nil =>
    intro i j hi hj h
    obtain ⟨h1, h2, _⟩ := h
    have e1 : i = 0 := by
      have := congrArg List.length h1
      simp at this; omega
    have e2 : j = 0 := by
      have := congrArg List.length h2
      simp at this; omega
    subst e1; subst e2
    simp [ed_zero]
  | append_singleton a c ih =>
    intro i j hi hj h
    obtain ⟨h1, h2, h3⟩ := h
    have hrest : ∀ d ∈ a, d ≠ (none, none) := fun d hd => h3 d (List.mem_append_left _ hd)
    rw [cost_snoc]
    rcases c with ⟨_ | p, _ | q⟩
    · exact absurd rfl (h3 (none, none) (by simp))
    · simp only [List.filterMap_append, List.filterMap_cons, List.filterMap_nil,
        List.append_nil] at h1 h2
      obtain ⟨k, rfl, e2, _⟩ := take_eq_snoc hj h2.symm
      have := ih i k hi (by omega) ⟨h1, e2, hrest⟩
      have := ed_le_left x y i k
      simp only [colCost]; omega
    · simp only [List.filterMap_append, List.filterMap_cons, List.filterMap_nil,
        List.append_nil] at h1 h2
      obtain ⟨k, rfl, e1, _⟩ := take_eq_snoc hi h1.symm
      have := ih k j (by omega) hj ⟨e1, h2, hrest⟩
      have := ed_le_up x y k j
      simp only [colCost]; omega
    · simp only [List.filterMap_append, List.filterMap_cons, List.filterMap_nil] at h1 h2
      obtain ⟨k, rfl, e1, g1⟩ := take_eq_snoc hi h1.symm
      obtain ⟨l, rfl, e2, g2⟩ := take_eq_snoc hj h2.symm
      have := ih k l (by omega) (by omega) ⟨e1, e2, hrest⟩
      have := ed_le_diag x y k l
      rw [mm_of_get g1 g2] at this
      simp only [colCost]; omega

/-- The call of `opt` made by `main` returns the value of the recurrence and
leaves every cell of the table filled. -/
theorem opt_main (ord : ArgOrder) (x y : List Char) (fuel : Nat)
    (hf : x.length + y.length < fuel) :
    ∃ B, opt ord fuel (initTable x.length y.length) x y x.length y.length
        = .ok ((ed x y x.length y.length : Int), B) ∧
      ∀ i j, i ≤ x.length → j ≤ y.length → cell B i j = some (ed x y i j : Int) := by
  obtain ⟨B, e, g, _, c⟩ := opt_spec ord x y fuel _ x.length y.length (good_initTable x y)
    (le_refl _) (le_refl _) hf
  exact ⟨B, e, fun i j hi hj => g.closed _ _ (le_refl _) (le_refl _) c i j hi hj⟩

/-- C12: with the table initialised as in `main` (`A[0][j] = j`, `A[i][0] = i`,
every other cell `-1`), the call `opt(A, x, y, m, n)` returns, for every order
of evaluation of the arguments of `min3` and every recursion budget above
`m + n`, the minimum cost over all alignments of `x` and `y`: some alignment
has that cost and none has a smaller one.  It returns `n` when `x` is empty
and `m` when `y` is empty. -/
theorem C12_opt_edit_distance (ord : ArgOrder) (x y : List Char) (fuel : Nat)
    (hf : x.length + y.length < fuel) :
    (∀ i j, i ≤ x.length → j ≤ y.length →
      cell (initTable x.length y.length) i j =
        if i = 0 then some (j : Int) else if j = 0 then some (i : Int) else some (-1)) ∧
    ∃ (d : Nat) (B : Table),
      opt ord fuel (initTable x.length y.length) x y x.length y.length = .ok ((d : Int), B) ∧
      (∃ a, IsAlignment a x y ∧ cost a = d) ∧
      (∀ a, IsAlignment a x y → d ≤ cost a) ∧
      (x = [] → d = y.length) ∧ (y = [] → d = x.length) := by
  refine ⟨fun i j hi hj => cell_initTable _ _ i j hi hj, ?_⟩
  obtain ⟨B, e, _⟩ := opt_main ord x y fuel hf
  refine ⟨ed x y x.length y.length, B, e, ?_, ?_, ?_, ?_⟩
  · have := ed_attained x y x.length y.length (le_refl _) (le_refl _)
    simpa using this
  · intro a ha
    have := ed_le_cost x y a x.length y.length (le_refl _) (le_refl _) (by simpa using ha)
    exact this
  · intro hx; subst hx; simp [ed_zero]
  · intro hy; subst hy; simp [ed_right]

/-- Instance of the theorem on `opt` for the words `abc` and `ac`. -/
theorem C12_opt_edit_distance_witness :
    (∀ i j, i ≤ ['a', 'b', 'c'].length → j ≤ ['a', 'c'].length →
      cell (initTable ['a', 'b', 'c'].length ['a', 'c'].length) i j =
        if i = 0 then some (j : Int) else if j = 0 then some (i : Int) else some (-1)) ∧
    ∃ (d : Nat) (B : Table),
      opt ArgOrder.cba 6 (initTable ['a', 'b', 'c'].length ['a', 'c'].length)
        ['a', 'b', 'c'] ['a', 'c'] ['a', 'b', 'c'].length ['a', 'c'].length = .ok ((d : Int), B) ∧
      (∃ a, IsAlignment a ['a', 'b', 'c'] ['a', 'c'] ∧ cost a = d) ∧
      (∀ a, IsAlignment a ['a', 'b', 'c'] ['a', 'c'] → d ≤ cost a) ∧
      (['a', 'b', 'c'] = [] → d = ['a', 'c'].length) ∧
      (['a', 'c'] = [] → d = ['a', 'b', 'c'].length) :=
  C12_opt_edit_distance ArgOrder.cba ['a', 'b', 'c'] ['a', 'c'] 6 (by decide)
/-! ### The traceback -/

theorem Shows.append {a b u v a1 b1 u1 v1 : List Char} {d d1 : Nat} (h : Shows a b u v d)
    (h1 : Shows a1 b1 u1 v1 d1) : Shows (a ++ a1) (b ++ b1) (u ++ u1) (v ++ v1) (d + d1) := by
  constructor
  · simp [h.len, h1.len]
  · rw [List.filter_append, h.fst, h1.fst]
  · rw [List.filter_append, h.snd, h1.snd]
  · intro p hp
    rw [List.zip_append h.len] at hp
    rcases List.mem_append.1 hp with hp | hp
    · exact h.gaps p hp
    · exact h1.gaps p hp
  · have e1 := h.diff
    have e2 := h1.diff
    unfold differ at e1 e2 ⊢
    rw [List.zip_append h.len, List.filter_append, List.length_append, e1, e2]

theorem shows_nil : Shows [] [] [] [] 0 :=
  ⟨rfl, rfl, rfl, by simp, rfl⟩

theorem shows_both {p q : Char} (hp : p ≠ ' ') (hq : q ≠ ' ') :
    Shows [p] [q] [p] [q] (if p = q then 0 else 1) := by
  refine ⟨rfl, by simp [hp], by simp [hq], ?_, ?_⟩
  · intro c hc
    simp only [List.zip_cons_cons, List.zip_nil_right, List.mem_singleton] at hc
    rw [hc]
    exact fun h => hp h.1
  · by_cases h : p = q <;> simp [differ, h]

theorem shows_gap_fst {q : Char} (hq : q ≠ ' ') : Shows [' '] [q] [] [q] 1 := by
  refine ⟨rfl, by simp, by simp [hq], ?_, ?_⟩
  · intro c hc
    simp only [List.zip_cons_cons, List.zip_nil_right, List.mem_singleton] at hc
    rw [hc]
    exact fun h => hq h.2
  · have : ¬ (' ' = q) := fun h => hq h.symm
    simp [differ, this]

theorem shows_gap_snd {p : Char} (hp : p ≠ ' ') : Shows [p] [' '] [p] [] 1 := by
  refine ⟨rfl, by simp [hp], by simp, ?_, ?_⟩
  · intro c hc
    simp only [List.zip_cons_cons, List.zip_nil_right, List.mem_singleton] at hc
    rw [hc]
    exact fun h => hp h.1
  · simp [differ, hp]

theorem shows_block_snd (l : List Char) (hl : ∀ c ∈ l, c ≠ ' ') :
    Shows l (List.replicate l.length ' ') l [] l.length := by
  induction l with
  | nil => exact shows_nil
  | cons c l ih =>
    have h1 := (shows_gap_snd (hl c (List.mem_cons_self _ _))).append
      (ih fun d hd => hl d (List.mem_cons_of_mem _ hd))
    have e : 1 + l.length = (c :: l).length := by simp; omega
    rw [e] at h1
    exact h1

theorem shows_block_fst (l : List Char) (hl : ∀ c ∈ l, c ≠ ' ') :
    Shows (List.replicate l.length ' ') l [] l l.length := by
  induction l with
  | nil => exact shows_nil
  | cons c l ih =>
    have h1 := (shows_gap_fst (hl c (List.mem_cons_self _ _))).append
      (ih fun d hd => hl d (List.mem_cons_of_mem _ hd))
    have e : 1 + l.length = (c :: l).length := by simp; omega
    rw [e] at h1
    exact h1

theorem drop_eq_cons {l : List Char} {i : Nat} (h : i < l.length) :
    l.drop i = [l[i]] ++ l.drop (i + 1) := by
  rw [List.drop_eq_getElem_cons h]
  rfl

theorem mm_le_one (x y : List Char) (i j : Nat) : mm x y i j ≤ 1 := by
  unfold mm
  split <;> omega

theorem traceLoop_spec (x y : List Char) (hx : ∀ c ∈ x, c ≠ ' ') (hy : ∀ c ∈ y, c ≠ ' ')
    (A : Table)
    (hA : ∀ i j, i ≤ x.length → j ≤ y.length → cell A i j = some (ed x y i j : Int)) :
    ∀ (fuel i j : Nat) (og op : List Char) (d : Nat), i ≤ x.length → j ≤ y.length →
      i + j < fuel → Shows og op (x.drop i) (y.drop j) d →
      ∃ (i1 j1 : Nat) (og1 op1 : List Char) (d1 : Nat),
        traceLoop fuel A x y i j og op = .ok ((i1 : Int), (j1 : Int), og1, op1) ∧
        (i1 = 0 ∨ j1 = 0) ∧ i1 ≤ i ∧ j1 ≤ j ∧ Shows og1 op1 (x.drop i1) (y.drop j1) d1 ∧
        d1 + ed x y i1 j1 = d + ed x y i j := by
  intro fuel
  induction fuel with
  | zero => intro i j _ _ _ _ _ hf; omega
  | succ fuel ih =>
    intro i j og op d hi hj hf h
    by_cases hc : 0 < i ∧ 0 < j
    · obtain ⟨i, rfl⟩ : ∃ k, i = k + 1 := ⟨i - 1, by omega⟩
      obtain ⟨j, rfl⟩ : ∃ k, j = k + 1 := ⟨j - 1, by omega⟩
      have ei : ((i + 1 : Nat) : Int) - 1 = (i : Int) := by push_cast; ring
      have ej : ((j + 1 : Nat) : Int) - 1 = (j : Int) := by push_cast; ring
      have hi1 : i < x.length := by omega
      have hj1 : j < y.length := by omega
      have hxi : x[i]? = some (x[i]) := List.getElem?_eq_getElem hi1
      have hyj : y[j]? = some (y[j]) := List.getElem?_eq_getElem hj1
      have nx : x[i] ≠ ' ' := hx _ (List.getElem_mem _)
      have ny : y[j] ≠ ' ' := hy _ (List.getElem_mem _)
      have hcond : ((i + 1 : Nat) : Int) > 0 ∧ ((j + 1 : Nat) : Int) > 0 := by
        constructor <;> omega
      have hrec := ed_succ_succ x y i j
      have hm := mm_le_one x y i j
      rw [traceLoop, if_pos hcond, ei, ej,
        DFSLabeling.bind_ok _ _ _ (get_of_cell (hA i (j + 1) (by omega) (by omega))),
        DFSLabeling.bind_ok _ _ _ (get_of_cell (hA (i + 1) j (by omega) (by omega))),
        DFSLabeling.bind_ok _ _ _ (get_of_cell (hA i j (by omega) (by omega)))]
      dsimp only
      by_cases h1 : min3 (ed x y i (j + 1) : Int) (ed x y (i + 1) j : Int) (ed x y i j : Int)
          = (ed x y i j : Int)
      · rw [if_pos h1, DFSLabeling.bind_ok _ _ _ (charAt_ok hxi),
          DFSLabeling.bind_ok _ _ _ (charAt_ok hyj)]
        have hs : Shows (x[i] :: og) (y[j] :: op) (x.drop i) (y.drop j) (mm x y i j + d) := by
          rw [drop_eq_cons hi1, drop_eq_cons hj1, mm_of_get hxi hyj]
          exact (shows_both nx ny).append h
        obtain ⟨i1, j1, og1, op1, d1, e, h0, l1, l2, s1, q⟩ :=
          ih i j _ _ _ (by omega) (by omega) (by omega) hs
        refine ⟨i1, j1, og1, op1, d1, e, h0, by omega, by omega, s1, ?_⟩
        unfold min3 at h1
        omega
      · rw [if_neg h1]
        by_cases h2 : min3 (ed x y i (j + 1) : Int) (ed x y (i + 1) j : Int) (ed x y i j : Int)
            = (ed x y (i + 1) j : Int)
        · rw [if_pos h2, DFSLabeling.bind_ok _ _ _ (charAt_ok hyj)]
          have hs : Shows (' ' :: og) (y[j] :: op) (x.drop (i + 1)) (y.drop j) (1 + d) := by
            rw [drop_eq_cons hj1]
            exact (shows_gap_fst ny).append h
          obtain ⟨i1, j1, og1, op1, d1, e, h0, l1, l2, s1, q⟩ :=
            ih (i + 1) j _ _ _ (by omega) (by omega) (by omega) hs
          refine ⟨i1, j1, og1, op1, d1, e, h0, by omega, by omega, s1, ?_⟩
          unfold min3 at h1 h2
          omega
        · rw [if_neg h2, DFSLabeling.bind_ok _ _ _ (charAt_ok hxi)]
          have hs : Shows (x[i] :: og) (' ' :: op) (x.drop i) (y.drop (j + 1)) (1 + d) := by
            rw [drop_eq_cons hi1]
            exact (shows_gap_snd nx).append h
          obtain ⟨i1, j1, og1, op1, d1, e, h0, l1, l2, s1, q⟩ :=
            ih i (j + 1) _ _ _ (by omega) (by omega) (by omega) hs
          refine ⟨i1, j1, og1, op1, d1, e, h0, by omega, by omega, s1, ?_⟩
          unfold min3 at h1 h2
          omega
    · have hcond : ¬ ((i : Int) > 0 ∧ (j : Int) > 0) := by omega
      refine ⟨i, j, og, op, d, ?_, by omega, le_refl _, le_refl _, h, rfl⟩
      rw [traceLoop, if_neg hcond]
theorem getOptAlignment_spec (x y : List Char) (hx : ∀ c ∈ x, c ≠ ' ')
    (hy : ∀ c ∈ y, c ≠ ' ') (A : Table)
    (hA : ∀ i j, i ≤ x.length → j ≤ y.length → cell A i j = some (ed x y i j : Int))
    (fuel : Nat) (hf : x.length + y.length < fuel) :
    ∃ og op, getOptAlignment fuel A x y x.length y.length = .ok (og, op) ∧
      Shows og op x y (ed x y x.length y.length) := by
  have h0 : Shows [] [] (x.drop x.length) (y.drop y.length) 0 := by
    rw [List.drop_length, List.drop_length]; exact shows_nil
  obtain ⟨i1, j1, og1, op1, d1, e, hz, l1, l2, s1, q⟩ :=
    traceLoop_spec x y hx hy A hA fuel x.length y.length [] [] 0 (le_refl _) (le_refl _) hf h0
  rw [List.drop_eq_nil_iff.2 (le_refl _)] at h0
  unfold getOptAlignment
  rw [DFSLabeling.bind_ok _ _ _ e]
  dsimp only
  by_cases hi : i1 = 0
  · subst hi
    by_cases hj : j1 = 0
    · subst hj
      refine ⟨og1, op1, rfl, ?_⟩
      have : d1 = ed x y x.length y.length := by
        rw [ed_zero] at q; omega
      rw [← this]
      simpa using s1
    · have hj0 : ((j1 : Nat) : Int) > 0 := by omega
      refine ⟨List.replicate j1 ' ' ++ og1, y.take j1 ++ op1, ?_, ?_⟩
      · simp [hj0]
      · have hb := shows_block_fst (y.take j1) fun c hc => hy c (List.mem_of_mem_take hc)
        have hl : (y.take j1).length = j1 := by rw [List.length_take]; omega
        rw [hl] at hb
        have := hb.append s1
        rw [List.take_append_drop] at this
        have e2 : j1 + d1 = ed x y x.length y.length := by
          rw [ed_zero] at q; omega
        rw [e2] at this
        simpa using this
  · have hj : j1 = 0 := by omega
    subst hj
    have hi0 : ((i1 : Nat) : Int) > 0 := by omega
    refine ⟨x.take i1 ++ og1, List.replicate i1 ' ' ++ op1, ?_, ?_⟩
    · simp [hi0]
    · have hb := shows_block_snd (x.take i1) fun c hc => hx c (List.mem_of_mem_take hc)
      have hl : (x.take i1).length = i1 := by rw [List.length_take]; omega
      rw [hl] at hb
      have := hb.append s1
      rw [List.take_append_drop] at this
      have e2 : i1 + d1 = ed x y x.length y.length := by
        rw [ed_right] at q; omega
      rw [e2] at this
      simpa using this

theorem not_space_of_lower {c : Char} (h : 'a' ≤ c ∧ c ≤ 'z') : c ≠ ' ' := by
  intro e
  subst e
  exact absurd h.1 (by decide)

/-- The run of `main`: `opt` fills the table, `getOptAlignment` reads it, and
the two lines show an alignment with as many differing positions as the value
of the recurrence. -/
theorem main_spec (ord : ArgOrder) (x y : List Char) (hx : ∀ c ∈ x, 'a' ≤ c ∧ c ≤ 'z')
    (hy : ∀ c ∈ y, 'a' ≤ c ∧ c ≤ 'z') (fuel : Nat) (hf : x.length + y.length < fuel) :
    ∃ (B : Table) (og op : List Char),
      opt ord fuel (initTable x.length y.length) x y x.length y.length
        = .ok ((ed x y x.length y.length : Int), B) ∧
      getOptAlignment fuel B x y x.length y.length = .ok (og, op) ∧
      main ord fuel x y = .ok ((ed x y x.length y.length : Int), og, op) ∧
      Shows og op x y (ed x y x.length y.length) := by
  obtain ⟨B, e1, hB⟩ := opt_main ord x y fuel hf
  obtain ⟨og, op, e2, hs⟩ := getOptAlignment_spec x y
    (fun c hc => not_space_of_lower (hx c hc)) (fun c hc => not_space_of_lower (hy c hc))
    B hB fuel hf
  refine ⟨B, og, op, e1, e2, ?_, hs⟩
  unfold main
  dsimp only
  rw [DFSLabeling.bind_ok _ _ _ e1]
  dsimp only
  rw [DFSLabeling.bind_ok _ _ _ e2]

/-- C13: for words `x`, `y` over `a`-`z`, every order of evaluation and every
budget above `m + n`, the call of `opt` made by `main` returns a table on which
`getOptAlignment(A, x, y, m, n)` returns two strings of equal length; deleting
the spaces of the first gives `x`, deleting those of the second gives `y`, and
no position holds a space in both. -/
theorem C13_alignment_shape (ord : ArgOrder) (x y : List Char)
    (hx : ∀ c ∈ x, 'a' ≤ c ∧ c ≤ 'z') (hy : ∀ c ∈ y, 'a' ≤ c ∧ c ≤ 'z') (fuel : Nat)
    (hf : x.length + y.length < fuel) :
    ∃ (d : Int) (B : Table) (og op : List Char),
      opt ord fuel (initTable x.length y.length) x y x.length y.length = .ok (d, B) ∧
      getOptAlignment fuel B x y x.length y.length = .ok (og, op) ∧
      og.length = op.length ∧
      og.filter (fun c => decide (c ≠ ' ')) = x ∧
      op.filter (fun c => decide (c ≠ ' ')) = y ∧
      ∀ k : Nat, ¬ (og[k]? = some ' ' ∧ op[k]? = some ' ') := by
  obtain ⟨B, og, op, e1, e2, _, hs⟩ := main_spec ord x y hx hy fuel hf
  refine ⟨_, B, og, op, e1, e2, hs.len, hs.fst, hs.snd, ?_⟩
  intro k hk
  have hz : (og.zip op)[k]? = some (' ', ' ') := List.getElem?_zip_eq_some.2 hk
  exact hs.gaps _ (List.getElem?_mem hz) ⟨rfl, rfl⟩

/-- Instance of the theorem on the shape of the alignment for `abc` and `ac`. -/
theorem C13_alignment_shape_witness :
    ∃ (d : Int) (B : Table) (og op : List Char),
      opt ArgOrder.abc 6 (initTable ['a', 'b', 'c'].length ['a', 'c'].length)
        ['a', 'b', 'c'] ['a', 'c'] ['a', 'b', 'c'].length ['a', 'c'].length = .ok (d, B) ∧
      getOptAlignment 6 B ['a', 'b', 'c'] ['a', 'c'] ['a', 'b', 'c'].length ['a', 'c'].length
        = .ok (og, op) ∧
      og.length = op.length ∧
      og.filter (fun c => decide (c ≠ ' ')) = ['a', 'b', 'c'] ∧
      op.filter (fun c => decide (c ≠ ' ')) = ['a', 'c'] ∧
      ∀ k : Nat, ¬ (og[k]? = some ' ' ∧ op[k]? = some ' ') :=
  C13_alignment_shape ArgOrder.abc ['a', 'b', 'c'] ['a', 'c'] (by decide) (by decide) 6
    (by decide)

/-- C14: for words `x`, `y` over `a`-`z`, every order of evaluation and every
budget above `m + n`, `main` prints the value `d` returned by `opt` and the two
strings returned by `getOptAlignment`; the number of positions at which the two
strings differ is `d`, and no alignment of `x` and `y` costs less. -/
theorem C14_alignment_optimal (ord : ArgOrder) (x y : List Char)
    (hx : ∀ c ∈ x, 'a' ≤ c ∧ c ≤ 'z') (hy : ∀ c ∈ y, 'a' ≤ c ∧ c ≤ 'z') (fuel : Nat)
    (hf : x.length + y.length < fuel) :
    ∃ (d : Nat) (B : Table) (og op : List Char),
      opt ord fuel (initTable x.length y.length) x y x.length y.length = .ok ((d : Int), B) ∧
      getOptAlignment fuel B x y x.length y.length = .ok (og, op) ∧
      main ord fuel x y = .ok ((d : Int), og, op) ∧
      differ og op = d ∧
      ∀ a, IsAlignment a x y → differ og op ≤ cost a := by
  obtain ⟨B, og, op, e1, e2, e3, hs⟩ := main_spec ord x y hx hy fuel hf
  refine ⟨_, B, og, op, e1, e2, e3, hs.diff, ?_⟩
  intro a ha
  rw [hs.diff]
  exact ed_le_cost x y a x.length y.length (le_refl _) (le_refl _) (by simpa using ha)

/-- Instance of the theorem on the optimality of the alignment for `abc` and
`ac`. -/
theorem C14_alignment_optimal_witness :
    ∃ (d : Nat) (B : Table) (og op : List Char),
      opt ArgOrder.bca 6 (initTable ['a', 'b', 'c'].length ['a', 'c'].length)
        ['a', 'b', 'c'] ['a', 'c'] ['a', 'b', 'c'].length ['a', 'c'].length
        = .ok ((d : Int), B) ∧
      getOptAlignment 6 B ['a', 'b', 'c'] ['a', 'c'] ['a', 'b', 'c'].length ['a', 'c'].length
        = .ok (og, op) ∧
      main ArgOrder.bca 6 ['a', 'b', 'c'] ['a', 'c'] = .ok ((d : Int), og, op) ∧
      differ og op = d ∧
      ∀ a, IsAlignment a ['a', 'b', 'c'] ['a', 'c'] → differ og op ≤ cost a :=
  C14_alignment_optimal ArgOrder.bca ['a', 'b', 'c'] ['a', 'c'] (by decide) (by decide) 6
    (by decide)

end Alignment
